import Mathlib

/-!
Verification of the diff-match-patch TypeScript port (`src/DiffMatchPatch.ts`).

Strings are modelled as lists of UTF-16 code units (`List Nat`), matching the
JavaScript string model the source operates on.  Imperative loops are modelled
as fuel-indexed recursions; where a loop's termination is not structural the
function returns `Option` and theorems are stated conditionally on a `some`
result.  The enum `DiffOperation` and the helpers `math.max`/`math.min`
(imported by the source from files not in the repository snapshot) are modelled
from the spec's data model: three operations EQUAL / INSERT / DELETE, and the
usual max/min on numbers.
-/

namespace DMP

/-- A JavaScript string: a finite sequence of UTF-16 code units. -/
abbrev Str := List Nat

/-- JS `s.substring(a, b)`: clamps both indices to `[0, length]` and swaps
them when out of order. -/
def jsSubstring (s : Str) (a b : Nat) : Str :=
  (s.take (max a b)).drop (min a b)

/-- JS `s.substring(a)`. -/
def jsSubstringFrom (s : Str) (a : Nat) : Str :=
  s.drop a

/-- JS `s.charAt(i)` as an optional code unit (`none` models the empty string
JS returns out of range). -/
def jsCharAt (s : Str) (i : Nat) : Option Nat :=
  s.get? i

/-- The diff operation, from the source's `DiffOperation` enum
(DIFF_DELETE / DIFF_INSERT / DIFF_EQUAL). -/
inductive Op : Type
  | del : Op
  | ins : Op
  | eq : Op
deriving DecidableEq, Repr

/-- A diff tuple `(operation, text)`, the source's `Diff`. -/
abbrev Diff := Op × Str

/-- An edit script: the source's `Diff[]`. -/
abbrev Script := List Diff

/-- `diff_text1`: concatenation of the texts of all non-INSERT segments. -/
def diff_text1 : Script → Str
  | [] => []
  | (op, s) :: rest => (if op = Op.ins then [] else s) ++ diff_text1 rest

/-- `diff_text2`: concatenation of the texts of all non-DELETE segments. -/
def diff_text2 : Script → Str
  | [] => []
  | (op, s) :: rest => (if op = Op.del then [] else s) ++ diff_text2 rest

/-- The loop of `diff_levenshtein`, carrying the levenshtein accumulator and
the pending insertion/deletion character counts. -/
def levLoop : Script → Nat → Nat → Nat → Nat
  | [], acc, insertions, deletions => acc + max insertions deletions
  | (op, s) :: rest, acc, insertions, deletions =>
    match op with
    | Op.ins => levLoop rest acc (insertions + s.length) deletions
    | Op.del => levLoop rest acc insertions (deletions + s.length)
    | Op.eq => levLoop rest (acc + max insertions deletions) 0 0

/-- `diff_levenshtein`. -/
def diff_levenshtein (diffs : Script) : Nat :=
  levLoop diffs 0 0 0

/-- The loop of `diff_xIndex`: carries `last_chars1`/`last_chars2`; the
running `chars1`/`chars2` of the source are recomputed at each segment. -/
def xIndexLoop : Script → Int → Int → Int → Int
  | [], loc, l1, l2 => l2 + (loc - l1)
  | (op, s) :: rest, loc, l1, l2 =>
    let c1 : Int := l1 + (if op = Op.ins then 0 else (s.length : Int))
    let c2 : Int := l2 + (if op = Op.del then 0 else (s.length : Int))
    if loc < c1 then
      (if op = Op.del then l2 else l2 + (loc - l1))
    else xIndexLoop rest loc c1 c2

/-- `diff_xIndex`: translate a location in text1 to text2. -/
def diff_xIndex (diffs : Script) (loc : Int) : Int :=
  xIndexLoop diffs loc 0 0

/-- Specification-side longest-common-prefix length of two strings. -/
def lcp : Str → Str → Nat
  | a :: s, b :: t => if a = b then lcp s t + 1 else 0
  | _, _ => 0

/-- Specification-side longest-common-suffix length. -/
def lcs (s t : Str) : Nat :=
  lcp s.reverse t.reverse

theorem lcp_le_left : ∀ s t : Str, lcp s t ≤ s.length := by
  intro s
  induction s with
  | nil => intro t; cases t <;> simp [lcp]
  | cons a s ih =>
    intro t
    cases t with
    | nil => simp [lcp]
    | cons b t =>
      by_cases h : a = b <;> simp [lcp, h]
      exact ih t

theorem lcp_comm_le : ∀ s t : Str, lcp s t = lcp t s := by
  intro s
  induction s with
  | nil => intro t; cases t <;> simp [lcp]
  | cons a s ih =>
    intro t
    cases t with
    | nil => simp [lcp]
    | cons b t =>
      by_cases h : a = b
      · subst h; simp [lcp, ih]
      · simp only [lcp]
        rw [if_neg h, if_neg (fun hh => h hh.symm)]

theorem lcp_le_right (s t : Str) : lcp s t ≤ t.length := by
  rw [lcp_comm_le]; exact lcp_le_left t s

theorem take_lcp_eq : ∀ s t : Str, s.take (lcp s t) = t.take (lcp s t) := by
  intro s
  induction s with
  | nil => intro t; cases t <;> simp [lcp]
  | cons a s ih =>
    intro t
    cases t with
    | nil => simp [lcp]
    | cons b t =>
      by_cases h : a = b
      · subst h; simp [lcp, ih]
      · simp [lcp, h]

theorem le_lcp_of_take_eq :
    ∀ (s t : Str) (k : Nat), k ≤ s.length → k ≤ t.length →
      s.take k = t.take k → k ≤ lcp s t := by
  intro s
  induction s with
  | nil => intro t k hk _ _; simp at hk; omega
  | cons a s ih =>
    intro t k hk hk2 he
    cases t with
    | nil => simp at hk2; omega
    | cons b t =>
      cases k with
      | zero => exact Nat.zero_le _
      | succ k =>
        simp only [List.take_succ_cons, List.cons.injEq] at he
        obtain ⟨rfl, he⟩ := he
        have := ih t k (by simpa using hk) (by simpa using hk2) he
        simp [lcp]
        omega

/-- `take` up to a common-prefix bound agrees. -/
theorem take_eq_of_le_lcp (s t : Str) (k : Nat) (hk : k ≤ lcp s t) :
    s.take k = t.take k := by
  have h := take_lcp_eq s t
  have h1 : s.take k = (s.take (lcp s t)).take k := by
    rw [List.take_take, min_eq_left hk]
  have h2 : t.take k = (t.take (lcp s t)).take k := by
    rw [List.take_take, min_eq_left hk]
  rw [h1, h2, h]

/-- The shared shape of the binary-search loops of `diff_commonPrefix` and
`diff_commonSuffix`: state `(pointermin, pointermax, pointermid,
pointerstart/pointerend)`, with the source's substring comparison abstracted
as `test`. -/
def halvingLoop (test : Nat → Nat → Bool) : Nat → Nat → Nat → Nat → Nat → Nat
  | 0, _pmin, _pmax, pmid, _pstart => pmid
  | fuel + 1, pmin, pmax, pmid, pstart =>
    if pmin < pmid then
      if test pstart pmid then
        halvingLoop test fuel pmid pmax ((pmax - pmid) / 2 + pmid) pmid
      else
        halvingLoop test fuel pmin pmid ((pmid - pmin) / 2 + pmin) pstart
    else pmid

theorem halvingLoop_eq (test : Nat → Nat → Bool) (L B : Nat)
    (ht : ∀ s m, s ≤ L → s ≤ m → m ≤ B → (test s m = true ↔ m ≤ L)) :
    ∀ fuel pmin pmax, pmin ≤ L → L < pmax → pmax ≤ B → pmax - pmin ≤ fuel →
      halvingLoop test fuel pmin pmax ((pmax - pmin) / 2 + pmin) pmin = L := by
  intro fuel
  induction fuel with
  | zero => intro pmin pmax h1 h2 _ h4; omega
  | succ fuel ih =>
    intro pmin pmax h1 h2 hB h4
    by_cases hgap : pmax - pmin ≤ 1
    · -- pointermid = pointermin: the loop exits at once.
      have hmid : (pmax - pmin) / 2 + pmin = pmin := by omega
      rw [hmid]
      simp only [halvingLoop, lt_irrefl, if_false]
      omega
    · have hmidgt : pmin < (pmax - pmin) / 2 + pmin := by omega
      have hmidlt : (pmax - pmin) / 2 + pmin < pmax := by omega
      simp only [halvingLoop, if_pos hmidgt]
      by_cases hm : (pmax - pmin) / 2 + pmin ≤ L
      · rw [if_pos ((ht pmin _ h1 (by omega) (by omega)).mpr hm)]
        exact ih _ pmax hm h2 hB (by omega)
      · rw [if_neg (by
          intro hc
          exact hm ((ht pmin _ h1 (by omega) (by omega)).mp hc))]
        exact ih pmin _ h1 (by omega) (by omega) (by omega)

theorem halvingLoop_init (test : Nat → Nat → Bool) (L minlen : Nat)
    (ht : ∀ s m, s ≤ L → s ≤ m → m ≤ minlen → (test s m = true ↔ m ≤ L))
    (hL : L ≤ minlen) (hmin : 1 ≤ minlen) :
    halvingLoop test (minlen + 2) 0 minlen minlen 0 = L := by
  show halvingLoop test (minlen + 1 + 1) 0 minlen minlen 0 = L
  rw [halvingLoop, if_pos (show 0 < minlen from hmin)]
  by_cases hfull : minlen ≤ L
  · have hLe : L = minlen := le_antisymm hL hfull
    rw [if_pos ((ht 0 minlen (Nat.zero_le _) (Nat.zero_le _) le_rfl).mpr hfull)]
    have h1 : (minlen - minlen) / 2 + minlen = minlen := by omega
    rw [h1]
    show halvingLoop test (minlen + 1) minlen minlen minlen minlen = L
    cases hminl : minlen + 1 with
    | zero => omega
    | succ f =>
      rw [halvingLoop, if_neg (lt_irrefl minlen)]
      omega
  · rw [if_neg (by
      intro hc
      exact hfull ((ht 0 minlen (Nat.zero_le _) (Nat.zero_le _) le_rfl).mp hc))]
    exact halvingLoop_eq test L minlen ht (minlen + 1) 0 minlen (Nat.zero_le _)
      (by omega) le_rfl (by omega)

/-- `diff_commonPrefix`: the quick head check, then binary search. -/
def diff_commonPrefix (t1 t2 : Str) : Nat :=
  if t1.isEmpty ∨ t2.isEmpty ∨ t1.head? ≠ t2.head? then 0
  else
    halvingLoop
      (fun pstart pmid =>
        decide (jsSubstring t1 pstart pmid = jsSubstring t2 pstart pmid))
      (min t1.length t2.length + 2) 0 (min t1.length t2.length)
      (min t1.length t2.length) 0

/-- `diff_commonSuffix`: the quick last-unit check, then binary search over
suffix lengths. -/
def diff_commonSuffix (t1 t2 : Str) : Nat :=
  if t1.isEmpty ∨ t2.isEmpty ∨ t1.getLast? ≠ t2.getLast? then 0
  else
    halvingLoop
      (fun pend pmid =>
        decide (jsSubstring t1 (t1.length - pmid) (t1.length - pend)
          = jsSubstring t2 (t2.length - pmid) (t2.length - pend)))
      (min t1.length t2.length + 2) 0 (min t1.length t2.length)
      (min t1.length t2.length) 0

theorem jsSubstring_of_le (s : Str) (a b : Nat) (h : a ≤ b) :
    jsSubstring s a b = (s.take b).drop a := by
  unfold jsSubstring
  rw [max_eq_right h, min_eq_left h]

/-- Over a known common prefix of length `s ≤ m`, the substring comparison of
`[s, m)` slices is the comparison of `take m`. -/
theorem slice_eq_iff_take_eq (t1 t2 : Str) (s m : Nat) (hsm : s ≤ m)
    (hs : t1.take s = t2.take s) :
    ((t1.take m).drop s = (t2.take m).drop s) ↔ t1.take m = t2.take m := by
  constructor
  · intro h
    have e1 : t1.take m = (t1.take m).take s ++ (t1.take m).drop s :=
      (List.take_append_drop s (t1.take m)).symm
    have e2 : t2.take m = (t2.take m).take s ++ (t2.take m).drop s :=
      (List.take_append_drop s (t2.take m)).symm
    rw [e1, e2, List.take_take, List.take_take, min_eq_left hsm, hs, h]
  · intro h; rw [h]

theorem take_eq_iff_le_lcp (t1 t2 : Str) (m : Nat)
    (hm1 : m ≤ t1.length) (hm2 : m ≤ t2.length) :
    t1.take m = t2.take m ↔ m ≤ lcp t1 t2 := by
  constructor
  · exact le_lcp_of_take_eq t1 t2 m hm1 hm2
  · exact take_eq_of_le_lcp t1 t2 m

theorem diff_commonPrefix_eq_lcp (t1 t2 : Str) :
    diff_commonPrefix t1 t2 = lcp t1 t2 := by
  unfold diff_commonPrefix
  by_cases hguard : t1.isEmpty ∨ t2.isEmpty ∨ t1.head? ≠ t2.head?
  · rw [if_pos hguard]
    rcases hguard with h | h | h
    · cases t1 with
      | nil => cases t2 <;> simp [lcp]
      | cons a s => simp [List.isEmpty] at h
    · cases t2 with
      | nil => cases t1 <;> simp [lcp]
      | cons a s => simp [List.isEmpty] at h
    · cases t1 with
      | nil => cases t2 <;> simp [lcp]
      | cons a s =>
        cases t2 with
        | nil => simp [lcp]
        | cons b t =>
          simp only [List.head?] at h
          have hab : a ≠ b := by intro hc; exact h (by rw [hc])
          simp [lcp, hab]
  · rw [if_neg hguard]
    push_neg at hguard
    obtain ⟨h1, h2, _⟩ := hguard
    have hn1 : t1 ≠ [] := by cases t1 <;> simp_all [List.isEmpty]
    have hn2 : t2 ≠ [] := by cases t2 <;> simp_all [List.isEmpty]
    have hmin : 1 ≤ min t1.length t2.length := by
      have := List.length_pos.mpr hn1
      have := List.length_pos.mpr hn2
      omega
    apply halvingLoop_init _ _ _ _ (le_min (lcp_le_left t1 t2) (lcp_le_right t1 t2)) hmin
    intro s m hsL hsm hmB
    have hs : t1.take s = t2.take s := take_eq_of_le_lcp t1 t2 s hsL
    rw [decide_eq_true_iff, jsSubstring_of_le _ _ _ hsm, jsSubstring_of_le _ _ _ hsm,
      slice_eq_iff_take_eq t1 t2 s m hsm hs,
      take_eq_iff_le_lcp t1 t2 m (le_trans hmB (min_le_left _ _))
        (le_trans hmB (min_le_right _ _))]

/-- A `[len-m, len-s)` slice of `t` is the reverse of the `[s, m)` slice of
`t.reverse`. -/
theorem suffix_slice_eq_reverse (t : Str) (s m : Nat) (hsm : s ≤ m)
    (hm : m ≤ t.length) :
    (t.take (t.length - s)).drop (t.length - m)
      = ((t.reverse.take m).drop s).reverse := by
  have h2 : (t.reverse.take m).drop s = (t.reverse.drop s).take (m - s) :=
    List.drop_take m s t.reverse
  have h1 : t.reverse.drop s = (t.take (t.length - s)).reverse := by
    rw [List.reverse_take]
    congr 1
    omega
  rw [h2, h1]
  have h3 : ((t.take (t.length - s)).drop (t.length - m)).reverse
      = (t.take (t.length - s)).reverse.take (m - s) := by
    rw [List.reverse_drop]
    congr 1
    simp only [List.length_take]
    omega
  rw [← h3, List.reverse_reverse]

theorem diff_commonSuffix_eq_lcs (t1 t2 : Str) :
    diff_commonSuffix t1 t2 = lcs t1 t2 := by
  unfold diff_commonSuffix
  by_cases hguard : t1.isEmpty ∨ t2.isEmpty ∨ t1.getLast? ≠ t2.getLast?
  · rw [if_pos hguard]
    unfold lcs
    rcases hguard with h | h | h
    · have : t1 = [] := by cases t1 <;> simp_all [List.isEmpty]
      subst this
      cases hr : t2.reverse <;> simp [lcp]
    · have : t2 = [] := by cases t2 <;> simp_all [List.isEmpty]
      subst this
      cases hr : t1.reverse <;> simp [lcp]
    · rw [← List.head?_reverse, ← List.head?_reverse] at h
      cases hr1 : t1.reverse with
      | nil => simp [lcp]
      | cons a s =>
        cases hr2 : t2.reverse with
        | nil => cases s <;> simp [lcp]
        | cons b t =>
          rw [hr1, hr2] at h
          simp only [List.head?] at h
          have hab : a ≠ b := by intro hc; exact h (by rw [hc])
          simp [lcp, hab]
  · rw [if_neg hguard]
    push_neg at hguard
    obtain ⟨h1, h2, _⟩ := hguard
    have hn1 : t1 ≠ [] := by cases t1 <;> simp_all [List.isEmpty]
    have hn2 : t2 ≠ [] := by cases t2 <;> simp_all [List.isEmpty]
    have hmin : 1 ≤ min t1.length t2.length := by
      have := List.length_pos.mpr hn1
      have := List.length_pos.mpr hn2
      omega
    have hLlen : lcs t1 t2 ≤ min t1.length t2.length := by
      have a1 := lcp_le_left t1.reverse t2.reverse
      have a2 := lcp_le_right t1.reverse t2.reverse
      simp only [List.length_reverse] at a1 a2
      exact le_min a1 a2
    apply halvingLoop_init _ _ _ _ hLlen hmin
    intro s m hsL hsm hmB
    have hm1 : m ≤ t1.length := le_trans hmB (min_le_left _ _)
    have hm2 : m ≤ t2.length := le_trans hmB (min_le_right _ _)
    have hle1 : t1.length - m ≤ t1.length - s := by omega
    have hle2 : t2.length - m ≤ t2.length - s := by omega
    rw [decide_eq_true_iff, jsSubstring_of_le _ _ _ hle1, jsSubstring_of_le _ _ _ hle2,
      suffix_slice_eq_reverse t1 s m hsm hm1, suffix_slice_eq_reverse t2 s m hsm hm2]
    have hs : t1.reverse.take s = t2.reverse.take s := take_eq_of_le_lcp _ _ s hsL
    rw [List.reverse_inj,
      slice_eq_iff_take_eq t1.reverse t2.reverse s m hsm hs,
      take_eq_iff_le_lcp t1.reverse t2.reverse m (by simpa using hm1) (by simpa using hm2)]
    exact Iff.rfl

/-- The last `k` units of `s`. -/
def lastUnits (s : Str) (k : Nat) : Str :=
  s.drop (s.length - k)

theorem lastUnits_eq_reverse_take (s : Str) (k : Nat) (_hk : k ≤ s.length) :
    lastUnits s k = (s.reverse.take k).reverse := by
  unfold lastUnits
  rw [List.reverse_take]
  simp

/-- C4: `diff_commonPrefix` returns the largest `k` such that the first `k`
code units of the two strings agree, and `diff_commonSuffix` the largest `k`
such that the last `k` code units agree. -/
theorem C4_commonPrefix_commonSuffix_largest (a b : Str) :
    (diff_commonPrefix a b ≤ a.length ∧ diff_commonPrefix a b ≤ b.length ∧
      a.take (diff_commonPrefix a b) = b.take (diff_commonPrefix a b) ∧
      ∀ k, k ≤ a.length → k ≤ b.length → a.take k = b.take k →
        k ≤ diff_commonPrefix a b) ∧
    (diff_commonSuffix a b ≤ a.length ∧ diff_commonSuffix a b ≤ b.length ∧
      lastUnits a (diff_commonSuffix a b) = lastUnits b (diff_commonSuffix a b) ∧
      ∀ k, k ≤ a.length → k ≤ b.length → lastUnits a k = lastUnits b k →
        k ≤ diff_commonSuffix a b) := by
  constructor
  · rw [diff_commonPrefix_eq_lcp]
    refine ⟨lcp_le_left a b, lcp_le_right a b, take_lcp_eq a b, ?_⟩
    intro k hk1 hk2 hke
    exact le_lcp_of_take_eq a b k hk1 hk2 hke
  · rw [diff_commonSuffix_eq_lcs]
    have hL1 : lcs a b ≤ a.length := by
      have := lcp_le_left a.reverse b.reverse
      simpa using this
    have hL2 : lcs a b ≤ b.length := by
      have := lcp_le_right a.reverse b.reverse
      simpa using this
    refine ⟨hL1, hL2, ?_, ?_⟩
    · rw [lastUnits_eq_reverse_take a _ hL1, lastUnits_eq_reverse_take b _ hL2]
      congr 1
      exact take_lcp_eq a.reverse b.reverse
    · intro k hk1 hk2 hke
      rw [lastUnits_eq_reverse_take a _ hk1, lastUnits_eq_reverse_take b _ hk2,
        List.reverse_inj] at hke
      exact le_lcp_of_take_eq a.reverse b.reverse k (by simpa using hk1)
        (by simpa using hk2) hke

/-- Lower bound for the `diff_xIndex` loop: when the target has not yet been
passed, the result is at least the accumulated text2 length. -/
theorem xIndexLoop_ge (l : Script) :
    ∀ loc c1 c2, c1 ≤ loc → c2 ≤ xIndexLoop l loc c1 c2 := by
  induction l with
  | nil =>
    intro loc c1 c2 h
    simp only [xIndexLoop]
    omega
  | cons d rest ih =>
    intro loc c1 c2 h
    obtain ⟨op, s⟩ := d
    simp only [xIndexLoop]
    by_cases hb : loc < c1 + (if op = Op.ins then 0 else (s.length : Int))
    · rw [if_pos hb]
      by_cases hd : op = Op.del
      · rw [if_pos hd]
      · rw [if_neg hd]; omega
    · rw [if_neg hb]
      refine le_trans ?_ (ih loc _ _ (by omega))
      have : (0 : Int) ≤ (if op = Op.del then 0 else (s.length : Int)) := by
        by_cases hd : op = Op.del <;> simp [hd]
      omega

theorem xIndexLoop_mono (l : Script) :
    ∀ loc1 loc2 c1 c2, loc1 ≤ loc2 →
      xIndexLoop l loc1 c1 c2 ≤ xIndexLoop l loc2 c1 c2 := by
  induction l with
  | nil =>
    intro loc1 loc2 c1 c2 h
    simp only [xIndexLoop]
    omega
  | cons d rest ih =>
    intro loc1 loc2 c1 c2 h
    obtain ⟨op, s⟩ := d
    simp only [xIndexLoop]
    set n1 : Int := (if op = Op.ins then 0 else (s.length : Int)) with hn1
    set n2 : Int := (if op = Op.del then 0 else (s.length : Int)) with hn2
    by_cases hb2 : loc2 < c1 + n1
    · -- both break here
      have hb1 : loc1 < c1 + n1 := by omega
      rw [if_pos hb1, if_pos hb2]
      by_cases hd : op = Op.del
      · rw [if_pos hd, if_pos hd]
      · rw [if_neg hd, if_neg hd]; omega
    · rw [if_neg hb2]
      by_cases hb1 : loc1 < c1 + n1
      · -- loc1 breaks, loc2 continues
        rw [if_pos hb1]
        have hge : c2 + n2 ≤ xIndexLoop rest loc2 (c1 + n1) (c2 + n2) :=
          xIndexLoop_ge rest loc2 _ _ (by omega)
        by_cases hd : op = Op.del
        · rw [if_pos hd]
          have : n2 = 0 := by simp [hn2, hd]
          omega
        · rw [if_neg hd]
          have hn2v : n2 = (s.length : Int) := by simp [hn2, hd]
          have hn1le : n1 ≤ (s.length : Int) := by
            by_cases hi : op = Op.ins <;> simp [hn1, hi]
          omega
      · rw [if_neg hb1]
        exact ih loc1 loc2 _ _ h

/-- C9: for a fixed diff script, `diff_xIndex` is monotone non-decreasing in
the location. -/
theorem C9_xIndex_monotone (diffs : Script) (loc1 loc2 : Int)
    (h : loc1 ≤ loc2) :
    diff_xIndex diffs loc1 ≤ diff_xIndex diffs loc2 :=
  xIndexLoop_mono diffs loc1 loc2 0 0 h

/-- Witness for C9 at a concrete script and pair of locations. -/
theorem C9_xIndex_monotone_witness :
    (0 : Int) ≤ 1 ∧
      diff_xIndex [(Op.eq, [84, 104, 101, 32]), (Op.ins, [98, 105, 103, 32]),
        (Op.eq, [99, 97, 116])] 0
      ≤ diff_xIndex [(Op.eq, [84, 104, 101, 32]), (Op.ins, [98, 105, 103, 32]),
        (Op.eq, [99, 97, 116])] 1 :=
  ⟨by decide, C9_xIndex_monotone _ 0 1 (by decide)⟩

/-! ## Match: the Bitap locator -/

/-- The tuning fields of the `DiffMatchPatch` class (source defaults). -/
structure DMPConfig where
  Diff_Timeout : ℚ := 1
  Diff_EditCost : Nat := 4
  Match_Threshold : ℚ := 1/2
  Match_Distance : Nat := 1000
  Match_MaxBits : Nat := 32

/-- The default instance configuration. -/
def defaultConfig : DMPConfig := {}

/-- The errors the source throws (`throw new Error(...)`). -/
inductive JsError : Type
  | nullInput : JsError
  | patternTooLong : JsError
  | invalidEscape : JsError
  | invalidLength : JsError
  | invalidOperation : JsError
  | deltaLengthMismatch : JsError
deriving DecidableEq, Repr

/-- Does `pat` occur in `s` at index `i` (with room)? -/
def matchAt (s pat : Str) (i : Nat) : Bool :=
  decide (i + pat.length ≤ s.length) && decide ((s.drop i).take pat.length = pat)

/-- JS `s.indexOf(pat, fromIdx)` (`none` models `-1`). -/
def jsIndexOf (s pat : Str) (fromIdx : Nat) : Option Nat :=
  (List.range (s.length + 1)).find?
    (fun i => decide (min fromIdx s.length ≤ i) && matchAt s pat i)

/-- JS `s.lastIndexOf(pat, fromIdx)` (`none` models `-1`). -/
def jsLastIndexOf (s pat : Str) (fromIdx : Nat) : Option Nat :=
  (List.range (s.length + 1)).reverse.find?
    (fun i => decide (i ≤ min fromIdx s.length) && matchAt s pat i)

/-- `2^32`, the modulus of JS 32-bit integer bitwise arithmetic. -/
def pow32 : Nat := 4294967296

/-- The shift count JS uses for `<<`: the count taken mod 32 (so `1 << -1`
shifts by 31). -/
def jsShiftCount (n : Int) : Nat :=
  (n % 32).toNat

/-- JS `x << n` for a non-negative 32-bit pattern `x`. -/
def jsShl (x : Nat) (n : Int) : Nat :=
  (x <<< jsShiftCount n) % pow32

/-- `match_alphabet_`: the bitmask of each code unit's occurrences in the
pattern, as a total function (absent units map to 0, modelling the
`undefined`-to-0 coercion of JS bitwise ops). -/
def match_alphabet_ (pattern : Str) (c : Option Nat) : Nat :=
  match c with
  | none => 0
  | some u =>
    (List.range pattern.length).foldl
      (fun acc i =>
        if pattern.get? i = some u then
          acc ||| jsShl 1 ((pattern.length : Int) - i - 1)
        else acc)
      0

/-- `match_bitapScore_`: `e/|pattern| + |loc - x| / Match_Distance`, with the
divide-by-zero dodge when `Match_Distance = 0`. -/
def match_bitapScore_ (cfg : DMPConfig) (e x : Nat) (pattern : Str)
    (loc : Nat) : ℚ :=
  let accuracy : ℚ := (e : ℚ) / (pattern.length : ℚ)
  let proximity : Nat := ((loc : Int) - (x : Int)).natAbs
  if cfg.Match_Distance = 0 then
    (if proximity ≠ 0 then 1 else accuracy)
  else accuracy + (proximity : ℚ) / (cfg.Match_Distance : ℚ)

/-- One `rd[j]` value of the Bitap shift-or recurrence. -/
def bitapRdValue (d charMatch rdNext lastRdNext lastRdHere : Nat) : Nat :=
  if d = 0 then
    (((rdNext <<< 1) ||| 1) &&& charMatch) % pow32
  else
    ((((rdNext <<< 1) ||| 1) &&& charMatch) |||
      ((((lastRdNext ||| lastRdHere) <<< 1) ||| 1) ||| lastRdNext)) % pow32

/-- The inner right-to-left sweep of `match_bitap_` at error level `d`:
`j` runs from `finish` down to the (mutable) `start`; returns the filled
`rd` row, the updated score threshold and the updated best location. -/
def bitapSweep (cfg : DMPConfig) (text pattern : Str) (loc matchmask d : Nat)
    (lastRd : Nat → Nat) :
    Nat → Nat → ℚ → Int → (Nat → Nat) → ((Nat → Nat) × ℚ × Int)
  | 0, _start, thr, bestLoc, rd => (rd, thr, bestLoc)
  | j + 1, start, thr, bestLoc, rd =>
    if j + 1 < start then (rd, thr, bestLoc)
    else
      if bitapRdValue d (match_alphabet_ pattern (jsCharAt text j)) (rd (j + 2))
          (lastRd (j + 2)) (lastRd (j + 1)) &&& matchmask ≠ 0 then
        if match_bitapScore_ cfg d j pattern loc ≤ thr then
          if (j : Int) > (loc : Int) then
            bitapSweep cfg text pattern loc matchmask d lastRd j
              (max 1 ((2 * (loc : Int) - (j : Int)).toNat))
              (match_bitapScore_ cfg d j pattern loc) j
              (fun i => if i = j + 1 then
                bitapRdValue d (match_alphabet_ pattern (jsCharAt text j))
                  (rd (j + 2)) (lastRd (j + 2)) (lastRd (j + 1))
                else rd i)
          else ((fun i => if i = j + 1 then
              bitapRdValue d (match_alphabet_ pattern (jsCharAt text j))
                (rd (j + 2)) (lastRd (j + 2)) (lastRd (j + 1))
              else rd i),
            match_bitapScore_ cfg d j pattern loc, (j : Int))
        else
          bitapSweep cfg text pattern loc matchmask d lastRd j start thr bestLoc
            (fun i => if i = j + 1 then
              bitapRdValue d (match_alphabet_ pattern (jsCharAt text j))
                (rd (j + 2)) (lastRd (j + 2)) (lastRd (j + 1))
              else rd i)
      else
        bitapSweep cfg text pattern loc matchmask d lastRd j start thr bestLoc
          (fun i => if i = j + 1 then
            bitapRdValue d (match_alphabet_ pattern (jsCharAt text j))
              (rd (j + 2)) (lastRd (j + 2)) (lastRd (j + 1))
            else rd i)

/-- The error-level loop of `match_bitap_` (`d` from 0 while `d < |pattern|`),
carrying `score_threshold`, `best_loc`, `bin_max` and `last_rd`. -/
def bitapLoop (cfg : DMPConfig) (text pattern : Str) (loc matchmask : Nat) :
    Nat → Nat → ℚ → Int → Nat → (Nat → Nat) → Int
  | 0, _d, _thr, bestLoc, _binMax, _lastRd => bestLoc
  | levels + 1, d, thr, bestLoc, binMax, lastRd =>
    let binMid :=
      halvingLoop
        (fun _ m => decide (match_bitapScore_ cfg d (loc + m) pattern loc ≤ thr))
        (binMax + 2) 0 binMax binMax 0
    let start := max 1 (((loc : Int) - (binMid : Int) + 1).toNat)
    let finish := min (loc + binMid) text.length + pattern.length
    let rd0 : Nat → Nat := fun i => if i = finish + 1 then (jsShl 1 d - 1) % pow32 else 0
    let res := bitapSweep cfg text pattern loc matchmask d lastRd finish start thr bestLoc rd0
    if match_bitapScore_ cfg (d + 1) loc pattern loc > res.2.1 then res.2.2
    else bitapLoop cfg text pattern loc matchmask levels (d + 1) res.2.1 res.2.2 binMid res.1

/-- `match_bitap_`: locate the best fuzzy occurrence of `pattern` near `loc`. -/
def match_bitap_ (cfg : DMPConfig) (text pattern : Str) (loc : Nat) :
    Except JsError Int :=
  if pattern.length > cfg.Match_MaxBits then .error .patternTooLong
  else
    let thr0 := cfg.Match_Threshold
    let thr1 :=
      match jsIndexOf text pattern loc with
      | some bl =>
        let t := min (match_bitapScore_ cfg 0 bl pattern loc) thr0
        (match jsLastIndexOf text pattern (loc + pattern.length) with
        | some bl2 => min (match_bitapScore_ cfg 0 bl2 pattern loc) t
        | none => t)
      | none => thr0
    let matchmask := jsShl 1 ((pattern.length : Int) - 1)
    .ok (bitapLoop cfg text pattern loc matchmask pattern.length 0 thr1 (-1)
      (pattern.length + text.length) (fun _ => 0))

/-- `match_main`: shortcut checks, then Bitap. -/
def match_main (cfg : DMPConfig) (text pattern : Str) (loc : Int) :
    Except JsError Int :=
  let loc2 : Nat := (min loc (text.length : Int)).toNat
  if text = pattern then .ok 0
  else if text.length = 0 then .ok (-1)
  else if jsSubstring text loc2 (loc2 + pattern.length) = pattern then .ok loc2
  else match_bitap_ cfg text pattern loc2

/-- C7: whenever the pattern is longer than `Match_MaxBits`, the Bitap search
throws PATTERN_TOO_LONG instead of returning an index. -/
theorem C7_bitap_pattern_too_long (cfg : DMPConfig) (text pattern : Str)
    (loc : Nat) (h : pattern.length > cfg.Match_MaxBits) :
    match_bitap_ cfg text pattern loc = Except.error JsError.patternTooLong := by
  unfold match_bitap_
  rw [if_pos h]

/-- Witness for C7: a 33-unit pattern against the default configuration. -/
theorem C7_bitap_pattern_too_long_witness :
    (List.replicate 33 97 : Str).length > defaultConfig.Match_MaxBits ∧
      match_bitap_ defaultConfig [98] (List.replicate 33 97) 0
        = Except.error JsError.patternTooLong :=
  ⟨by decide, C7_bitap_pattern_too_long defaultConfig [98] (List.replicate 33 97) 0 (by decide)⟩

/-- C10: `match_main(s, s, loc)` returns 0 for every string and location (the
text-equals-pattern shortcut precedes the pattern-length check), and the
result of `match_main` depends on `loc` only through its clamp to
`[0, |text|]`, so an out-of-range `loc` cannot fault. -/
theorem C10_match_main_self_and_clamp (cfg : DMPConfig) :
    (∀ (s : Str) (loc : Int), match_main cfg s s loc = Except.ok 0) ∧
      (∀ (text pattern : Str) (loc : Int),
        match_main cfg text pattern loc
          = match_main cfg text pattern (max 0 (min loc (text.length : Int)))) := by
  constructor
  · intro s loc
    unfold match_main
    rw [if_pos rfl]
  · intro text pattern loc
    unfold match_main
    have hclamp : (min (max 0 (min loc (text.length : Int))) (text.length : Int)).toNat
        = (min loc (text.length : Int)).toNat := by
      rcases le_total loc (text.length : Int) with h | h
      · rw [min_eq_left h]
        rcases le_total (0 : Int) loc with h0 | h0
        · rw [max_eq_right h0, min_eq_left h]
        · rw [max_eq_left h0]
          omega
      · rw [min_eq_right h]
        have h2 : max 0 (text.length : Int) = (text.length : Int) :=
          max_eq_right (by omega)
        rw [h2, min_self]
    rw [hclamp]

/-! ## diff_cleanupMerge -/

/-- JS `arr.splice(i, n, ...items)`. -/
def listSplice (l : List α) (i n : Nat) (items : List α) : List α :=
  l.take i ++ items ++ l.drop (i + n)

/-- The common prefix/suffix factoring of `diff_cleanupMerge`'s first pass
(run when the accumulated run holds both deletions and insertions).
Returns the array, the pointer, and the reduced `text_insert`/`text_delete`. -/
def mergeRunFactor (diffs : Script) (pointer cd ci : Nat) (td ti : Str) :
    Script × Nat × Str × Str :=
  if cd ≠ 0 ∧ ci ≠ 0 then
    let c1 := diff_commonPrefix ti td
    let st0 :=
      if c1 ≠ 0 then
        if 0 < pointer - cd - ci ∧
            (diffs.get? (pointer - cd - ci - 1)).map Prod.fst = some Op.eq then
          (diffs.modify (fun x => (x.1, x.2 ++ ti.take c1))
              (pointer - cd - ci - 1),
            pointer, ti.drop c1, td.drop c1)
        else
          (listSplice diffs 0 0 [(Op.eq, ti.take c1)],
            pointer + 1, ti.drop c1, td.drop c1)
      else (diffs, pointer, ti, td)
    let c2 := diff_commonSuffix st0.2.2.1 st0.2.2.2
    if c2 ≠ 0 then
      (st0.1.modify
          (fun x => (x.1, lastUnits st0.2.2.1 c2 ++ x.2)) st0.2.1,
        st0.2.1, st0.2.2.1.take (st0.2.2.1.length - c2),
        st0.2.2.2.take (st0.2.2.2.length - c2))
    else st0
  else (diffs, pointer, ti, td)

/-- Deleting the run's records and emitting the merged DELETE/INSERT, in
`diff_cleanupMerge`'s first pass.  Returns the array and the pointer (still
sitting on the EQUAL that ended the run). -/
def mergeRunEmit (diffs : Script) (pointer cd ci : Nat) (td ti : Str) :
    Script × Nat :=
  let st1 := mergeRunFactor diffs pointer cd ci td ti
  let p1 := st1.2.1 - cd - ci
  let d1 := listSplice st1.1 p1 (cd + ci) []
  let st2 :=
    if st1.2.2.2 ≠ ([] : Str) then
      (listSplice d1 p1 0 [(Op.del, st1.2.2.2)], p1 + 1)
    else (d1, p1)
  if st1.2.2.1 ≠ ([] : Str) then
    (listSplice st2.1 st2.2 0 [(Op.ins, st1.2.2.1)], st2.2 + 1)
  else st2

/-- The first pass of `diff_cleanupMerge`: coalesce runs of edits between
equalities, factoring common prefixes/suffixes of paired insert/delete text.
State: the array, `pointer`, `count_delete`, `count_insert`, `text_delete`,
`text_insert`. -/
def mergeFirstPass (fuel : Nat) (diffs : Script) (pointer cd ci : Nat)
    (td ti : Str) : Option Script :=
  match fuel with
  | 0 => none
  | fuel + 1 =>
    match diffs.get? pointer with
    | none => some diffs
    | some (Op.ins, s) =>
      mergeFirstPass fuel diffs (pointer + 1) cd (ci + 1) td (ti ++ s)
    | some (Op.del, s) =>
      mergeFirstPass fuel diffs (pointer + 1) (cd + 1) ci (td ++ s) ti
    | some (Op.eq, _s) =>
      if cd + ci > 1 then
        let r := mergeRunEmit diffs pointer cd ci td ti
        mergeFirstPass fuel r.1 (r.2 + 1) 0 0 [] []
      else
        if 0 < pointer ∧ (diffs.get? (pointer - 1)).map Prod.fst = some Op.eq then
          -- merge this equality with the previous one
          let d1 := (diffs.modify (fun x => (x.1, x.2 ++ _s)) (pointer - 1)).eraseIdx pointer
          mergeFirstPass fuel d1 pointer 0 0 [] []
        else
          mergeFirstPass fuel diffs (pointer + 1) 0 0 [] []

/-- The second pass of `diff_cleanupMerge`: slide single edits flanked by
equalities over an adjacent equality that the edit ends or begins with.
Returns the array and the `changes` flag. -/
def mergeSecondPass (fuel : Nat) (diffs : Script) (pointer : Nat)
    (changes : Bool) : Option (Script × Bool) :=
  match fuel with
  | 0 => none
  | fuel + 1 =>
    if pointer + 1 < diffs.length then
      match diffs.get? (pointer - 1), diffs.get? pointer, diffs.get? (pointer + 1) with
      | some (Op.eq, prevTxt), some (editOp, editTxt), some (Op.eq, nextTxt) =>
        if lastUnits editTxt prevTxt.length = prevTxt then
          -- shift the edit over the previous equality
          let d1 := ((diffs.set pointer
              (editOp, prevTxt ++ editTxt.take (editTxt.length - prevTxt.length))).set
                (pointer + 1) (Op.eq, prevTxt ++ nextTxt)).eraseIdx (pointer - 1)
          mergeSecondPass fuel d1 (pointer + 1) true
        else if editTxt.take nextTxt.length = nextTxt then
          -- shift the edit over the next equality
          let d1 := ((diffs.set (pointer - 1)
              (Op.eq, prevTxt ++ nextTxt)).set pointer
                (editOp, editTxt.drop nextTxt.length ++ nextTxt)).eraseIdx (pointer + 1)
          mergeSecondPass fuel d1 (pointer + 1) true
        else mergeSecondPass fuel diffs (pointer + 1) changes
      | _, _, _ => mergeSecondPass fuel diffs (pointer + 1) changes
    else some (diffs, changes)

/-- The second pass only builds segment texts by concatenating existing
nonempty equality texts, so nonemptiness of all segments is preserved. -/
theorem mergeSecondPass_nonempty :
    ∀ fuel diffs pointer c out ch,
      mergeSecondPass fuel diffs pointer c = some (out, ch) →
      (∀ x ∈ diffs, x.2 ≠ ([] : Str)) → (∀ x ∈ out, x.2 ≠ ([] : Str)) := by
  intro fuel
  induction fuel with
  | zero => intro diffs pointer c out ch h; simp [mergeSecondPass] at h
  | succ fuel ih =>
    intro diffs pointer c out ch h hall
    rw [mergeSecondPass] at h
    by_cases hc : pointer + 1 < diffs.length
    · rw [if_pos hc] at h
      split at h
      case _ prevTxt editOp editTxt nextTxt heq1 heq2 heq3 =>
        have hprev : prevTxt ≠ ([] : Str) := hall _ (List.get?_mem heq1)
        have hnext : nextTxt ≠ ([] : Str) := hall _ (List.get?_mem heq3)
        split at h
        · refine ih _ _ _ _ _ h ?_
          intro x hx
          have hx2 := List.mem_of_mem_eraseIdx hx
          rcases List.mem_or_eq_of_mem_set hx2 with hx3 | rfl
          · rcases List.mem_or_eq_of_mem_set hx3 with hx4 | rfl
            · exact hall x hx4
            · simp only [ne_eq, List.append_eq_nil]
              intro hcontra
              exact hprev hcontra.1
          · simp only [ne_eq, List.append_eq_nil]
            intro hcontra
            exact hprev hcontra.1
        · split at h
          · refine ih _ _ _ _ _ h ?_
            intro x hx
            have hx2 := List.mem_of_mem_eraseIdx hx
            rcases List.mem_or_eq_of_mem_set hx2 with hx3 | rfl
            · rcases List.mem_or_eq_of_mem_set hx3 with hx4 | rfl
              · exact hall x hx4
              · simp only [ne_eq, List.append_eq_nil]
                intro hcontra
                exact hprev hcontra.1
            · simp only [ne_eq, List.append_eq_nil]
              intro hcontra
              exact hnext hcontra.2
          · exact ih _ _ _ _ _ h hall
      case _ =>
        exact ih _ _ _ _ _ h hall
    · rw [if_neg hc] at h
      simp only [Option.some.injEq, Prod.mk.injEq] at h
      rw [← h.1]
      exact hall

/-- `diff_cleanupMerge`: sentinel push, first pass, sentinel pop, second
pass, and a recursive re-run while the second pass made changes. -/
def diff_cleanupMerge (fuel : Nat) (diffs : Script) : Option Script :=
  match fuel with
  | 0 => none
  | fuel + 1 => do
    let ds0 := diffs ++ [(Op.eq, [])]
    let d1 ← mergeFirstPass (3 * ds0.length + 8) ds0 0 0 0 [] []
    let d2 := if (d1.getLast?.map Prod.snd) = some ([] : Str) then d1.dropLast else d1
    let res ← mergeSecondPass (d2.length + 2) d2 1 false
    if res.2 then diff_cleanupMerge fuel res.1 else some res.1

theorem get?_append_length (P X : List α) : (P ++ X).get? P.length = X.head? := by
  induction P with
  | nil => cases X <;> rfl
  | cons a P ih => simpa using ih

theorem set_append_length (P X : List α) (x v : α) :
    (P ++ x :: X).set P.length v = P ++ v :: X := by
  induction P with
  | nil => rfl
  | cons a P ih => simp [ih]

theorem eraseIdx_append_length (P X : List α) (x : α) :
    (P ++ x :: X).eraseIdx P.length = P ++ X := by
  induction P with
  | nil => rfl
  | cons a P ih => simpa using ih

theorem modify_append_length (P X : List α) (x : α) (f : α → α) :
    (P ++ x :: X).modify f P.length = P ++ f x :: X := by
  induction P with
  | nil => rfl
  | cons a P ih => simpa [List.modify] using ih

theorem splice_append_length (P X items : List α) (n : Nat) :
    listSplice (P ++ X) P.length n items = P ++ items ++ X.drop n := by
  unfold listSplice
  rw [List.take_left, List.drop_append]

theorem text1_append (a b : Script) :
    diff_text1 (a ++ b) = diff_text1 a ++ diff_text1 b := by
  induction a with
  | nil => rfl
  | cons x a ih =>
    obtain ⟨op, s⟩ := x
    simp [diff_text1, ih]

theorem text2_append (a b : Script) :
    diff_text2 (a ++ b) = diff_text2 a ++ diff_text2 b := by
  induction a with
  | nil => rfl
  | cons x a ih =>
    obtain ⟨op, s⟩ := x
    simp [diff_text2, ih]

theorem text1_cons_del (s : Str) (l : Script) :
    diff_text1 ((Op.del, s) :: l) = s ++ diff_text1 l := rfl

theorem text1_cons_ins (s : Str) (l : Script) :
    diff_text1 ((Op.ins, s) :: l) = diff_text1 l := rfl

theorem text1_cons_eq (s : Str) (l : Script) :
    diff_text1 ((Op.eq, s) :: l) = s ++ diff_text1 l := rfl

theorem text2_cons_del (s : Str) (l : Script) :
    diff_text2 ((Op.del, s) :: l) = diff_text2 l := rfl

theorem text2_cons_ins (s : Str) (l : Script) :
    diff_text2 ((Op.ins, s) :: l) = s ++ diff_text2 l := rfl

theorem text2_cons_eq (s : Str) (l : Script) :
    diff_text2 ((Op.eq, s) :: l) = s ++ diff_text2 l := rfl

/-- The two factored texts share their common prefix. -/
theorem commonPrefix_take_eq (a b : Str) :
    a.take (diff_commonPrefix a b) = b.take (diff_commonPrefix a b) := by
  rw [diff_commonPrefix_eq_lcp]
  exact take_lcp_eq a b

theorem commonPrefix_le_left (a b : Str) : diff_commonPrefix a b ≤ a.length := by
  rw [diff_commonPrefix_eq_lcp]; exact lcp_le_left a b

theorem commonPrefix_le_right (a b : Str) : diff_commonPrefix a b ≤ b.length := by
  rw [diff_commonPrefix_eq_lcp]; exact lcp_le_right a b

theorem commonSuffix_le_left (a b : Str) : diff_commonSuffix a b ≤ a.length := by
  rw [diff_commonSuffix_eq_lcs]
  have := lcp_le_left a.reverse b.reverse
  simpa [lcs] using this

theorem commonSuffix_le_right (a b : Str) : diff_commonSuffix a b ≤ b.length := by
  rw [diff_commonSuffix_eq_lcs]
  have := lcp_le_right a.reverse b.reverse
  simpa [lcs] using this

/-- The two factored texts share their common suffix. -/
theorem commonSuffix_lastUnits_eq (a b : Str) :
    lastUnits a (diff_commonSuffix a b) = lastUnits b (diff_commonSuffix a b) := by
  rw [lastUnits_eq_reverse_take a _ (commonSuffix_le_left a b),
    lastUnits_eq_reverse_take b _ (commonSuffix_le_right a b),
    diff_commonSuffix_eq_lcs]
  congr 1
  exact take_lcp_eq a.reverse b.reverse

theorem take_append_lastUnits (a : Str) (c : Nat) :
    a.take (a.length - c) ++ lastUnits a c = a := by
  unfold lastUnits
  exact List.take_append_drop _ a

/-- Adjacent segments may share an operation only when both are EQUAL. -/
def adjP (a b : Diff) : Prop :=
  ¬(a.1 = b.1 ∧ a.1 ≠ Op.eq)

instance : DecidableRel adjP := fun a b =>
  inferInstanceAs (Decidable (¬(a.1 = b.1 ∧ a.1 ≠ Op.eq)))

/-- All segments except possibly the final one carry nonempty text. -/
def NEL (l : Script) : Prop :=
  ∀ x ∈ l.dropLast, x.2 ≠ ([] : Str)

/-- C2 counterexample: `diff_cleanupMerge` leaves the empty insertion
`[(INSERT,"")]` untouched (an empty-text segment survives), and turns
`[(DELETE,"a"),(INSERT,"a"),(EQUAL,"x")]` into two adjacent EQUAL segments,
so the claimed invariant fails as stated for both of its conjuncts. -/
theorem C2_counterexample :
    (diff_cleanupMerge 5 [(Op.ins, [])] = some [(Op.ins, [])]
      ∧ ¬(∀ x ∈ ([(Op.ins, [])] : Script), x.2 ≠ ([] : Str)))
    ∧ (diff_cleanupMerge 5 [(Op.del, [97]), (Op.ins, [97]), (Op.eq, [120])]
        = some [(Op.eq, [97]), (Op.eq, [120])]
      ∧ ¬ List.Chain' (fun a b : Diff => a.1 ≠ b.1)
          [(Op.eq, [97]), (Op.eq, [120])]) := by
  refine ⟨⟨by decide, ?_⟩, by decide, ?_⟩
  · intro h
    exact h (Op.ins, []) (by decide) rfl
  · intro h
    exact List.chain'_pair.mp h rfl

/-- Decomposed behaviour of the prefix/suffix factoring step: the array keeps
the shape `prefix ++ run ++ (EQUAL :: rest)`, the prefix changes only by text
growth on its final EQUAL (or gains a fresh leading EQUAL when empty), and
the pending texts plus the current EQUAL keep the same text1/text2 value. -/
theorem mergeRunFactor_decomp (pre run rest : Script) (s td ti : Str)
    (cd ci : Nat) (hlen : run.length = cd + ci)
    (hpre : pre = [] ∨ ∃ pre0 e, pre = pre0 ++ [(Op.eq, e)]) :
    ∃ (P : Script) (s2 ti2 td2 : Str),
      mergeRunFactor (pre ++ run ++ ((Op.eq, s) :: rest))
          (pre.length + run.length) cd ci td ti
        = (P ++ run ++ ((Op.eq, s2) :: rest), P.length + run.length, ti2, td2)
      ∧ (P.map Prod.fst = pre.map Prod.fst ∨ (pre = [] ∧ P.map Prod.fst = [Op.eq]))
      ∧ ((∀ x ∈ pre, x.2 ≠ ([] : Str)) → ∀ x ∈ P, x.2 ≠ ([] : Str))
      ∧ (∃ c, s2 = c ++ s)
      ∧ diff_text1 P ++ (td2 ++ s2) = diff_text1 pre ++ (td ++ s)
      ∧ diff_text2 P ++ (ti2 ++ s2) = diff_text2 pre ++ (ti ++ s) := by
  by_cases hci : cd ≠ 0 ∧ ci ≠ 0
  · -- stage 1: prefix factoring
    have hstage0 :
        ∃ (P : Script) (ti0 td0 : Str),
          (let c1 := diff_commonPrefix ti td
            if c1 ≠ 0 then
              if 0 < (pre.length + run.length) - cd - ci ∧
                  ((pre ++ run ++ ((Op.eq, s) :: rest)).get?
                    ((pre.length + run.length) - cd - ci - 1)).map Prod.fst
                    = some Op.eq then
                ((pre ++ run ++ ((Op.eq, s) :: rest)).modify
                    (fun x => (x.1, x.2 ++ ti.take c1))
                    ((pre.length + run.length) - cd - ci - 1),
                  pre.length + run.length, ti.drop c1, td.drop c1)
              else
                (listSplice (pre ++ run ++ ((Op.eq, s) :: rest)) 0 0
                    [(Op.eq, ti.take c1)],
                  pre.length + run.length + 1, ti.drop c1, td.drop c1)
            else (pre ++ run ++ ((Op.eq, s) :: rest),
              pre.length + run.length, ti, td))
            = (P ++ run ++ ((Op.eq, s) :: rest), P.length + run.length, ti0, td0)
          ∧ (P.map Prod.fst = pre.map Prod.fst
              ∨ (pre = [] ∧ P.map Prod.fst = [Op.eq]))
          ∧ ((∀ x ∈ pre, x.2 ≠ ([] : Str)) → ∀ x ∈ P, x.2 ≠ ([] : Str))
          ∧ diff_text1 P ++ td0 = diff_text1 pre ++ td
          ∧ diff_text2 P ++ ti0 = diff_text2 pre ++ ti := by
      by_cases hc1 : diff_commonPrefix ti td ≠ 0
      · have harith : (pre.length + run.length) - cd - ci = pre.length := by omega
        have htake : ti.take (diff_commonPrefix ti td)
            = td.take (diff_commonPrefix ti td) := commonPrefix_take_eq ti td
        rcases hpre with rfl | ⟨pre0, e, rfl⟩
        · -- empty prefix: splice a new EQUAL at the head
          refine ⟨[(Op.eq, ti.take (diff_commonPrefix ti td))],
            ti.drop (diff_commonPrefix ti td), td.drop (diff_commonPrefix ti td),
            ?_, ?_, ?_, ?_, ?_⟩
          · simp only [if_pos hc1]
            rw [if_neg (by
              intro hcond
              have := hcond.1
              simp only [List.length_nil] at this
              omega)]
            simp [listSplice, Nat.add_comm]
          · exact Or.inr ⟨rfl, rfl⟩
          · intro _ x hx
            simp only [List.mem_singleton] at hx
            subst hx
            have h1 : 0 < diff_commonPrefix ti td := Nat.pos_of_ne_zero hc1
            have h2 := commonPrefix_le_left ti td
            simp only [ne_eq, ← List.length_eq_zero]
            rw [List.length_take]
            omega
          · -- text1: take c1 of td splits off
            simp only [diff_text1]
            rw [htake]
            simp [List.take_append_drop]
          · simp only [diff_text2]
            simp [List.take_append_drop]
        · -- prefix ends in an EQUAL: append the common prefix to it
          have hget : ((pre0 ++ [(Op.eq, e)]) ++ run ++ ((Op.eq, s) :: rest)).get?
              (((pre0 ++ [(Op.eq, e)]).length + run.length) - cd - ci - 1)
              = some (Op.eq, e) := by
            have harith2 : (((pre0 ++ [(Op.eq, e)]).length + run.length) - cd - ci - 1)
                = pre0.length := by
              simp only [List.length_append, List.length_singleton]
              omega
            rw [harith2]
            have : (pre0 ++ [(Op.eq, e)]) ++ run ++ ((Op.eq, s) :: rest)
                = pre0 ++ ((Op.eq, e) :: (run ++ ((Op.eq, s) :: rest))) := by
              simp [List.append_assoc]
            rw [this, get?_append_length]
            rfl
          refine ⟨pre0 ++ [(Op.eq, e ++ ti.take (diff_commonPrefix ti td))],
            ti.drop (diff_commonPrefix ti td), td.drop (diff_commonPrefix ti td),
            ?_, ?_, ?_, ?_, ?_⟩
          · simp only [if_pos hc1]
            rw [if_pos (by
              constructor
              · simp only [List.length_append, List.length_singleton]
                omega
              · rw [hget]; rfl)]
            have harith2 : (((pre0 ++ [(Op.eq, e)]).length + run.length) - cd - ci - 1)
                = pre0.length := by
              simp only [List.length_append, List.length_singleton]
              omega
            rw [harith2]
            have hsh : (pre0 ++ [(Op.eq, e)]) ++ run ++ ((Op.eq, s) :: rest)
                = pre0 ++ ((Op.eq, e) :: (run ++ ((Op.eq, s) :: rest))) := by
              simp [List.append_assoc]
            rw [hsh, modify_append_length]
            simp [List.append_assoc]
          · left; simp
          · intro hne x hx
            simp only [List.mem_append, List.mem_singleton] at hx
            rcases hx with hx | rfl
            · exact hne x (by simp [hx])
            · have := hne (Op.eq, e) (by simp)
              simp only [ne_eq, ← List.length_eq_zero] at this ⊢
              rw [List.length_append]
              omega
          · rw [text1_append, text1_append]
            simp only [diff_text1, List.append_nil]
            rw [htake]
            conv_rhs =>
              rw [← List.take_append_drop (diff_commonPrefix ti td) td]
            simp [List.append_assoc]
          · rw [text2_append, text2_append]
            simp only [diff_text2, List.append_nil]
            conv_rhs =>
              rw [← List.take_append_drop (diff_commonPrefix ti td) ti]
            simp [List.append_assoc]
      · refine ⟨pre, ti, td, ?_, Or.inl rfl, fun h => h, rfl, rfl⟩
        simp only [if_neg hc1]
    obtain ⟨P, ti0, td0, heq0, hops, hne, ht1, ht2⟩ := hstage0
    -- stage 2: suffix factoring
    by_cases hc2 : diff_commonSuffix ti0 td0 ≠ 0
    · refine ⟨P, lastUnits ti0 (diff_commonSuffix ti0 td0) ++ s,
        ti0.take (ti0.length - diff_commonSuffix ti0 td0),
        td0.take (td0.length - diff_commonSuffix ti0 td0), ?_, hops, hne,
        ⟨_, rfl⟩, ?_, ?_⟩
      · unfold mergeRunFactor
        rw [if_pos hci]
        simp only [heq0]
        rw [if_pos hc2]
        have hsh : P ++ run ++ ((Op.eq, s) :: rest)
            = (P ++ run) ++ ((Op.eq, s) :: rest) := by
          simp [List.append_assoc]
        have hlen2 : P.length + run.length = (P ++ run).length := by
          simp
        rw [hsh, hlen2, modify_append_length]
        try simp [List.append_assoc]
      · rw [commonSuffix_lastUnits_eq ti0 td0,
          ← List.append_assoc (List.take (td0.length - diff_commonSuffix ti0 td0) td0),
          take_append_lastUnits, ← List.append_assoc, ht1, List.append_assoc]
      · rw [← List.append_assoc (List.take (ti0.length - diff_commonSuffix ti0 td0) ti0),
          take_append_lastUnits, ← List.append_assoc, ht2, List.append_assoc]
    · refine ⟨P, s, ti0, td0, ?_, hops, hne, ⟨[], rfl⟩, ?_, ?_⟩
      · unfold mergeRunFactor
        rw [if_pos hci]
        simp only [heq0]
        rw [if_neg hc2]
      · rw [← List.append_assoc, ← List.append_assoc, ht1, List.append_assoc]
      · rw [← List.append_assoc, ← List.append_assoc, ht2, List.append_assoc]
  · refine ⟨pre, s, ti, td, ?_, Or.inl rfl, fun h => h, ⟨[], rfl⟩, rfl, rfl⟩
    unfold mergeRunFactor
    rw [if_neg hci]

/-- Decomposed behaviour of the run-merging step at an EQUAL boundary: the
run is replaced by at most one DELETE and one INSERT with nonempty texts,
and text1/text2 of the whole script are preserved (with `td`/`ti` standing
for the run's accumulated delete/insert text). -/
theorem mergeRunEmit_decomp (pre run rest : Script) (s td ti : Str)
    (cd ci : Nat) (hlen : run.length = cd + ci)
    (hpre : pre = [] ∨ ∃ pre0 e, pre = pre0 ++ [(Op.eq, e)]) :
    ∃ (P Em : Script) (s2 : Str),
      mergeRunEmit (pre ++ run ++ ((Op.eq, s) :: rest))
          (pre.length + run.length) cd ci td ti
        = (P ++ Em ++ ((Op.eq, s2) :: rest), P.length + Em.length)
      ∧ (P.map Prod.fst = pre.map Prod.fst ∨ (pre = [] ∧ P.map Prod.fst = [Op.eq]))
      ∧ ((∀ x ∈ pre, x.2 ≠ ([] : Str)) → ∀ x ∈ P, x.2 ≠ ([] : Str))
      ∧ (Em.map Prod.fst = [] ∨ Em.map Prod.fst = [Op.del]
          ∨ Em.map Prod.fst = [Op.ins] ∨ Em.map Prod.fst = [Op.del, Op.ins])
      ∧ (∀ x ∈ Em, x.2 ≠ ([] : Str))
      ∧ (∃ c, s2 = c ++ s)
      ∧ diff_text1 P ++ (diff_text1 Em ++ s2) = diff_text1 pre ++ (td ++ s)
      ∧ diff_text2 P ++ (diff_text2 Em ++ s2) = diff_text2 pre ++ (ti ++ s) := by
  obtain ⟨P, s2, ti2, td2, heq, hops, hne, hc, ht1, ht2⟩ :=
    mergeRunFactor_decomp pre run rest s td ti cd ci hlen hpre
  have harith : P.length + run.length - cd - ci = P.length := by omega
  have hd1 : listSplice (P ++ run ++ ((Op.eq, s2) :: rest)) P.length (cd + ci) []
      = P ++ ((Op.eq, s2) :: rest) := by
    have hsh : P ++ run ++ ((Op.eq, s2) :: rest)
        = P ++ (run ++ ((Op.eq, s2) :: rest)) := by simp [List.append_assoc]
    rw [hsh, splice_append_length]
    rw [← hlen, List.drop_left]
    simp
  by_cases hdel : td2 ≠ ([] : Str) <;> by_cases hins : ti2 ≠ ([] : Str)
  · -- both delete and insert emitted
    refine ⟨P, [(Op.del, td2), (Op.ins, ti2)], s2, ?_, hops, hne,
      by simp, ?_, hc, ?_, ?_⟩
    · unfold mergeRunEmit
      simp only [heq]
      rw [harith, hd1, if_pos hdel]
      have h2 : listSplice (P ++ ((Op.eq, s2) :: rest)) P.length 0 [(Op.del, td2)]
          = P ++ ((Op.del, td2) :: (Op.eq, s2) :: rest) := by
        rw [splice_append_length]; simp
      simp only [h2]
      rw [if_pos hins]
      have h3 : listSplice (P ++ ((Op.del, td2) :: (Op.eq, s2) :: rest))
          (P.length + 1) 0 [(Op.ins, ti2)]
          = P ++ ((Op.del, td2) :: (Op.ins, ti2) :: (Op.eq, s2) :: rest) := by
        have hsh2 : P ++ ((Op.del, td2) :: (Op.eq, s2) :: rest)
            = (P ++ [(Op.del, td2)]) ++ ((Op.eq, s2) :: rest) := by simp
        have hl2 : P.length + 1 = (P ++ [(Op.del, td2)]).length := by simp
        rw [hsh2, hl2, splice_append_length]
        simp
      simp only [h3]
      simp [List.append_assoc]
    · intro x hx
      simp only [List.mem_cons, List.mem_singleton, List.not_mem_nil, or_false] at hx
      rcases hx with rfl | rfl
      · exact hdel
      · exact hins
    · simpa [diff_text1] using ht1
    · simpa [diff_text2] using ht2
  · -- only a delete emitted
    have hti : ti2 = ([] : Str) := by simpa using hins
    refine ⟨P, [(Op.del, td2)], s2, ?_, hops, hne, by simp, ?_, hc, ?_, ?_⟩
    · unfold mergeRunEmit
      simp only [heq]
      rw [harith, hd1, if_pos hdel]
      have h2 : listSplice (P ++ ((Op.eq, s2) :: rest)) P.length 0 [(Op.del, td2)]
          = P ++ ((Op.del, td2) :: (Op.eq, s2) :: rest) := by
        rw [splice_append_length]; simp
      simp only [h2]
      rw [if_neg (by simpa using hti)]
      simp [List.append_assoc]
    · intro x hx
      simp only [List.mem_singleton] at hx
      subst hx
      exact hdel
    · simpa [diff_text1] using ht1
    · rw [hti] at ht2
      simpa [diff_text2] using ht2
  · -- only an insert emitted
    have htd : td2 = ([] : Str) := by simpa using hdel
    refine ⟨P, [(Op.ins, ti2)], s2, ?_, hops, hne, by simp, ?_, hc, ?_, ?_⟩
    · unfold mergeRunEmit
      simp only [heq]
      rw [harith, hd1,
        if_neg (show ¬ td2 ≠ ([] : Str) by simpa using htd)]
      rw [if_pos hins]
      have h2 : listSplice (P ++ ((Op.eq, s2) :: rest)) P.length 0 [(Op.ins, ti2)]
          = P ++ ((Op.ins, ti2) :: (Op.eq, s2) :: rest) := by
        rw [splice_append_length]; simp
      simp only [h2]
      simp [List.append_assoc]
    · intro x hx
      simp only [List.mem_singleton] at hx
      subst hx
      exact hins
    · rw [htd] at ht1
      simpa [diff_text1] using ht1
    · simpa [diff_text2] using ht2
  · -- nothing emitted
    have htd : td2 = ([] : Str) := by simpa using hdel
    have hti : ti2 = ([] : Str) := by simpa using hins
    refine ⟨P, [], s2, ?_, hops, hne, by simp, by simp, hc, ?_, ?_⟩
    · unfold mergeRunEmit
      simp only [heq]
      rw [harith, hd1,
        if_neg (show ¬ td2 ≠ ([] : Str) by simpa using htd)]
      rw [if_neg (show ¬ ti2 ≠ ([] : Str) by simpa using hti)]
      simp
    · rw [htd] at ht1
      simpa [diff_text1] using ht1
    · rw [hti] at ht2
      simpa [diff_text2] using ht2

/-- `adjP` seen on operations only. -/
def opRel (o1 o2 : Op) : Prop :=
  ¬(o1 = o2 ∧ o1 ≠ Op.eq)

instance : DecidableRel opRel := fun o1 o2 =>
  inferInstanceAs (Decidable (¬(o1 = o2 ∧ o1 ≠ Op.eq)))

theorem chain_adjP_iff_ops (l : Script) :
    List.Chain' adjP l ↔ List.Chain' opRel (l.map Prod.fst) := by
  rw [List.chain'_map]
  exact Iff.rfl

theorem opRel_from_eq (o : Op) : opRel Op.eq o := by
  intro ⟨h1, h2⟩
  exact h2 rfl

theorem opRel_into_eq (o : Op) : opRel o Op.eq := by
  intro ⟨h1, h2⟩
  rw [h1] at h2
  exact h2 rfl

/-- Chain shape of a finalized block: a well-chained prefix ending in EQUAL
(or empty), then at most one DELETE and one INSERT, then an EQUAL. -/
theorem chain_ops_PEm (ops1 ops2 : List Op)
    (h1 : List.Chain' opRel ops1)
    (hlast : ops1 = [] ∨ ops1.getLast? = some Op.eq)
    (h2 : ops2 = [] ∨ ops2 = [Op.del] ∨ ops2 = [Op.ins]
      ∨ ops2 = [Op.del, Op.ins]) :
    List.Chain' opRel (ops1 ++ (ops2 ++ [Op.eq])) := by
  rw [List.chain'_append]
  refine ⟨h1, ?_, ?_⟩
  · rcases h2 with rfl | rfl | rfl | rfl <;>
      simp [List.chain'_cons, List.chain'_singleton, opRel]
  · intro x hx y hy
    rcases hlast with rfl | hlast
    · simp at hx
    · rw [hlast] at hx
      simp only [Option.mem_def, Option.some.injEq] at hx
      subst hx
      exact opRel_from_eq y

/-- Invariant-carrying correctness of the first pass of `diff_cleanupMerge`:
from a state `prefix ++ run ++ rest` whose prefix is well-chained and ends in
an EQUAL, whose run holds only edits, and whose segments are nonempty except
possibly the final one (of EQUAL operation), the pass produces a nonempty
script with no two adjacent same-operation edits and no empty text except
possibly in its final segment. -/
theorem mergeFirstPass_wf :
    ∀ (fuel : Nat) (pre run rest : Script) (cd ci : Nat) (td ti : Str)
      (out : Script),
      mergeFirstPass fuel (pre ++ run ++ rest) (pre.length + run.length)
          cd ci td ti = some out →
      run.length = cd + ci →
      (∀ x ∈ run, x.1 ≠ Op.eq) →
      List.Chain' adjP pre →
      (pre = [] ∨ ∃ pre0 e, pre = pre0 ++ [(Op.eq, e)]) →
      NEL (pre ++ run ++ rest) →
      ((pre ++ run ++ rest).getLast?.map Prod.fst = some Op.eq) →
      List.Chain' adjP out ∧ NEL out ∧ out ≠ [] := by
  intro fuel
  induction fuel with
  | zero =>
    intro pre run rest cd ci td ti out h
    simp [mergeFirstPass] at h
  | succ fuel ih =>
    intro pre run rest cd ci td ti out h hlen hrun hchain hpre hnel hlast
    rw [mergeFirstPass] at h
    have hget : (pre ++ run ++ rest).get? (pre.length + run.length)
        = rest.head? := by
      rw [show pre ++ run ++ rest = (pre ++ run) ++ rest by simp,
        show pre.length + run.length = (pre ++ run).length by simp,
        get?_append_length]
    cases rest with
    | nil =>
      rw [hget] at h
      replace h : some (pre ++ run ++ []) = some out := h
      simp only [Option.some.injEq] at h
      subst h
      have hrunnil : run = [] := by
        cases hr : run with
        | nil => rfl
        | cons a l =>
          exfalso
          rw [List.append_nil, List.getLast?_append_of_ne_nil pre (by simp [hr])] at hlast
          cases hgl : run.getLast? with
          | none => rw [hgl] at hlast; simp at hlast
          | some x =>
            rw [hgl] at hlast
            simp at hlast
            have := hrun x (List.mem_of_mem_getLast? hgl)
            exact this hlast
      subst hrunnil
      simp only [List.append_nil] at hnel hlast ⊢
      refine ⟨hchain, hnel, ?_⟩
      intro hnil
      rw [hnil] at hlast
      simp at hlast
    | cons d rest2 =>
      obtain ⟨op, s⟩ := d
      rw [hget] at h
      have hne_rest : ((Op.eq, s) :: rest2 : Script) ≠ [] := by simp
      cases op with
      | ins =>
        replace h : mergeFirstPass fuel (pre ++ run ++ ((Op.ins, s) :: rest2))
            (pre.length + run.length + 1) cd (ci + 1) td (ti ++ s) = some out := h
        rw [show pre ++ run ++ ((Op.ins, s) :: rest2)
            = pre ++ (run ++ [(Op.ins, s)]) ++ rest2 by simp,
          show pre.length + run.length + 1
            = pre.length + (run ++ [(Op.ins, s)]).length by simp; omega] at h
        refine ih pre (run ++ [(Op.ins, s)]) rest2 cd (ci + 1) td (ti ++ s) out h
          (by simp; omega) ?_ hchain hpre ?_ ?_
        · intro x hx
          rcases List.mem_append.mp hx with hx | hx
          · exact hrun x hx
          · simp only [List.mem_singleton] at hx
            subst hx
            simp
        · rw [show pre ++ (run ++ [(Op.ins, s)]) ++ rest2
            = pre ++ run ++ ((Op.ins, s) :: rest2) by simp]
          exact hnel
        · rw [show pre ++ (run ++ [(Op.ins, s)]) ++ rest2
            = pre ++ run ++ ((Op.ins, s) :: rest2) by simp]
          exact hlast
      | del =>
        replace h : mergeFirstPass fuel (pre ++ run ++ ((Op.del, s) :: rest2))
            (pre.length + run.length + 1) (cd + 1) ci (td ++ s) ti = some out := h
        rw [show pre ++ run ++ ((Op.del, s) :: rest2)
            = pre ++ (run ++ [(Op.del, s)]) ++ rest2 by simp,
          show pre.length + run.length + 1
            = pre.length + (run ++ [(Op.del, s)]).length by simp; omega] at h
        refine ih pre (run ++ [(Op.del, s)]) rest2 (cd + 1) ci (td ++ s) ti out h
          (by simp; omega) ?_ hchain hpre ?_ ?_
        · intro x hx
          rcases List.mem_append.mp hx with hx | hx
          · exact hrun x hx
          · simp only [List.mem_singleton] at hx
            subst hx
            simp
        · rw [show pre ++ (run ++ [(Op.del, s)]) ++ rest2
            = pre ++ run ++ ((Op.del, s) :: rest2) by simp]
          exact hnel
        · rw [show pre ++ (run ++ [(Op.del, s)]) ++ rest2
            = pre ++ run ++ ((Op.del, s) :: rest2) by simp]
          exact hlast
      | eq =>
        -- facts available in every sub-branch
        have hpre_mem : ∀ x ∈ pre, x.2 ≠ ([] : Str) := by
          intro x hx
          apply hnel
          rw [show pre ++ run ++ ((Op.eq, s) :: rest2)
              = (pre ++ run) ++ ((Op.eq, s) :: rest2) by simp,
            List.dropLast_append_of_ne_nil _ (by simp)]
          exact List.mem_append_left _ (List.mem_append_left _ hx)
        have hs_ne : rest2 ≠ [] → s ≠ ([] : Str) := by
          intro hr2
          have hmem : ((Op.eq, s) : Diff) ∈ (pre ++ run ++ ((Op.eq, s) :: rest2)).dropLast := by
            rw [show pre ++ run ++ ((Op.eq, s) :: rest2)
                = (pre ++ run ++ [(Op.eq, s)]) ++ rest2 by simp,
              List.dropLast_append_of_ne_nil _ hr2]
            exact List.mem_append_left _ (by simp)
          exact hnel (Op.eq, s) hmem
        have hrest2_nel : ∀ x ∈ rest2.dropLast, x.2 ≠ ([] : Str) := by
          intro x hx
          apply hnel
          rw [show pre ++ run ++ ((Op.eq, s) :: rest2)
              = (pre ++ run ++ [(Op.eq, s)]) ++ rest2 by simp]
          cases hr2 : rest2 with
          | nil => rw [hr2] at hx; simp at hx
          | cons y ys =>
            rw [List.dropLast_append_of_ne_nil _ (by simp [hr2])]
            rw [hr2] at hx
            exact List.mem_append_right _ hx
        have hlast2 : rest2 ≠ [] → rest2.getLast?.map Prod.fst = some Op.eq := by
          intro hr2
          rw [show pre ++ run ++ ((Op.eq, s) :: rest2)
              = (pre ++ run ++ [(Op.eq, s)]) ++ rest2 by simp,
            List.getLast?_append_of_ne_nil _ hr2] at hlast
          exact hlast
        replace h : (if cd + ci > 1 then
            mergeFirstPass fuel
              (mergeRunEmit (pre ++ run ++ ((Op.eq, s) :: rest2))
                (pre.length + run.length) cd ci td ti).1
              ((mergeRunEmit (pre ++ run ++ ((Op.eq, s) :: rest2))
                (pre.length + run.length) cd ci td ti).2 + 1) 0 0 [] []
          else
            if 0 < pre.length + run.length ∧
                ((pre ++ run ++ ((Op.eq, s) :: rest2)).get?
                  (pre.length + run.length - 1)).map Prod.fst = some Op.eq then
              mergeFirstPass fuel
                (((pre ++ run ++ ((Op.eq, s) :: rest2)).modify
                    (fun x => (x.1, x.2 ++ s))
                    (pre.length + run.length - 1)).eraseIdx
                  (pre.length + run.length))
                (pre.length + run.length) 0 0 [] []
            else
              mergeFirstPass fuel (pre ++ run ++ ((Op.eq, s) :: rest2))
                (pre.length + run.length + 1) 0 0 [] []) = some out := h
        by_cases hbig : cd + ci > 1
        · -- a run of at least two edits ends at this equality
          rw [if_pos hbig] at h
          obtain ⟨P, Em, s2, heq, hops, hneP, hEm, hEmne, ⟨c, hc⟩, _, _⟩ :=
            mergeRunEmit_decomp pre run rest2 s td ti cd ci hlen hpre
          rw [heq] at h
          simp only at h
          rw [show P ++ Em ++ ((Op.eq, s2) :: rest2)
              = (P ++ Em ++ [(Op.eq, s2)]) ++ [] ++ rest2 by simp,
            show P.length + Em.length + 1
              = (P ++ Em ++ [(Op.eq, s2)]).length + ([] : Script).length by
                simp; omega] at h
          refine ih _ [] rest2 0 0 [] [] out h (by simp) (by simp) ?_ ?_ ?_ ?_
          · -- chain of the new prefix
            rw [chain_adjP_iff_ops]
            have hmapP : (P ++ Em ++ [(Op.eq, s2)]).map Prod.fst
                = P.map Prod.fst ++ (Em.map Prod.fst ++ [Op.eq]) := by simp
            rw [hmapP]
            apply chain_ops_PEm
            · rcases hops with hops | ⟨hpre0, hops⟩
              · rw [hops, ← chain_adjP_iff_ops]
                exact hchain
              · rw [hops]
                simp
            · rcases hops with hops | ⟨hpre0, hops⟩
              · rcases hpre with rfl | ⟨pre0, e, rfl⟩
                · left
                  rw [hops]
                  simp
                · right
                  rw [hops]
                  rw [show (pre0 ++ [(Op.eq, e)]).map Prod.fst
                      = pre0.map Prod.fst ++ [Op.eq] by simp]
                  rw [List.getLast?_append_of_ne_nil _ (by simp)]
                  rfl
              · right
                rw [hops]
                rfl
            · exact hEm
          · exact Or.inr ⟨P ++ Em, s2, by simp⟩
          · -- nonempty except last
            intro x hx
            rw [show P ++ Em ++ [(Op.eq, s2)] ++ [] ++ rest2
                = (P ++ Em) ++ ((Op.eq, s2) :: rest2) by simp] at hx
            rw [List.dropLast_append_of_ne_nil _ (by simp)] at hx
            by_cases hr2 : rest2 = []
            · subst hr2
              simp only [List.dropLast_single, List.append_nil] at hx
              rcases List.mem_append.mp hx with hx | hx
              · exact hneP hpre_mem x hx
              · exact hEmne x hx
            · rcases List.mem_append.mp hx with hx | hx
              · rcases List.mem_append.mp hx with hx | hx
                · exact hneP hpre_mem x hx
                · exact hEmne x hx
              · rw [show ((Op.eq, s2) :: rest2) = [(Op.eq, s2)] ++ rest2 by simp,
                  List.dropLast_append_of_ne_nil _ hr2] at hx
                rcases List.mem_append.mp hx with hx | hx
                · simp only [List.mem_singleton] at hx
                  subst hx
                  simp only [ne_eq]
                  rw [hc]
                  intro hcontra
                  have hs := hs_ne hr2
                  simp only [List.append_eq_nil] at hcontra
                  exact hs hcontra.2
                · exact hrest2_nel x hx
          · -- last operation is EQUAL
            by_cases hr2 : rest2 = []
            · subst hr2
              rw [show P ++ Em ++ [(Op.eq, s2)] ++ [] ++ ([] : Script)
                  = (P ++ Em) ++ [(Op.eq, s2)] by simp,
                List.getLast?_append_of_ne_nil _ (by simp)]
              rfl
            · rw [show P ++ Em ++ [(Op.eq, s2)] ++ [] ++ rest2
                  = (P ++ Em ++ [(Op.eq, s2)]) ++ rest2 by simp,
                List.getLast?_append_of_ne_nil _ hr2]
              exact hlast2 hr2
        · -- single or no edit: merge with previous equality, or step over
          rw [if_neg hbig] at h
          by_cases hmrg : 0 < pre.length + run.length ∧
              ((pre ++ run ++ ((Op.eq, s) :: rest2)).get?
                (pre.length + run.length - 1)).map Prod.fst = some Op.eq
          · rw [if_pos hmrg] at h
            -- the previous element is an EQUAL, so the run must be empty
            have hrunnil : run = [] := by
              rcases List.eq_nil_or_concat run with hr | ⟨run0, a, hr⟩
              · exact hr
              · exfalso
                rw [List.concat_eq_append] at hr
                have hop := hrun a (by rw [hr]; simp)
                have hgetrun : (pre ++ run ++ ((Op.eq, s) :: rest2)).get?
                    (pre.length + run.length - 1) = some a := by
                  subst hr
                  have e1 : pre ++ (run0 ++ [a]) ++ ((Op.eq, s) :: rest2)
                      = (pre ++ run0) ++ (a :: ((Op.eq, s) :: rest2)) := by simp
                  have e2 : pre.length + (run0 ++ [a]).length - 1
                      = (pre ++ run0).length := by simp
                  rw [e1, e2, get?_append_length]
                  rfl
                rw [hgetrun] at hmrg
                have h2 := hmrg.2
                simp at h2
                exact hop h2
            subst hrunnil
            have hprene : pre ≠ [] := by
              intro hcontra
              rw [hcontra] at hmrg
              simp at hmrg
            obtain ⟨pre0, e, rfl⟩ : ∃ pre0 e, pre = pre0 ++ [(Op.eq, e)] := by
              rcases hpre with hcontra | h2
              · exact absurd hcontra hprene
              · exact h2
            -- evaluate the modify and the eraseIdx
            have hd1 : ((((pre0 ++ [(Op.eq, e)]) ++ [] ++ ((Op.eq, s) :: rest2)).modify
                (fun x => (x.1, x.2 ++ s))
                ((pre0 ++ [(Op.eq, e)]).length + ([] : Script).length - 1)).eraseIdx
                  ((pre0 ++ [(Op.eq, e)]).length + ([] : Script).length))
                = (pre0 ++ [(Op.eq, e ++ s)]) ++ [] ++ rest2 := by
              rw [show (pre0 ++ [(Op.eq, e)]) ++ [] ++ ((Op.eq, s) :: rest2)
                  = pre0 ++ ((Op.eq, e) :: ((Op.eq, s) :: rest2)) by simp,
                show (pre0 ++ [(Op.eq, e)]).length + ([] : Script).length - 1
                  = pre0.length by simp,
                modify_append_length,
                show pre0 ++ ((Op.eq, e).1, (Op.eq, e).2 ++ s) :: ((Op.eq, s) :: rest2)
                  = (pre0 ++ [(Op.eq, e ++ s)]) ++ ((Op.eq, s) :: rest2) by simp,
                show (pre0 ++ [(Op.eq, e)]).length + ([] : Script).length
                  = (pre0 ++ [(Op.eq, e ++ s)]).length by simp,
                eraseIdx_append_length]
              simp
            rw [hd1,
              show (pre0 ++ [(Op.eq, e)]).length + ([] : Script).length
                = (pre0 ++ [(Op.eq, e ++ s)]).length + ([] : Script).length by
                  simp] at h
            refine ih _ [] rest2 0 0 [] [] out h (by simp) (by simp) ?_
              (Or.inr ⟨pre0, e ++ s, rfl⟩) ?_ ?_
            · rw [chain_adjP_iff_ops] at hchain ⊢
              rw [show (pre0 ++ [(Op.eq, e ++ s)]).map Prod.fst
                  = (pre0 ++ [(Op.eq, e)]).map Prod.fst by simp]
              exact hchain
            · intro x hx
              rw [show (pre0 ++ [(Op.eq, e ++ s)]) ++ [] ++ rest2
                  = pre0 ++ ((Op.eq, e ++ s) :: rest2) by simp] at hx
              have hene : e ≠ ([] : Str) := hpre_mem (Op.eq, e) (by simp)
              rw [List.dropLast_append_of_ne_nil _ (by simp)] at hx
              by_cases hr2 : rest2 = []
              · subst hr2
                simp only [List.dropLast_single, List.append_nil] at hx
                exact hpre_mem x (by simp [hx])
              · rcases List.mem_append.mp hx with hx | hx
                · exact hpre_mem x (by simp [hx])
                · rw [show ((Op.eq, e ++ s) :: rest2) = [(Op.eq, e ++ s)] ++ rest2 by simp,
                    List.dropLast_append_of_ne_nil _ hr2] at hx
                  rcases List.mem_append.mp hx with hx | hx
                  · simp only [List.mem_singleton] at hx
                    subst hx
                    simp only [ne_eq, List.append_eq_nil]
                    intro hcontra
                    exact hene hcontra.1
                  · exact hrest2_nel x hx
            · by_cases hr2 : rest2 = []
              · subst hr2
                rw [show pre0 ++ [(Op.eq, e ++ s)] ++ [] ++ ([] : Script)
                    = pre0 ++ [(Op.eq, e ++ s)] by simp,
                  List.getLast?_append_of_ne_nil _ (by simp)]
                rfl
              · rw [show pre0 ++ [(Op.eq, e ++ s)] ++ [] ++ rest2
                    = (pre0 ++ [(Op.eq, e ++ s)]) ++ rest2 by simp,
                  List.getLast?_append_of_ne_nil _ hr2]
                exact hlast2 hr2
          · rw [if_neg hmrg] at h
            rw [show pre ++ run ++ ((Op.eq, s) :: rest2)
                = (pre ++ run ++ [(Op.eq, s)]) ++ [] ++ rest2 by simp,
              show pre.length + run.length + 1
                = (pre ++ run ++ [(Op.eq, s)]).length + ([] : Script).length by
                  simp; omega] at h
            have hrunops : run.map Prod.fst = [] ∨ run.map Prod.fst = [Op.del]
                ∨ run.map Prod.fst = [Op.ins] := by
              cases hr : run with
              | nil => simp
              | cons a l =>
                have hl : l = [] := by
                  have := hlen
                  rw [hr] at this
                  simp only [List.length_cons] at this
                  cases l with
                  | nil => rfl
                  | cons b m =>
                    exfalso
                    simp only [List.length_cons] at this
                    omega
                subst hl
                have hop := hrun a (by rw [hr]; simp)
                cases hop2 : a.1 with
                | del => right; left; simp [hop2]
                | ins => right; right; simp [hop2]
                | eq => exact absurd hop2 hop
            refine ih _ [] rest2 0 0 [] [] out h (by simp) (by simp) ?_
              (Or.inr ⟨pre ++ run, s, by simp⟩) ?_ ?_
            · rw [chain_adjP_iff_ops]
              rw [show (pre ++ run ++ [(Op.eq, s)]).map Prod.fst
                  = pre.map Prod.fst ++ (run.map Prod.fst ++ [Op.eq]) by simp]
              apply chain_ops_PEm
              · rw [← chain_adjP_iff_ops]
                exact hchain
              · rcases hpre with rfl | ⟨pre0, e, rfl⟩
                · left; simp
                · right
                  rw [show (pre0 ++ [(Op.eq, e)]).map Prod.fst
                      = pre0.map Prod.fst ++ [Op.eq] by simp,
                    List.getLast?_append_of_ne_nil _ (by simp)]
                  rfl
              · rcases hrunops with hr | hr | hr
                · left; exact hr
                · right; left; exact hr
                · right; right; left; exact hr
            · rw [show (pre ++ run ++ [(Op.eq, s)]) ++ [] ++ rest2
                = pre ++ run ++ ((Op.eq, s) :: rest2) by simp]
              exact hnel
            · rw [show (pre ++ run ++ [(Op.eq, s)]) ++ [] ++ rest2
                = pre ++ run ++ ((Op.eq, s) :: rest2) by simp]
              exact hlast

/-- A `changes = true` state propagates to the end of the second pass. -/
theorem mergeSecondPass_true :
    ∀ fuel diffs pointer out ch,
      mergeSecondPass fuel diffs pointer true = some (out, ch) → ch = true := by
  intro fuel
  induction fuel with
  | zero => intro diffs pointer out ch h; simp [mergeSecondPass] at h
  | succ fuel ih =>
    intro diffs pointer out ch h
    rw [mergeSecondPass] at h
    by_cases hc : pointer + 1 < diffs.length
    · rw [if_pos hc] at h
      split at h
      · split at h
        · exact ih _ _ _ _ h
        · split at h
          · exact ih _ _ _ _ h
          · exact ih _ _ _ _ h
      · exact ih _ _ _ _ h
    · rw [if_neg hc] at h
      simp only [Option.some.injEq, Prod.mk.injEq] at h
      exact h.2.symm

/-- If the second pass reports no changes, it did not modify the script. -/
theorem mergeSecondPass_false :
    ∀ fuel diffs pointer out,
      mergeSecondPass fuel diffs pointer false = some (out, false) → out = diffs := by
  intro fuel
  induction fuel with
  | zero => intro diffs pointer out h; simp [mergeSecondPass] at h
  | succ fuel ih =>
    intro diffs pointer out h
    rw [mergeSecondPass] at h
    by_cases hc : pointer + 1 < diffs.length
    · rw [if_pos hc] at h
      split at h
      · split at h
        · exact absurd (mergeSecondPass_true _ _ _ _ _ h) (by simp)
        · split at h
          · exact absurd (mergeSecondPass_true _ _ _ _ _ h) (by simp)
          · exact ih _ _ _ h
      · exact ih _ _ _ h
    · rw [if_neg hc] at h
      simp only [Option.some.injEq, Prod.mk.injEq, and_true] at h
      exact h.symm

/-- The first pass of `diff_cleanupMerge` preserves `diff_text1` and
`diff_text2` (with `td`/`ti` the run's accumulated delete/insert texts). -/
theorem mergeFirstPass_text :
    ∀ (fuel : Nat) (pre run rest : Script) (cd ci : Nat) (td ti : Str)
      (out : Script),
      mergeFirstPass fuel (pre ++ run ++ rest) (pre.length + run.length)
          cd ci td ti = some out →
      run.length = cd + ci →
      (∀ x ∈ run, x.1 ≠ Op.eq) →
      diff_text1 run = td →
      diff_text2 run = ti →
      (pre = [] ∨ ∃ pre0 e, pre = pre0 ++ [(Op.eq, e)]) →
      diff_text1 out = diff_text1 (pre ++ run ++ rest)
        ∧ diff_text2 out = diff_text2 (pre ++ run ++ rest) := by
  intro fuel
  induction fuel with
  | zero =>
    intro pre run rest cd ci td ti out h
    simp [mergeFirstPass] at h
  | succ fuel ih =>
    intro pre run rest cd ci td ti out h hlen hrun htd hti hpre
    rw [mergeFirstPass] at h
    have hget : (pre ++ run ++ rest).get? (pre.length + run.length)
        = rest.head? := by
      rw [show pre ++ run ++ rest = (pre ++ run) ++ rest by simp,
        show pre.length + run.length = (pre ++ run).length by simp,
        get?_append_length]
    cases rest with
    | nil =>
      rw [hget] at h
      replace h : some (pre ++ run ++ []) = some out := h
      simp only [Option.some.injEq] at h
      subst h
      exact ⟨rfl, rfl⟩
    | cons d rest2 =>
      obtain ⟨op, s⟩ := d
      rw [hget] at h
      cases op with
      | ins =>
        replace h : mergeFirstPass fuel (pre ++ run ++ ((Op.ins, s) :: rest2))
            (pre.length + run.length + 1) cd (ci + 1) td (ti ++ s) = some out := h
        rw [show pre ++ run ++ ((Op.ins, s) :: rest2)
            = pre ++ (run ++ [(Op.ins, s)]) ++ rest2 by simp,
          show pre.length + run.length + 1
            = pre.length + (run ++ [(Op.ins, s)]).length by simp; omega] at h
        have hres := ih pre (run ++ [(Op.ins, s)]) rest2 cd (ci + 1) td (ti ++ s)
          out h (by simp; omega) ?_ ?_ ?_ hpre
        rotate_left
        · intro x hx
          rcases List.mem_append.mp hx with hx | hx
          · exact hrun x hx
          · simp only [List.mem_singleton] at hx
            subst hx
            simp
        · rw [text1_append, htd]
          simp [diff_text1]
        · rw [text2_append, hti]
          simp [diff_text2]
        rw [show pre ++ (run ++ [(Op.ins, s)]) ++ rest2
            = pre ++ run ++ ((Op.ins, s) :: rest2) by simp] at hres
        exact hres
      | del =>
        replace h : mergeFirstPass fuel (pre ++ run ++ ((Op.del, s) :: rest2))
            (pre.length + run.length + 1) (cd + 1) ci (td ++ s) ti = some out := h
        rw [show pre ++ run ++ ((Op.del, s) :: rest2)
            = pre ++ (run ++ [(Op.del, s)]) ++ rest2 by simp,
          show pre.length + run.length + 1
            = pre.length + (run ++ [(Op.del, s)]).length by simp; omega] at h
        have hres := ih pre (run ++ [(Op.del, s)]) rest2 (cd + 1) ci (td ++ s) ti
          out h (by simp; omega) ?_ ?_ ?_ hpre
        rotate_left
        · intro x hx
          rcases List.mem_append.mp hx with hx | hx
          · exact hrun x hx
          · simp only [List.mem_singleton] at hx
            subst hx
            simp
        · rw [text1_append, htd]
          simp [diff_text1]
        · rw [text2_append, hti]
          simp [diff_text2]
        rw [show pre ++ (run ++ [(Op.del, s)]) ++ rest2
            = pre ++ run ++ ((Op.del, s) :: rest2) by simp] at hres
        exact hres
      | eq =>
        replace h : (if cd + ci > 1 then
            mergeFirstPass fuel
              (mergeRunEmit (pre ++ run ++ ((Op.eq, s) :: rest2))
                (pre.length + run.length) cd ci td ti).1
              ((mergeRunEmit (pre ++ run ++ ((Op.eq, s) :: rest2))
                (pre.length + run.length) cd ci td ti).2 + 1) 0 0 [] []
          else
            if 0 < pre.length + run.length ∧
                ((pre ++ run ++ ((Op.eq, s) :: rest2)).get?
                  (pre.length + run.length - 1)).map Prod.fst = some Op.eq then
              mergeFirstPass fuel
                (((pre ++ run ++ ((Op.eq, s) :: rest2)).modify
                    (fun x => (x.1, x.2 ++ s))
                    (pre.length + run.length - 1)).eraseIdx
                  (pre.length + run.length))
                (pre.length + run.length) 0 0 [] []
            else
              mergeFirstPass fuel (pre ++ run ++ ((Op.eq, s) :: rest2))
                (pre.length + run.length + 1) 0 0 [] []) = some out := h
        by_cases hbig : cd + ci > 1
        · rw [if_pos hbig] at h
          obtain ⟨P, Em, s2, heq, hops, hneP, hEm, hEmne, ⟨c, hc⟩, ht1, ht2⟩ :=
            mergeRunEmit_decomp pre run rest2 s td ti cd ci hlen hpre
          rw [heq] at h
          simp only at h
          rw [show P ++ Em ++ ((Op.eq, s2) :: rest2)
              = (P ++ Em ++ [(Op.eq, s2)]) ++ [] ++ rest2 by simp,
            show P.length + Em.length + 1
              = (P ++ Em ++ [(Op.eq, s2)]).length + ([] : Script).length by
                simp; omega] at h
          have hres := ih _ [] rest2 0 0 [] [] out h (by simp) (by simp) rfl rfl
            (Or.inr ⟨P ++ Em, s2, by simp⟩)
          obtain ⟨hr1, hr2⟩ := hres
          constructor
          · rw [hr1]
            rw [show (P ++ Em ++ [(Op.eq, s2)]) ++ [] ++ rest2
                = P ++ (Em ++ ((Op.eq, s2) :: rest2)) by simp,
              show pre ++ run ++ ((Op.eq, s) :: rest2)
                = pre ++ (run ++ ((Op.eq, s) :: rest2)) by simp,
              text1_append, text1_append, text1_append, text1_append]
            simp only [diff_text1, List.append_nil,
              if_neg (show ¬ (Op.eq = Op.ins) by decide)]
            rw [show diff_text1 P ++ (diff_text1 Em ++ (s2 ++ diff_text1 rest2))
                = (diff_text1 P ++ (diff_text1 Em ++ s2)) ++ diff_text1 rest2 by
                  simp [List.append_assoc],
              ht1, htd]
            simp [List.append_assoc]
          · rw [hr2]
            rw [show (P ++ Em ++ [(Op.eq, s2)]) ++ [] ++ rest2
                = P ++ (Em ++ ((Op.eq, s2) :: rest2)) by simp,
              show pre ++ run ++ ((Op.eq, s) :: rest2)
                = pre ++ (run ++ ((Op.eq, s) :: rest2)) by simp,
              text2_append, text2_append, text2_append, text2_append]
            simp only [diff_text2, List.append_nil,
              if_neg (show ¬ (Op.eq = Op.del) by decide)]
            rw [show diff_text2 P ++ (diff_text2 Em ++ (s2 ++ diff_text2 rest2))
                = (diff_text2 P ++ (diff_text2 Em ++ s2)) ++ diff_text2 rest2 by
                  simp [List.append_assoc],
              ht2, hti]
            simp [List.append_assoc]
        · rw [if_neg hbig] at h
          by_cases hmrg : 0 < pre.length + run.length ∧
              ((pre ++ run ++ ((Op.eq, s) :: rest2)).get?
                (pre.length + run.length - 1)).map Prod.fst = some Op.eq
          · rw [if_pos hmrg] at h
            have hrunnil : run = [] := by
              rcases List.eq_nil_or_concat run with hr | ⟨run0, a, hr⟩
              · exact hr
              · exfalso
                rw [List.concat_eq_append] at hr
                have hop := hrun a (by rw [hr]; simp)
                have hgetrun : (pre ++ run ++ ((Op.eq, s) :: rest2)).get?
                    (pre.length + run.length - 1) = some a := by
                  subst hr
                  have e1 : pre ++ (run0 ++ [a]) ++ ((Op.eq, s) :: rest2)
                      = (pre ++ run0) ++ (a :: ((Op.eq, s) :: rest2)) := by simp
                  have e2 : pre.length + (run0 ++ [a]).length - 1
                      = (pre ++ run0).length := by simp
                  rw [e1, e2, get?_append_length]
                  rfl
                rw [hgetrun] at hmrg
                have h2 := hmrg.2
                simp at h2
                exact hop h2
            subst hrunnil
            have hprene : pre ≠ [] := by
              intro hcontra
              rw [hcontra] at hmrg
              simp at hmrg
            obtain ⟨pre0, e, rfl⟩ : ∃ pre0 e, pre = pre0 ++ [(Op.eq, e)] := by
              rcases hpre with hcontra | h2
              · exact absurd hcontra hprene
              · exact h2
            have hd1 : ((((pre0 ++ [(Op.eq, e)]) ++ [] ++ ((Op.eq, s) :: rest2)).modify
                (fun x => (x.1, x.2 ++ s))
                ((pre0 ++ [(Op.eq, e)]).length + ([] : Script).length - 1)).eraseIdx
                  ((pre0 ++ [(Op.eq, e)]).length + ([] : Script).length))
                = (pre0 ++ [(Op.eq, e ++ s)]) ++ [] ++ rest2 := by
              rw [show (pre0 ++ [(Op.eq, e)]) ++ [] ++ ((Op.eq, s) :: rest2)
                  = pre0 ++ ((Op.eq, e) :: ((Op.eq, s) :: rest2)) by simp,
                show (pre0 ++ [(Op.eq, e)]).length + ([] : Script).length - 1
                  = pre0.length by simp,
                modify_append_length,
                show pre0 ++ ((Op.eq, e).1, (Op.eq, e).2 ++ s) :: ((Op.eq, s) :: rest2)
                  = (pre0 ++ [(Op.eq, e ++ s)]) ++ ((Op.eq, s) :: rest2) by simp,
                show (pre0 ++ [(Op.eq, e)]).length + ([] : Script).length
                  = (pre0 ++ [(Op.eq, e ++ s)]).length by simp,
                eraseIdx_append_length]
              simp
            rw [hd1,
              show (pre0 ++ [(Op.eq, e)]).length + ([] : Script).length
                = (pre0 ++ [(Op.eq, e ++ s)]).length + ([] : Script).length by
                  simp] at h
            have hres := ih _ [] rest2 0 0 [] [] out h (by simp) (by simp) rfl rfl
              (Or.inr ⟨pre0, e ++ s, rfl⟩)
            obtain ⟨hr1, hr2⟩ := hres
            constructor
            · rw [hr1]
              rw [show (pre0 ++ [(Op.eq, e ++ s)]) ++ [] ++ rest2
                  = pre0 ++ ((Op.eq, e ++ s) :: rest2) by simp,
                show (pre0 ++ [(Op.eq, e)]) ++ [] ++ ((Op.eq, s) :: rest2)
                  = pre0 ++ ((Op.eq, e) :: ((Op.eq, s) :: rest2)) by simp,
                text1_append, text1_append]
              simp [diff_text1, List.append_assoc]
            · rw [hr2]
              rw [show (pre0 ++ [(Op.eq, e ++ s)]) ++ [] ++ rest2
                  = pre0 ++ ((Op.eq, e ++ s) :: rest2) by simp,
                show (pre0 ++ [(Op.eq, e)]) ++ [] ++ ((Op.eq, s) :: rest2)
                  = pre0 ++ ((Op.eq, e) :: ((Op.eq, s) :: rest2)) by simp,
                text2_append, text2_append]
              simp [diff_text2, List.append_assoc]
          · rw [if_neg hmrg] at h
            rw [show pre ++ run ++ ((Op.eq, s) :: rest2)
                = (pre ++ run ++ [(Op.eq, s)]) ++ [] ++ rest2 by simp,
              show pre.length + run.length + 1
                = (pre ++ run ++ [(Op.eq, s)]).length + ([] : Script).length by
                  simp; omega] at h
            have hres := ih _ [] rest2 0 0 [] [] out h (by simp) (by simp) rfl rfl
              (Or.inr ⟨pre ++ run, s, by simp⟩)
            obtain ⟨hr1, hr2⟩ := hres
            constructor
            · rw [hr1]
              rw [show (pre ++ run ++ [(Op.eq, s)]) ++ [] ++ rest2
                  = pre ++ run ++ ((Op.eq, s) :: rest2) by simp]
            · rw [hr2]
              rw [show (pre ++ run ++ [(Op.eq, s)]) ++ [] ++ rest2
                  = pre ++ run ++ ((Op.eq, s) :: rest2) by simp]

theorem get?_split (l : List α) (n : Nat) (x : α) (h : l.get? n = some x) :
    ∃ A B, l = A ++ x :: B ∧ A.length = n := by
  obtain ⟨hn, hget⟩ := List.get?_eq_some.mp h
  refine ⟨l.take n, l.drop (n + 1), ?_, ?_⟩
  · conv_lhs => rw [← List.take_append_drop n l]
    rw [List.drop_eq_get_cons hn, hget]
  · simp [List.length_take]
    omega

theorem set_set_erase (A B : List α) (p e n v w : α) :
    (((A ++ p :: e :: n :: B).set (A.length + 1) v).set (A.length + 1 + 1) w).eraseIdx
      (A.length + 1 - 1) = A ++ v :: w :: B := by
  rw [show A ++ p :: e :: n :: B = (A ++ [p]) ++ e :: (n :: B) by simp,
    show A.length + 1 = (A ++ [p]).length by simp,
    set_append_length,
    show (A ++ [p]) ++ v :: n :: B = (A ++ [p, v]) ++ n :: B by simp,
    show (A ++ [p]).length + 1 = (A ++ [p, v]).length by simp,
    set_append_length,
    show (A ++ [p, v]) ++ w :: B = A ++ p :: (v :: w :: B) by simp,
    show (A ++ [p]).length - 1 = A.length by simp,
    eraseIdx_append_length]

theorem set_set_erase2 (A B : List α) (p e n u v : α) :
    (((A ++ p :: e :: n :: B).set (A.length + 1 - 1) u).set (A.length + 1) v).eraseIdx
      (A.length + 1 + 1) = A ++ u :: v :: B := by
  rw [show A.length + 1 - 1 = A.length from by omega,
    set_append_length,
    show A ++ u :: e :: n :: B = (A ++ [u]) ++ e :: (n :: B) by simp,
    show A.length + 1 = (A ++ [u]).length by simp,
    set_append_length,
    show (A ++ [u]) ++ v :: n :: B = (A ++ [u, v]) ++ n :: B by simp,
    show (A ++ [u]).length + 1 = (A ++ [u, v]).length by simp,
    eraseIdx_append_length]
  simp

/-- The second pass of `diff_cleanupMerge` (single-edit sliding) preserves
`diff_text1` and `diff_text2`. -/
theorem mergeSecondPass_text :
    ∀ (fuel : Nat) (diffs : Script) (pointer : Nat) (c : Bool)
      (out : Script) (ch : Bool),
      mergeSecondPass fuel diffs pointer c = some (out, ch) →
      0 < pointer →
      diff_text1 out = diff_text1 diffs ∧ diff_text2 out = diff_text2 diffs := by
  intro fuel
  induction fuel with
  | zero => intro diffs pointer c out ch h; simp [mergeSecondPass] at h
  | succ fuel ih =>
    intro diffs pointer c out ch h hp
    rw [mergeSecondPass] at h
    by_cases hc : pointer + 1 < diffs.length
    · rw [if_pos hc] at h
      split at h
      case _ prevTxt editOp editTxt nextTxt heq1 heq2 heq3 =>
        obtain ⟨A, B1, hl1, hA⟩ := get?_split _ _ _ heq1
        have hptr : pointer = A.length + 1 := by omega
        subst hptr
        subst hl1
        have hB1 : B1.head? = some (editOp, editTxt) := by
          rw [show A ++ (Op.eq, prevTxt) :: B1 = (A ++ [(Op.eq, prevTxt)]) ++ B1 by
              simp,
            show A.length + 1 = (A ++ [(Op.eq, prevTxt)]).length by simp,
            get?_append_length] at heq2
          exact heq2
        cases B1 with
        | nil => simp at hB1
        | cons b B2 =>
          obtain rfl : b = (editOp, editTxt) := by simpa using hB1
          have hB2 : B2.head? = some (Op.eq, nextTxt) := by
            rw [show A ++ (Op.eq, prevTxt) :: (editOp, editTxt) :: B2
                = (A ++ [(Op.eq, prevTxt), (editOp, editTxt)]) ++ B2 by simp,
              show A.length + 1 + 1
                = (A ++ [(Op.eq, prevTxt), (editOp, editTxt)]).length by simp,
              get?_append_length] at heq3
            exact heq3
          cases B2 with
          | nil => simp at hB2
          | cons b2 B =>
            obtain rfl : b2 = (Op.eq, nextTxt) := by simpa using hB2
            split at h
            case isTrue hcond1 =>
              have hE : editTxt.take (editTxt.length - prevTxt.length) ++ prevTxt
                  = editTxt := by
                conv_rhs => rw [← take_append_lastUnits editTxt prevTxt.length]
                rw [hcond1]
              obtain ⟨u, hu⟩ : ∃ u, editTxt = u ++ prevTxt :=
                ⟨editTxt.take (editTxt.length - prevTxt.length), hE.symm⟩
              rw [hu] at h
              have htk : (u ++ prevTxt).take
                  ((u ++ prevTxt).length - prevTxt.length) = u := by
                simp
              rw [htk, set_set_erase] at h
              obtain ⟨hr1, hr2⟩ := ih _ _ _ _ _ h (by omega)
              rw [hu]
              constructor
              · rw [hr1]
                cases editOp <;>
                  simp [text1_append, text1_cons_del, text1_cons_ins,
                    text1_cons_eq, List.append_assoc]
              · rw [hr2]
                cases editOp <;>
                  simp [text2_append, text2_cons_del, text2_cons_ins,
                    text2_cons_eq, List.append_assoc]
            case isFalse hcond1 =>
              split at h
              case isTrue hcond2 =>
                obtain ⟨v, hv⟩ : ∃ v, editTxt = nextTxt ++ v :=
                  ⟨editTxt.drop nextTxt.length, by
                    conv_lhs => rw [← List.take_append_drop nextTxt.length editTxt]
                    rw [hcond2]⟩
                rw [hv] at h
                have hdr : (nextTxt ++ v).drop nextTxt.length = v := by simp
                rw [hdr, set_set_erase2] at h
                obtain ⟨hr1, hr2⟩ := ih _ _ _ _ _ h (by omega)
                rw [hv]
                constructor
                · rw [hr1]
                  cases editOp <;>
                    simp [text1_append, text1_cons_del, text1_cons_ins,
                      text1_cons_eq, List.append_assoc]
                · rw [hr2]
                  cases editOp <;>
                    simp [text2_append, text2_cons_del, text2_cons_ins,
                      text2_cons_eq, List.append_assoc]
              case isFalse hcond2 =>
                exact ih _ _ _ _ _ h (by omega)
      case _ =>
        exact ih _ _ _ _ _ h (by omega)
    · rw [if_neg hc] at h
      simp only [Option.some.injEq, Prod.mk.injEq] at h
      rw [← h.1]
      exact ⟨rfl, rfl⟩

/-- `diff_cleanupMerge` preserves `diff_text1` and `diff_text2`. -/
theorem diff_cleanupMerge_text :
    ∀ (fuel : Nat) (diffs out : Script),
      diff_cleanupMerge fuel diffs = some out →
      diff_text1 out = diff_text1 diffs ∧ diff_text2 out = diff_text2 diffs := by
  intro fuel
  induction fuel with
  | zero => intro diffs out h; simp [diff_cleanupMerge] at h
  | succ fuel ih =>
    intro diffs out h
    rw [diff_cleanupMerge] at h
    replace h : (mergeFirstPass (3 * (diffs ++ [(Op.eq, [])]).length + 8)
        (diffs ++ [(Op.eq, [])]) 0 0 0 [] []).bind (fun d1 =>
          (mergeSecondPass
            ((if (d1.getLast?.map Prod.snd) = some ([] : Str) then d1.dropLast
              else d1).length + 2)
            (if (d1.getLast?.map Prod.snd) = some ([] : Str) then d1.dropLast
              else d1) 1 false).bind (fun res =>
            if res.2 then diff_cleanupMerge fuel res.1 else some res.1))
        = some out := h
    rcases h1 : mergeFirstPass (3 * (diffs ++ [(Op.eq, [])]).length + 8)
        (diffs ++ [(Op.eq, [])]) 0 0 0 [] [] with _ | d1
    · rw [h1] at h
      simp at h
    rw [h1] at h
    simp only [Option.some_bind] at h
    have hft : diff_text1 d1 = diff_text1 diffs
        ∧ diff_text2 d1 = diff_text2 diffs := by
      have := mergeFirstPass_text (3 * (diffs ++ [(Op.eq, [])]).length + 8)
        [] [] (diffs ++ [(Op.eq, [])]) 0 0 [] [] d1 (by simpa using h1)
        rfl (by simp) rfl rfl (Or.inl rfl)
      simpa [text1_append, text2_append, text1_cons_eq, text2_cons_eq,
        diff_text1, diff_text2] using this
    set d2 := if (d1.getLast?.map Prod.snd) = some ([] : Str) then d1.dropLast
      else d1 with hd2
    have hd2t : diff_text1 d2 = diff_text1 d1 ∧ diff_text2 d2 = diff_text2 d1 := by
      rw [hd2]
      by_cases hlast : (d1.getLast?.map Prod.snd) = some ([] : Str)
      · rw [if_pos hlast]
        rcases List.eq_nil_or_concat d1 with hnil | ⟨d0, a, hcat⟩
        · subst hnil
          simp at hlast
        · rw [List.concat_eq_append] at hcat
          subst hcat
          have ha : a.2 = ([] : Str) := by
            rw [List.getLast?_append_cons] at hlast
            simpa using hlast
          obtain ⟨aop, atxt⟩ := a
          simp only at ha
          subst ha
          rw [List.dropLast_append_cons]
          simp [text1_append, text2_append, diff_text1, diff_text2]
      · rw [if_neg hlast]
        exact ⟨rfl, rfl⟩
    rcases h2 : mergeSecondPass (d2.length + 2) d2 1 false with _ | res
    · rw [h2] at h
      simp at h
    rw [h2] at h
    simp only [Option.some_bind] at h
    obtain ⟨r, rch⟩ := res
    have hst := mergeSecondPass_text (d2.length + 2) d2 1 false r rch h2
      (by omega)
    cases rch with
    | false =>
      replace h : some r = some out := h
      simp only [Option.some.injEq] at h
      subst h
      exact ⟨by rw [hst.1, hd2t.1, hft.1], by rw [hst.2, hd2t.2, hft.2]⟩
    | true =>
      replace h : diff_cleanupMerge fuel r = some out := h
      obtain ⟨hi1, hi2⟩ := ih r out h
      exact ⟨by rw [hi1, hst.1, hd2t.1, hft.1],
        by rw [hi2, hst.2, hd2t.2, hft.2]⟩

/-- C2, amended: for scripts all of whose segments carry nonempty text,
`diff_cleanupMerge` returns a script with no empty-text segment and in which
adjacent segments share an operation only if both are EQUAL. -/
theorem C2_amended_cleanupMerge (fuel : Nat) :
    ∀ (diffs out : Script),
      (∀ x ∈ diffs, x.2 ≠ ([] : Str)) →
      diff_cleanupMerge fuel diffs = some out →
      (∀ x ∈ out, x.2 ≠ ([] : Str)) ∧ List.Chain' adjP out := by
  induction fuel with
  | zero => intro diffs out _ h; simp [diff_cleanupMerge] at h
  | succ fuel ih =>
    intro diffs out hall h
    rw [diff_cleanupMerge] at h
    cases hfp : mergeFirstPass (3 * (diffs ++ [(Op.eq, [])]).length + 8)
        (diffs ++ [(Op.eq, [])]) 0 0 0 [] [] with
    | none => rw [hfp] at h; simp at h
    | some d1 =>
      rw [hfp] at h
      replace h : Option.bind
          (mergeSecondPass
            ((if (d1.getLast?.map Prod.snd) = some ([] : Str)
              then d1.dropLast else d1).length + 2)
            (if (d1.getLast?.map Prod.snd) = some ([] : Str)
              then d1.dropLast else d1) 1 false)
          (fun res => if res.2 = true then diff_cleanupMerge fuel res.1
            else some res.1) = some out := h
      have hwf := mergeFirstPass_wf (3 * (diffs ++ [(Op.eq, [])]).length + 8)
        [] [] (diffs ++ [(Op.eq, [])]) 0 0 [] [] d1 hfp rfl
        (by simp) (by simp) (Or.inl rfl) ?_ ?_
      rotate_left
      · -- NEL of the sentinel-extended script
        intro x hx
        simp only [List.nil_append] at hx
        rw [List.dropLast_append_of_ne_nil _ (by simp)] at hx
        rcases List.mem_append.mp hx with hx | hx
        · exact hall x hx
        · simp at hx
      · simp only [List.nil_append]
        rw [List.getLast?_append_of_ne_nil _ (by simp)]
        rfl
      obtain ⟨hch1, hnel1, hne1⟩ := hwf
      have hsplit := List.dropLast_concat_getLast hne1
      -- the sentinel pop
      set d2 := if (d1.getLast?.map Prod.snd) = some ([] : Str)
        then d1.dropLast else d1 with hd2
      have hch2 : List.Chain' adjP d2 := by
        rw [hd2]
        by_cases hpop : (d1.getLast?.map Prod.snd) = some ([] : Str)
        · rw [if_pos hpop]
          have := List.chain'_append.mp (by rw [hsplit]; exact hch1)
          exact this.1
        · rw [if_neg hpop]
          exact hch1
      have hall2 : ∀ x ∈ d2, x.2 ≠ ([] : Str) := by
        rw [hd2]
        by_cases hpop : (d1.getLast?.map Prod.snd) = some ([] : Str)
        · rw [if_pos hpop]
          exact hnel1
        · rw [if_neg hpop]
          intro x hx
          rw [← hsplit] at hx
          rcases List.mem_append.mp hx with hx | hx
          · exact hnel1 x hx
          · simp only [List.mem_singleton] at hx
            subst hx
            intro hcontra
            apply hpop
            rw [List.getLast?_eq_getLast d1 hne1]
            simp [hcontra]
      cases hsp : mergeSecondPass (d2.length + 2) d2 1 false with
      | none => rw [hsp] at h; simp at h
      | some res =>
        rw [hsp] at h
        obtain ⟨res1, ch⟩ := res
        cases ch with
        | false =>
          replace h : some res1 = some out := h
          simp only [Option.some.injEq] at h
          subst h
          have := mergeSecondPass_false _ _ _ _ hsp
          subst this
          exact ⟨hall2, hch2⟩
        | true =>
          replace h : diff_cleanupMerge fuel res1 = some out := h
          exact ih res1 out (mergeSecondPass_nonempty _ _ _ _ _ _ hsp hall2) h

/-- Witness for the amended C2 at a concrete nonempty-segment script. -/
theorem C2_amended_cleanupMerge_witness :
    (∀ x ∈ ([(Op.del, [97]), (Op.ins, [98]), (Op.eq, [99])] : Script),
      x.2 ≠ ([] : Str)) ∧
    diff_cleanupMerge 5 [(Op.del, [97]), (Op.ins, [98]), (Op.eq, [99])]
      = some [(Op.del, [97]), (Op.ins, [98]), (Op.eq, [99])] ∧
    ((∀ x ∈ ([(Op.del, [97]), (Op.ins, [98]), (Op.eq, [99])] : Script),
        x.2 ≠ ([] : Str))
      ∧ List.Chain' adjP [(Op.del, [97]), (Op.ins, [98]), (Op.eq, [99])]) :=
  ⟨by decide, by decide,
    C2_amended_cleanupMerge 5 [(Op.del, [97]), (Op.ins, [98]), (Op.eq, [99])]
      [(Op.del, [97]), (Op.ins, [98]), (Op.eq, [99])] (by decide) (by decide)⟩

/-! ## The diff pipeline: helpers -/

theorem jsIndexOf_spec (s pat : Str) (f i : Nat) (h : jsIndexOf s pat f = some i) :
    min f s.length ≤ i ∧ matchAt s pat i = true := by
  unfold jsIndexOf at h
  have := List.find?_some h
  simpa using this

theorem matchAt_decomp (s pat : Str) (i : Nat) (h : matchAt s pat i = true) :
    s = s.take i ++ pat ++ s.drop (i + pat.length) := by
  unfold matchAt at h
  simp only [Bool.and_eq_true, decide_eq_true_eq] at h
  obtain ⟨hle, heq⟩ := h
  conv_lhs => rw [← List.take_append_drop i s]
  rw [List.append_assoc]
  congr 1
  conv_lhs => rw [← List.take_append_drop pat.length (s.drop i)]
  rw [heq, List.drop_drop, Nat.add_comm]

theorem matchAt_le (s pat : Str) (i : Nat) (h : matchAt s pat i = true) :
    i + pat.length ≤ s.length := by
  unfold matchAt at h
  simp only [Bool.and_eq_true, decide_eq_true_eq] at h
  exact h.1

theorem matchAt_zero_take (s pat : Str) (h : matchAt s pat 0 = true) :
    s.take pat.length = pat := by
  unfold matchAt at h
  simp only [Bool.and_eq_true, decide_eq_true_eq] at h
  simpa using h.2

theorem jsSubstring_zero (s : Str) (k : Nat) : jsSubstring s 0 k = s.take k := by
  simp [jsSubstring]

/-- The search loop of `diff_commonOverlap_`, on the already-truncated
equal-length strings (`best`/`length` as in the source). -/
def commonOverlapLoop (t1 t2 : Str) (tlen : Nat) : Nat → Nat → Nat → Option Nat
  | 0, _, _ => none
  | fuel + 1, best, length =>
    match jsIndexOf t2 (jsSubstringFrom t1 (tlen - length)) 0 with
    | none => some best
    | some found =>
      let length2 := length + found
      if found = 0 ∨ jsSubstringFrom t1 (tlen - length2) = jsSubstring t2 0 length2 then
        commonOverlapLoop t1 t2 tlen fuel length2 (length2 + 1)
      else
        commonOverlapLoop t1 t2 tlen fuel best length2

/-- `diff_commonOverlap_`: the longest suffix of `text1` that is a prefix of
`text2`. -/
def diff_commonOverlap_ (a b : Str) : Option Nat :=
  let n1 := a.length
  let n2 := b.length
  if n1 = 0 ∨ n2 = 0 then some 0
  else
    let t1 := if n1 > n2 then jsSubstringFrom a (n1 - n2) else a
    let t2 := if n1 < n2 then jsSubstring b 0 n1 else b
    let tlen := min n1 n2
    if t1 = t2 then some tlen
    else commonOverlapLoop t1 t2 tlen (tlen + 2) 0 1

theorem commonOverlapLoop_spec (t1 t2 : Str) (tlen : Nat)
    (h1 : t1.length = tlen) (h2 : t2.length = tlen) (hne : t1 ≠ t2) :
    ∀ fuel best length ov,
      commonOverlapLoop t1 t2 tlen fuel best length = some ov →
      best ≤ tlen → lastUnits t1 best = t2.take best →
      length ≤ tlen + 1 →
      ov ≤ tlen ∧ lastUnits t1 ov = t2.take ov := by
  intro fuel
  induction fuel with
  | zero => intro best length ov h; simp [commonOverlapLoop] at h
  | succ fuel ih =>
    intro best length ov h hb hprop hlen
    rw [commonOverlapLoop] at h
    rcases hidx : jsIndexOf t2 (jsSubstringFrom t1 (tlen - length)) 0 with _ | found
    · rw [hidx] at h
      replace h : some best = some ov := h
      simp only [Option.some.injEq] at h
      subst h
      exact ⟨hb, hprop⟩
    rw [hidx] at h
    obtain ⟨-, hmatch⟩ := jsIndexOf_spec _ _ _ _ hidx
    have hplen : (jsSubstringFrom t1 (tlen - length)).length = tlen - (tlen - length) := by
      simp [jsSubstringFrom, h1]
    have hfb := matchAt_le _ _ _ hmatch
    by_cases hlt : length ≤ tlen
    · have hplen2 : (jsSubstringFrom t1 (tlen - length)).length = length := by
        rw [hplen]; omega
      have hl2 : length + found ≤ tlen := by
        rw [hplen2, h2] at hfb
        omega
      replace h : (if found = 0 ∨ jsSubstringFrom t1 (tlen - (length + found))
            = jsSubstring t2 0 (length + found) then
          commonOverlapLoop t1 t2 tlen fuel (length + found) (length + found + 1)
        else
          commonOverlapLoop t1 t2 tlen fuel best (length + found)) = some ov := h
      by_cases hcond : found = 0 ∨ jsSubstringFrom t1 (tlen - (length + found))
          = jsSubstring t2 0 (length + found)
      · rw [if_pos hcond] at h
        refine ih (length + found) (length + found + 1) ov h hl2 ?_ (by omega)
        rcases hcond with hf0 | hslice
        · subst hf0
          have ht := matchAt_zero_take _ _ hmatch
          rw [hplen2] at ht
          simp only [Nat.add_zero]
          rw [ht]
          unfold lastUnits jsSubstringFrom
          rw [h1]
        · rw [show lastUnits t1 (length + found)
              = jsSubstringFrom t1 (tlen - (length + found)) from by
                unfold lastUnits jsSubstringFrom; rw [h1],
            hslice, jsSubstring_zero]
      · rw [if_neg hcond] at h
        exact ih best (length + found) ov h hb hprop (by omega)
    · exfalso
      have hlv : length = tlen + 1 := by omega
      rw [hplen, h2] at hfb
      have hfound0 : found = 0 := by omega
      subst hfound0
      have ht := matchAt_zero_take _ _ hmatch
      have hpat : jsSubstringFrom t1 (tlen - length) = t1 := by
        unfold jsSubstringFrom
        rw [show tlen - length = 0 by omega]
        simp
      rw [hpat] at ht
      rw [h1, ← h2, List.take_length] at ht
      exact hne ht.symm

/-- Whatever `diff_commonOverlap_` returns is a genuine overlap: the last
`ov` units of `a` are the first `ov` units of `b`. -/
theorem commonOverlap_spec (a b : Str) (ov : Nat)
    (h : diff_commonOverlap_ a b = some ov) :
    ov ≤ a.length ∧ ov ≤ b.length ∧ lastUnits a ov = b.take ov := by
  unfold diff_commonOverlap_ at h
  by_cases h0 : a.length = 0 ∨ b.length = 0
  · rw [if_pos h0] at h
    replace h : some 0 = some ov := h
    simp only [Option.some.injEq] at h
    subst h
    simp [lastUnits]
  rw [if_neg h0] at h
  push_neg at h0
  set t1 := if a.length > b.length then jsSubstringFrom a (a.length - b.length) else a
    with ht1
  set t2 := if a.length < b.length then jsSubstring b 0 a.length else b with ht2
  have hl1 : t1.length = min a.length b.length := by
    rw [ht1]
    by_cases hg : a.length > b.length
    · rw [if_pos hg]
      simp [jsSubstringFrom]
      omega
    · rw [if_neg hg]
      omega
  have hl2 : t2.length = min a.length b.length := by
    rw [ht2]
    by_cases hg : a.length < b.length
    · rw [if_pos hg]
      rw [jsSubstring_zero]
      simp
    · rw [if_neg hg]
      omega
  have htrans : ∀ k, k ≤ min a.length b.length →
      lastUnits t1 k = t2.take k →
      lastUnits a k = b.take k := by
    intro k hk hke
    have e1 : lastUnits t1 k = lastUnits a k := by
      rw [ht1]
      by_cases hg : a.length > b.length
      · rw [if_pos hg]
        unfold lastUnits jsSubstringFrom
        rw [List.drop_drop]
        congr 1
        simp [jsSubstringFrom]
        omega
      · rw [if_neg hg]
    have e2 : t2.take k = b.take k := by
      rw [ht2]
      by_cases hg : a.length < b.length
      · rw [if_pos hg, jsSubstring_zero, List.take_take]
        congr 1
        omega
      · rw [if_neg hg]
    rw [← e1, ← e2]
    exact hke
  by_cases heq : t1 = t2
  · rw [if_pos heq] at h
    replace h : some (min a.length b.length) = some ov := h
    simp only [Option.some.injEq] at h
    subst h
    refine ⟨by omega, by omega, ?_⟩
    refine htrans _ (le_refl _) ?_
    rw [show lastUnits t1 (min a.length b.length) = t1 from by
        unfold lastUnits; rw [hl1]; simp,
      show t2.take (min a.length b.length) = t2 from by
        rw [← hl2, List.take_length]]
    exact heq
  · rw [if_neg heq] at h
    obtain ⟨hov, hprop⟩ := commonOverlapLoop_spec t1 t2 (min a.length b.length)
      hl1 hl2 heq _ 0 1 ov h (by omega) (by simp [lastUnits]) (by omega)
    exact ⟨by omega, by omega, htrans _ hov hprop⟩

/-! ## Line-mode encoding (`diff_linesToChars_` / `diff_charsToLines_`) -/

/-- Assoc-list lookup modelling the JS `lineHash` object. -/
def hashLookup (lh : List (Str × Nat)) (line : Str) : Option Nat :=
  (lh.find? (fun p => decide (p.1 = line))).map Prod.snd

/-- JS `String.fromCharCode` on one code: wraps at `2^16`. -/
def fromCharCode (n : Nat) : Nat := n % 65536

/-- The loop of `diff_linesToCharsMunge_`.  The source's `lineStart` always
equals `lineEnd + 1` when the loop condition `lineEnd < text.length - 1` is
tested, so the state is reduced to `lineStart` and the condition becomes
`lineStart < text.length`. -/
theorem take_drop_append_drop (s : Str) (k m : Nat) (hkm : k ≤ m) :
    (s.take m).drop k ++ s.drop m = s.drop k := by
  rw [List.drop_take]
  rw [show s.drop m = (s.drop k).drop (m - k) from by rw [List.drop_drop]; congr 1; omega]
  exact List.take_append_drop _ _

def mungeLineEnd (text : Str) (lineStart : Nat) : Nat :=
  match jsIndexOf text [10] lineStart with
  | some e => e
  | none => text.length - 1

/-- The current line: `text.substring(lineStart, lineEnd + 1)`. -/
def mungeLine (text : Str) (lineStart : Nat) : Str :=
  jsSubstring text lineStart (mungeLineEnd text lineStart + 1)

def mungeLoop (text : Str) (maxLines : Nat) :
    Nat → Nat → Str → List Str → List (Str × Nat) →
    Option (Str × List Str × List (Str × Nat))
  | 0, _, _, _, _ => none
  | fuel + 1, lineStart, chars, la, lh =>
    if lineStart < text.length then
      match hashLookup lh (mungeLine text lineStart) with
      | some code =>
        mungeLoop text maxLines fuel (mungeLineEnd text lineStart + 1)
          (chars ++ [fromCharCode code]) la lh
      | none =>
        if la.length = maxLines then
          mungeLoop text maxLines fuel (text.length + 1)
            (chars ++ [fromCharCode la.length])
            (la ++ [jsSubstringFrom text lineStart])
            (lh ++ [(jsSubstringFrom text lineStart, la.length)])
        else
          mungeLoop text maxLines fuel (mungeLineEnd text lineStart + 1)
            (chars ++ [fromCharCode la.length])
            (la ++ [mungeLine text lineStart])
            (lh ++ [(mungeLine text lineStart, la.length)])
    else some (chars, la, lh)

theorem mungeLineEnd_ge (text : Str) (lineStart : Nat)
    (hc : lineStart < text.length) : lineStart ≤ mungeLineEnd text lineStart := by
  unfold mungeLineEnd
  rcases hidx : jsIndexOf text [10] lineStart with _ | e <;> simp only [hidx]
  · omega
  · obtain ⟨hmin, -⟩ := jsIndexOf_spec _ _ _ _ hidx
    omega

theorem mungeLine_drop (text : Str) (lineStart : Nat)
    (hc : lineStart < text.length) :
    mungeLine text lineStart ++ text.drop (mungeLineEnd text lineStart + 1)
      = text.drop lineStart := by
  have hge := mungeLineEnd_ge text lineStart hc
  unfold mungeLine jsSubstring
  rw [max_eq_right (by omega), min_eq_left (by omega)]
  exact take_drop_append_drop text lineStart (mungeLineEnd text lineStart + 1)
    (by omega)

/-- Decode one encoded string through the line array (`lineArray[code]`,
with JS `undefined`-join giving the empty string out of range). -/
def charsToText (la : List Str) (chars : Str) : Str :=
  (chars.map (fun c => la.getD c [])).join

/-- `diff_charsToLines_`: decode every segment's text. -/
def diff_charsToLines_ (diffs : Script) (la : List Str) : Script :=
  diffs.map (fun d => (d.1, charsToText la d.2))

/-- `diff_linesToChars_`: munge both texts (2/3 of the code space for
`text1`, the rest for `text2`) over a shared line array and hash. -/
def diff_linesToChars_ (t1 t2 : Str) : Option (Str × Str × List Str) :=
  match mungeLoop t1 40000 (t1.length + 2) 0 [] [[]] [] with
  | none => none
  | some (c1, la1, lh1) =>
    match mungeLoop t2 65535 (t2.length + 2) 0 [] la1 lh1 with
    | none => none
    | some (c2, la2, _) => some (c1, c2, la2)

/-- The hash is consistent with the line array. -/
def hashOk (la : List Str) (lh : List (Str × Nat)) : Prop :=
  ∀ p ∈ lh, p.2 < la.length ∧ la.get? p.2 = some p.1

theorem getD_of_get? (l : List α) (n : Nat) (x d : α) (h : l.get? n = some x) :
    l.getD n d = x := by
  induction l generalizing n with
  | nil => simp at h
  | cons a l ih =>
    cases n with
    | zero =>
      simp only [List.get?, Option.some.injEq] at h
      subst h
      rfl
    | succ n =>
      simp only [List.get?] at h
      simpa using ih n h

theorem hashLookup_mem (lh : List (Str × Nat)) (line : Str) (code : Nat)
    (h : hashLookup lh line = some code) : (line, code) ∈ lh := by
  unfold hashLookup at h
  cases hf : lh.find? (fun p => decide (p.1 = line)) with
  | none => rw [hf] at h; simp at h
  | some p =>
    rw [hf] at h
    simp only [Option.map_some', Option.some.injEq] at h
    have hm := List.mem_of_find?_eq_some hf
    have hp := List.find?_some hf
    obtain ⟨p1, p2⟩ := p
    simp only [decide_eq_true_eq] at hp
    simp only at h
    subst hp
    subst h
    exact hm

theorem charsToText_append (la : List Str) (x y : Str) :
    charsToText la (x ++ y) = charsToText la x ++ charsToText la y := by
  simp [charsToText]

theorem charsToText_extend (la ext : List Str) (chars : Str)
    (h : ∀ c ∈ chars, c < la.length) :
    charsToText (la ++ ext) chars = charsToText la chars := by
  unfold charsToText
  congr 1
  apply List.map_congr_left
  intro c hc
  rw [List.getD_append _ _ _ _ (h c hc)]

theorem mungeLoop_spec (text : Str) (maxLines : Nat) (hmax : maxLines ≤ 65535) :
    ∀ fuel lineStart chars la lh c' la' lh',
      mungeLoop text maxLines fuel lineStart chars la lh = some (c', la', lh') →
      hashOk la lh →
      la.length ≤ maxLines + 1 →
      (la.length = maxLines + 1 → text.length < lineStart) →
      (∀ c ∈ chars, c < la.length) →
      (∃ ext, la' = la ++ ext) ∧
      hashOk la' lh' ∧
      (∀ c ∈ c', c < la'.length) ∧
      la'.length ≤ maxLines + 1 ∧
      charsToText la' c' = charsToText la chars ++ text.drop lineStart := by
  intro fuel
  induction fuel with
  | zero => intro lineStart chars la lh c' la' lh' h; simp [mungeLoop] at h
  | succ fuel ih =>
    intro lineStart chars la lh c' la' lh' h hhash hlen hbail hcodes
    rw [mungeLoop] at h
    by_cases hc : lineStart < text.length
    · rw [if_pos hc] at h
      have hlinele : la.length ≤ maxLines := by
        by_cases hb : la.length = maxLines + 1
        · exact absurd hc (by have := hbail hb; omega)
        · omega
      rcases hlook : hashLookup lh (mungeLine text lineStart) with _ | code
      · rw [hlook] at h
        by_cases hfull : la.length = maxLines
        · rw [if_pos hfull] at h
          have hhash2 : hashOk (la ++ [jsSubstringFrom text lineStart])
              (lh ++ [(jsSubstringFrom text lineStart, la.length)]) := by
            intro p hp
            rcases List.mem_append.mp hp with hp | hp
            · obtain ⟨h1, h2⟩ := hhash p hp
              refine ⟨by simp only [List.length_append, List.length_singleton]; omega, ?_⟩
              rw [List.get?_append h1]
              exact h2
            · simp only [List.mem_singleton] at hp
              subst hp
              refine ⟨by simp, ?_⟩
              rw [get?_append_length]
              rfl
          have hcodes2 : ∀ c ∈ chars ++ [fromCharCode la.length],
              c < (la ++ [jsSubstringFrom text lineStart]).length := by
            intro c hcm
            rcases List.mem_append.mp hcm with hcm | hcm
            · have := hcodes c hcm
              simp only [List.length_append, List.length_singleton]
              omega
            · simp only [List.mem_singleton] at hcm
              subst hcm
              unfold fromCharCode
              simp only [List.length_append, List.length_singleton]
              omega
          obtain ⟨⟨ext, hext⟩, hh2, hcd2, hlen2, hdec⟩ := ih _ _ _ _ _ _ _ h hhash2
            (by simp only [List.length_append, List.length_singleton]; omega)
            (fun _ => by omega) hcodes2
          refine ⟨⟨[jsSubstringFrom text lineStart] ++ ext, by rw [hext]; simp⟩,
            hh2, hcd2, hlen2, ?_⟩
          rw [hdec, charsToText_append,
            charsToText_extend la _ chars hcodes]
          rw [show charsToText (la ++ [jsSubstringFrom text lineStart])
              [fromCharCode la.length] = jsSubstringFrom text lineStart from by
            unfold charsToText fromCharCode
            rw [Nat.mod_eq_of_lt (by omega)]
            simp [getD_of_get? _ _ _ _
              (show (la ++ [jsSubstringFrom text lineStart]).get? la.length
                  = some (jsSubstringFrom text lineStart) from by
                rw [get?_append_length]; rfl)]]
          rw [List.append_assoc]
          congr 1
          rw [show text.drop (text.length + 1) = [] from
            List.drop_eq_nil_of_le (by omega)]
          rw [List.append_nil]
          rfl
        · rw [if_neg hfull] at h
          have hhash2 : hashOk (la ++ [mungeLine text lineStart])
              (lh ++ [(mungeLine text lineStart, la.length)]) := by
            intro p hp
            rcases List.mem_append.mp hp with hp | hp
            · obtain ⟨h1, h2⟩ := hhash p hp
              refine ⟨by simp only [List.length_append, List.length_singleton]; omega, ?_⟩
              rw [List.get?_append h1]
              exact h2
            · simp only [List.mem_singleton] at hp
              subst hp
              refine ⟨by simp, ?_⟩
              rw [get?_append_length]
              rfl
          have hcodes2 : ∀ c ∈ chars ++ [fromCharCode la.length],
              c < (la ++ [mungeLine text lineStart]).length := by
            intro c hcm
            rcases List.mem_append.mp hcm with hcm | hcm
            · have := hcodes c hcm
              simp only [List.length_append, List.length_singleton]
              omega
            · simp only [List.mem_singleton] at hcm
              subst hcm
              unfold fromCharCode
              simp only [List.length_append, List.length_singleton]
              omega
          obtain ⟨⟨ext, hext⟩, hh2, hcd2, hlen2, hdec⟩ := ih _ _ _ _ _ _ _ h hhash2
            (by simp only [List.length_append, List.length_singleton]; omega)
            (by intro h2
                simp only [List.length_append, List.length_singleton] at h2
                omega)
            hcodes2
          refine ⟨⟨[mungeLine text lineStart] ++ ext, by rw [hext]; simp⟩,
            hh2, hcd2, hlen2, ?_⟩
          rw [hdec, charsToText_append,
            charsToText_extend la _ chars hcodes]
          rw [show charsToText (la ++ [mungeLine text lineStart])
              [fromCharCode la.length] = mungeLine text lineStart from by
            unfold charsToText fromCharCode
            rw [Nat.mod_eq_of_lt (by omega)]
            simp [getD_of_get? _ _ _ _
              (show (la ++ [mungeLine text lineStart]).get? la.length
                  = some (mungeLine text lineStart) from by
                rw [get?_append_length]; rfl)]]
          rw [List.append_assoc, mungeLine_drop text lineStart hc]
      · rw [hlook] at h
        have hcodes2 : ∀ c ∈ chars ++ [fromCharCode code], c < la.length := by
          intro c hcm
          rcases List.mem_append.mp hcm with hcm | hcm
          · exact hcodes c hcm
          · simp only [List.mem_singleton] at hcm
            subst hcm
            have h1 := (hhash _ (hashLookup_mem _ _ _ hlook)).1
            have h2 : fromCharCode code ≤ code := Nat.mod_le _ _
            omega
        obtain ⟨⟨ext, hext⟩, hh2, hcd2, hlen2, hdec⟩ :=
          ih _ _ _ _ _ _ _ h hhash hlen (fun hb => by omega) hcodes2
        refine ⟨⟨ext, hext⟩, hh2, hcd2, hlen2, ?_⟩
        rw [hdec, charsToText_append]
        obtain ⟨hcl, hcg⟩ := hhash _ (hashLookup_mem _ _ _ hlook)
        rw [show charsToText la [fromCharCode code] = mungeLine text lineStart from by
          unfold charsToText fromCharCode
          rw [Nat.mod_eq_of_lt (by omega)]
          have hgd := getD_of_get? la code (mungeLine text lineStart) ([] : Str)
            (by simpa using hcg)
          show la.getD code [] ++ [] = mungeLine text lineStart
          rw [hgd, List.append_nil]]
        rw [List.append_assoc, mungeLine_drop text lineStart hc]
    · rw [if_neg hc] at h
      replace h : some (chars, la, lh) = some (c', la', lh') := h
      simp only [Option.some.injEq, Prod.mk.injEq] at h
      obtain ⟨h1, h2, h3⟩ := h
      subst h1
      subst h2
      subst h3
      refine ⟨⟨[], by simp⟩, hhash, hcodes, hlen, ?_⟩
      rw [show text.drop lineStart = [] from List.drop_eq_nil_of_le (by omega)]
      rw [List.append_nil]

/-- `diff_linesToChars_` encodes both texts so that decoding through the
final line array recovers them. -/
theorem linesToChars_spec (t1 t2 : Str) (c1 c2 : Str) (la : List Str)
    (h : diff_linesToChars_ t1 t2 = some (c1, c2, la)) :
    charsToText la c1 = t1 ∧ charsToText la c2 = t2 := by
  unfold diff_linesToChars_ at h
  rcases h1 : mungeLoop t1 40000 (t1.length + 2) 0 [] [[]] [] with _ | ⟨c1', la1, lh1⟩
  · rw [h1] at h
    simp at h
  rw [h1] at h
  replace h : (match mungeLoop t2 65535 (t2.length + 2) 0 [] la1 lh1 with
    | none => none
    | some (c2, la2, _) => some (c1', c2, la2)) = some (c1, c2, la) := h
  rcases h2 : mungeLoop t2 65535 (t2.length + 2) 0 [] la1 lh1 with _ | ⟨c2', la2, lh2⟩
  · rw [h2] at h
    simp at h
  rw [h2] at h
  replace h : some (c1', c2', la2) = some (c1, c2, la) := h
  simp only [Option.some.injEq, Prod.mk.injEq] at h
  obtain ⟨hc1, hc2, hla⟩ := h
  subst hc1
  subst hc2
  subst hla
  obtain ⟨⟨e1, he1⟩, hh1, hcd1, hlen1, hdec1⟩ :=
    mungeLoop_spec t1 40000 (by norm_num) _ _ _ _ _ _ _ _ h1
      (by intro p hp; simp at hp)
      (by simp)
      (by intro hb; simp at hb)
      (by intro c hcm; simp at hcm)
  obtain ⟨⟨e2, he2⟩, hh2, hcd2, hlen2, hdec2⟩ :=
    mungeLoop_spec t2 65535 (le_refl _) _ _ _ _ _ _ _ _ h2
      hh1
      (by omega)
      (by intro hb; omega)
      (by intro c hcm; simp at hcm)
  constructor
  · rw [he2, charsToText_extend la1 e2 _ hcd1]
    rw [hdec1]
    simp [charsToText]
  · rw [hdec2]
    simp [charsToText]

/-- Decoding a script through the line array decodes its two texts. -/
theorem charsToLines_text (la : List Str) :
    ∀ diffs : Script,
      diff_text1 (diff_charsToLines_ diffs la) = charsToText la (diff_text1 diffs) ∧
      diff_text2 (diff_charsToLines_ diffs la) = charsToText la (diff_text2 diffs) := by
  intro diffs
  induction diffs with
  | nil => simp [diff_charsToLines_, diff_text1, diff_text2, charsToText]
  | cons d rest ih =>
    obtain ⟨op, s⟩ := d
    unfold diff_charsToLines_ at ih ⊢
    constructor
    · cases op <;>
        simp [text1_cons_del, text1_cons_ins, text1_cons_eq,
          charsToText_append, ih.1]
    · cases op <;>
        simp [text2_cons_del, text2_cons_ins, text2_cons_eq,
          charsToText_append, ih.2]

/-! ## diff_cleanupSemantic -/

/-- The first loop of `diff_cleanupSemantic`: eliminate equalities that are
smaller than the edits on both sides.  State: the stack of equality indices,
`lastEquality`, the four change counters and the `changes` flag.  The
source's trailing `pointer++` is merged into each branch's next pointer; the
elimination branch matches on the stack being nonempty, which holds whenever
`lastEquality` is set. -/
def semLoop1 : Nat → Script → Nat → List Nat → Option Str →
    Nat → Nat → Nat → Nat → Bool → Option (Script × Bool)
  | 0, _, _, _, _, _, _, _, _, _ => none
  | fuel + 1, diffs, pointer, eqs, lastEq, li1, ld1, li2, ld2, changes =>
    match diffs.get? pointer with
    | none => some (diffs, changes)
    | some (op, s) =>
      if op = Op.eq then
        semLoop1 fuel diffs (pointer + 1) (pointer :: eqs) (some s) li2 ld2 0 0 changes
      else
        match lastEq, eqs with
        | some e, top :: rest =>
          if e ≠ [] ∧ e.length ≤ max li1 ld1 ∧
              e.length ≤ max (li2 + (if op = Op.ins then s.length else 0))
                (ld2 + (if op = Op.del then s.length else 0)) then
            semLoop1 fuel
              ((listSplice diffs top 0 [(Op.del, e)]).modify
                (fun x => (Op.ins, x.2)) (top + 1))
              (match rest.tail with
                | t :: _ => t + 1
                | [] => 0)
              rest.tail none 0 0 0 0 true
          else
            semLoop1 fuel diffs (pointer + 1) eqs lastEq li1 ld1
              (li2 + (if op = Op.ins then s.length else 0))
              (ld2 + (if op = Op.del then s.length else 0)) changes
        | _, _ =>
          semLoop1 fuel diffs (pointer + 1) eqs lastEq li1 ld1
            (li2 + (if op = Op.ins then s.length else 0))
            (ld2 + (if op = Op.del then s.length else 0)) changes

/-- The stack/`lastEquality` consistency invariant of the first semantic
cleanup loop. -/
def semInv (diffs : Script) (eqs : List Nat) (lastEq : Option Str) : Prop :=
  ∀ e, lastEq = some e → ∃ top rest, eqs = top :: rest ∧
    diffs.get? top = some (Op.eq, e)

theorem semLoop1_text :
    ∀ fuel diffs pointer eqs lastEq li1 ld1 li2 ld2 changes out ch,
      semLoop1 fuel diffs pointer eqs lastEq li1 ld1 li2 ld2 changes
        = some (out, ch) →
      semInv diffs eqs lastEq →
      diff_text1 out = diff_text1 diffs ∧ diff_text2 out = diff_text2 diffs := by
  intro fuel
  induction fuel with
  | zero => intro diffs pointer eqs lastEq li1 ld1 li2 ld2 changes out ch h
            simp [semLoop1] at h
  | succ fuel ih =>
    intro diffs pointer eqs lastEq li1 ld1 li2 ld2 changes out ch h hinv
    rw [semLoop1] at h
    split at h
    case _ hget =>
      replace h : some (diffs, changes) = some (out, ch) := h
      simp only [Option.some.injEq, Prod.mk.injEq] at h
      rw [← h.1]
      exact ⟨rfl, rfl⟩
    case _ op s hget =>
      by_cases hop : op = Op.eq
      · rw [if_pos hop] at h
        refine ih _ _ _ _ _ _ _ _ _ _ _ h ?_
        intro e he
        simp only [Option.some.injEq] at he
        subst he
        subst hop
        exact ⟨pointer, eqs, rfl, hget⟩
      · rw [if_neg hop] at h
        split at h
        case _ x1 x2 e top rest =>
          by_cases hcond : e ≠ [] ∧ e.length ≤ max li1 ld1 ∧
              e.length ≤ max (li2 + (if op = Op.ins then s.length else 0))
                (ld2 + (if op = Op.del then s.length else 0))
          · rw [if_pos hcond] at h
            obtain ⟨top0, rest0, heq0, htop⟩ := hinv e rfl
            rw [show top0 = top from by
              simp only [List.cons.injEq] at heq0
              exact heq0.1.symm] at htop
            obtain ⟨A, B, hAB, hA⟩ := get?_split _ _ _ htop
            subst hAB
            have hsurgery : ((listSplice (A ++ (Op.eq, e) :: B) top 0
                  [(Op.del, e)]).modify (fun x => (Op.ins, x.2)) (top + 1))
                = A ++ (Op.del, e) :: (Op.ins, e) :: B := by
              subst hA
              rw [show listSplice (A ++ (Op.eq, e) :: B) A.length 0 [(Op.del, e)]
                  = A ++ [(Op.del, e)] ++ ((Op.eq, e) :: B) from by
                rw [splice_append_length]
                simp]
              rw [show A ++ [(Op.del, e)] ++ ((Op.eq, e) :: B)
                  = (A ++ [(Op.del, e)]) ++ ((Op.eq, e) :: B) by simp,
                show A.length + 1 = (A ++ [(Op.del, e)]).length by simp,
                modify_append_length]
              simp
            rw [hsurgery] at h
            obtain ⟨hr1, hr2⟩ := ih _ _ _ _ _ _ _ _ _ _ _ h
              (by intro e2 he2; simp at he2)
            constructor
            · rw [hr1]
              rw [text1_append, text1_append, text1_cons_del, text1_cons_ins,
                text1_cons_eq]
            · rw [hr2]
              rw [text2_append, text2_append, text2_cons_del, text2_cons_ins,
                text2_cons_eq]
          · rw [if_neg hcond] at h
            exact ih _ _ _ _ _ _ _ _ _ _ _ h hinv
        case _ =>
          exact ih _ _ _ _ _ _ _ _ _ _ _ h hinv

/-- The overlap-extraction loop at the end of `diff_cleanupSemantic`
(`pointer` starts at 1; extraction advances it by 3, a DELETE/INSERT pair
without extraction by 2, anything else by 1). -/
def semOverlapLoop : Nat → Script → Nat → Option Script
  | 0, _, _ => none
  | fuel + 1, diffs, pointer =>
    if pointer < diffs.length then
      match diffs.get? (pointer - 1), diffs.get? pointer with
      | some (Op.del, deletion), some (Op.ins, insertion) =>
        match diff_commonOverlap_ deletion insertion,
            diff_commonOverlap_ insertion deletion with
        | some ov1, some ov2 =>
          if ov1 ≥ ov2 then
            if 2 * ov1 ≥ deletion.length ∨ 2 * ov1 ≥ insertion.length then
              semOverlapLoop fuel
                (((listSplice diffs pointer 0
                    [(Op.eq, insertion.take ov1)]).modify
                  (fun x => (x.1, deletion.take (deletion.length - ov1)))
                  (pointer - 1)).modify
                  (fun x => (x.1, insertion.drop ov1)) (pointer + 1))
                (pointer + 3)
            else semOverlapLoop fuel diffs (pointer + 2)
          else
            if 2 * ov2 ≥ deletion.length ∨ 2 * ov2 ≥ insertion.length then
              semOverlapLoop fuel
                (((listSplice diffs pointer 0
                    [(Op.eq, deletion.take ov2)]).modify
                  (fun _x => (Op.ins, insertion.take (insertion.length - ov2)))
                  (pointer - 1)).modify
                  (fun _x => (Op.del, deletion.drop ov2)) (pointer + 1))
                (pointer + 3)
            else semOverlapLoop fuel diffs (pointer + 2)
        | _, _ => none
      | _, _ => semOverlapLoop fuel diffs (pointer + 1)
    else some diffs

theorem get?_pair_split (l : List α) (p : Nat) (a b : α) (hp : 1 ≤ p)
    (h1 : l.get? (p - 1) = some a) (h2 : l.get? p = some b) :
    ∃ A B, l = A ++ a :: b :: B ∧ A.length = p - 1 := by
  obtain ⟨A, B1, hl, hA⟩ := get?_split _ _ _ h1
  subst hl
  have hB1 : B1.head? = some b := by
    rw [show A ++ a :: B1 = (A ++ [a]) ++ B1 by simp] at h2
    rw [show p = (A ++ [a]).length from by simp; omega] at h2
    rw [get?_append_length] at h2
    exact h2
  cases B1 with
  | nil => simp at hB1
  | cons b0 B =>
    obtain rfl : b0 = b := by simpa using hB1
    exact ⟨A, B, rfl, hA⟩

theorem splice_modify_modify (A B : List α) (d i x : α) (f1 f2 : α → α) :
    ((listSplice (A ++ d :: i :: B) (A.length + 1) 0 [x]).modify f1
        (A.length + 1 - 1)).modify f2 (A.length + 1 + 1)
      = A ++ f1 d :: x :: f2 i :: B := by
  rw [show A ++ d :: i :: B = (A ++ [d]) ++ i :: B by simp,
    show A.length + 1 = (A ++ [d]).length by simp,
    splice_append_length]
  rw [show (A ++ [d]) ++ [x] ++ (i :: B).drop 0 = A ++ d :: (x :: i :: B) by simp,
    show (A ++ [d]).length - 1 = A.length by simp,
    modify_append_length,
    show A ++ f1 d :: x :: i :: B = (A ++ [f1 d, x]) ++ i :: B by simp,
    show (A ++ [d]).length + 1 = (A ++ [f1 d, x]).length by simp,
    modify_append_length]
  simp

theorem semOverlapLoop_text :
    ∀ fuel diffs pointer out,
      1 ≤ pointer →
      semOverlapLoop fuel diffs pointer = some out →
      diff_text1 out = diff_text1 diffs ∧ diff_text2 out = diff_text2 diffs := by
  intro fuel
  induction fuel with
  | zero => intro diffs pointer out hp h; simp [semOverlapLoop] at h
  | succ fuel ih =>
    intro diffs pointer out hp h
    rw [semOverlapLoop] at h
    by_cases hc : pointer < diffs.length
    · rw [if_pos hc] at h
      split at h
      case _ deletion insertion hg1 hg2 =>
        split at h
        case _ ov1 ov2 ho1 ho2 =>
          obtain ⟨hov1a, hov1b, hov1⟩ := commonOverlap_spec _ _ _ ho1
          obtain ⟨hov2a, hov2b, hov2⟩ := commonOverlap_spec _ _ _ ho2
          obtain ⟨A, B, hAB, hA⟩ := get?_pair_split diffs pointer _ _ hp hg1 hg2
          subst hAB
          have hptr : pointer = A.length + 1 := by omega
          subst hptr
          by_cases hge : ov1 ≥ ov2
          · rw [if_pos hge] at h
            by_cases hbig : 2 * ov1 ≥ deletion.length ∨ 2 * ov1 ≥ insertion.length
            · rw [if_pos hbig] at h
              rw [splice_modify_modify] at h
              replace h : semOverlapLoop fuel
                  (A ++ (Op.del, deletion.take (deletion.length - ov1)) ::
                    (Op.eq, insertion.take ov1) ::
                    (Op.ins, insertion.drop ov1) :: B)
                  (A.length + 1 + 3) = some out := h
              obtain ⟨hr1, hr2⟩ := ih _ _ _ (by omega) h
              constructor
              · rw [hr1, text1_append, text1_append, text1_cons_del,
                  text1_cons_del, text1_cons_eq, text1_cons_ins, text1_cons_ins]
                rw [← hov1]
                congr 1
                rw [← List.append_assoc, take_append_lastUnits]
              · rw [hr2, text2_append, text2_append, text2_cons_del,
                  text2_cons_del, text2_cons_eq, text2_cons_ins, text2_cons_ins]
                congr 1
                rw [← List.append_assoc, List.take_append_drop]
            · rw [if_neg hbig] at h
              exact ih _ _ _ (by omega) h
          · rw [if_neg hge] at h
            by_cases hbig : 2 * ov2 ≥ deletion.length ∨ 2 * ov2 ≥ insertion.length
            · rw [if_pos hbig] at h
              rw [splice_modify_modify] at h
              obtain ⟨hr1, hr2⟩ := ih _ _ _ (by omega) h
              constructor
              · rw [hr1, text1_append, text1_append, text1_cons_del,
                  text1_cons_ins, text1_cons_eq, text1_cons_del, text1_cons_ins]
                congr 1
                rw [← List.append_assoc, List.take_append_drop]
              · rw [hr2, text2_append, text2_append, text2_cons_del,
                  text2_cons_ins, text2_cons_eq, text2_cons_del, text2_cons_ins]
                rw [← hov2]
                congr 1
                rw [← List.append_assoc, take_append_lastUnits]
            · rw [if_neg hbig] at h
              exact ih _ _ _ (by omega) h
        case _ =>
          simp at h
      case _ =>
        exact ih _ _ _ (by omega) h
    · rw [if_neg hc] at h
      replace h : some diffs = some out := h
      simp only [Option.some.injEq] at h
      subst h
      exact ⟨rfl, rfl⟩

/-! ## diff_cleanupSemanticLossless -/

/-- `/[^a-zA-Z0-9]/` does not match: the code unit is alphanumeric. -/
def isAlphaNum (c : Nat) : Bool :=
  decide ((48 ≤ c ∧ c ≤ 57) ∨ (65 ≤ c ∧ c ≤ 90) ∨ (97 ≤ c ∧ c ≤ 122))

/-- The JS `\s` class: WhiteSpace and LineTerminator code units. -/
def isWhitespace (c : Nat) : Bool :=
  decide (c = 9 ∨ c = 10 ∨ c = 11 ∨ c = 12 ∨ c = 13 ∨ c = 32 ∨ c = 160 ∨
    c = 5760 ∨ (8192 ≤ c ∧ c ≤ 8202) ∨ c = 8232 ∨ c = 8233 ∨ c = 8239 ∨
    c = 8287 ∨ c = 12288 ∨ c = 65279)

/-- `/[\r\n]/`. -/
def isLinebreak (c : Nat) : Bool :=
  decide (c = 13 ∨ c = 10)

/-- `/\n\r?\n$/`. -/
def blanklineEnd (s : Str) : Bool :=
  decide (lastUnits s 2 = [10, 10] ∨ lastUnits s 3 = [10, 13, 10])

/-- `/^\r?\n\r?\n/`. -/
def blanklineStart (s : Str) : Bool :=
  decide (s.take 2 = [10, 10] ∨ s.take 3 = [10, 13, 10] ∨
    s.take 3 = [13, 10, 10] ∨ s.take 4 = [13, 10, 13, 10])

/-- `diff_cleanupSemanticScore_`: 6 for an edge, then 5/4/3/2/1/0 for blank
lines, line breaks, end of sentence, whitespace, non-alphanumeric, none. -/
def diff_cleanupSemanticScore_ (one two : Str) : Nat :=
  if one = [] ∨ two = [] then 6
  else
    let char1 := (jsCharAt one (one.length - 1)).getD 0
    let char2 := (jsCharAt two 0).getD 0
    let nonAlphaNumeric1 := ! isAlphaNum char1
    let nonAlphaNumeric2 := ! isAlphaNum char2
    let whitespace1 := nonAlphaNumeric1 && isWhitespace char1
    let whitespace2 := nonAlphaNumeric2 && isWhitespace char2
    let lineBreak1 := whitespace1 && isLinebreak char1
    let lineBreak2 := whitespace2 && isLinebreak char2
    let blankLine1 := lineBreak1 && blanklineEnd one
    let blankLine2 := lineBreak2 && blanklineStart two
    if blankLine1 || blankLine2 then 5
    else if lineBreak1 || lineBreak2 then 4
    else if nonAlphaNumeric1 && !whitespace1 && whitespace2 then 3
    else if whitespace1 || whitespace2 then 2
    else if nonAlphaNumeric1 || nonAlphaNumeric2 then 1
    else 0

/-- The character-stepping loop of `diff_cleanupSemanticLossless`: slide the
edit right while its first unit equals `equality2`'s first unit, tracking the
best-scoring split.  (`charAt` on an empty string gives the empty string in
JS, so the loop guard compares optional units; with both empty the source
would loop forever, which the fuel models as `none`.) -/
def losslessWalk : Nat → Str → Str → Str → Str → Str → Str → Nat →
    Option (Str × Str × Str)
  | 0, _, _, _, _, _, _, _ => none
  | fuel + 1, e1, ed, e2, b1, bd, b2, bscore =>
    if jsCharAt ed 0 = jsCharAt e2 0 then
      if diff_cleanupSemanticScore_ (e1 ++ ed.take 1) (ed.drop 1 ++ e2.take 1)
          + diff_cleanupSemanticScore_ (ed.drop 1 ++ e2.take 1) (e2.drop 1)
          ≥ bscore then
        losslessWalk fuel (e1 ++ ed.take 1) (ed.drop 1 ++ e2.take 1) (e2.drop 1)
          (e1 ++ ed.take 1) (ed.drop 1 ++ e2.take 1) (e2.drop 1)
          (diff_cleanupSemanticScore_ (e1 ++ ed.take 1) (ed.drop 1 ++ e2.take 1)
            + diff_cleanupSemanticScore_ (ed.drop 1 ++ e2.take 1) (e2.drop 1))
      else
        losslessWalk fuel (e1 ++ ed.take 1) (ed.drop 1 ++ e2.take 1) (e2.drop 1)
          b1 bd b2 bscore
    else some (b1, bd, b2)

/-- The left-shift over the common suffix of `equality1` and `edit` that
precedes the walk. -/
def losslessShift (eq1 ed0 eq2 : Str) : Str × Str × Str :=
  if diff_commonSuffix eq1 ed0 ≠ 0 then
    (eq1.take (eq1.length - diff_commonSuffix eq1 ed0),
      lastUnits ed0 (diff_commonSuffix eq1 ed0)
        ++ ed0.take (ed0.length - diff_commonSuffix eq1 ed0),
      lastUnits ed0 (diff_commonSuffix eq1 ed0) ++ eq2)
  else (eq1, ed0, eq2)

/-- The write-back of the best triple: replace the three records, splicing
out an emptied `bestEquality1`/`bestEquality2`; returns the new array and
the value of the source's `pointer` just before the loop's `pointer++`
(the four paths of the source are expanded). -/
def losslessWriteBack (diffs : Script) (pointer : Nat) (b1 bd b2 : Str) :
    Script × Nat :=
  if b1 ≠ [] then
    if b2 ≠ [] then
      ((((diffs.modify (fun x => (x.1, b1)) (pointer - 1)).modify
          (fun x => (x.1, bd)) pointer).modify
          (fun x => (x.1, b2)) (pointer + 1)), pointer + 1)
    else
      ((((diffs.modify (fun x => (x.1, b1)) (pointer - 1)).modify
          (fun x => (x.1, bd)) pointer).eraseIdx (pointer + 1)), pointer)
  else
    if b2 ≠ [] then
      ((((diffs.eraseIdx (pointer - 1)).modify
          (fun x => (x.1, bd)) (pointer - 1)).modify
          (fun x => (x.1, b2)) (pointer - 1 + 1)), pointer - 1 + 1)
    else
      ((((diffs.eraseIdx (pointer - 1)).modify
          (fun x => (x.1, bd)) (pointer - 1)).eraseIdx (pointer - 1 + 1)),
        pointer - 1)

/-- The outer loop of `diff_cleanupSemanticLossless`.  When the source would
read `diffs[-1][0]` (pointer 0 inside the loop), it throws, modelled as
`none`. -/
def losslessLoop : Nat → Script → Nat → Option Script
  | 0, _, _ => none
  | fuel + 1, diffs, pointer =>
    if pointer < diffs.length - 1 then
      if pointer = 0 then none
      else
        match diffs.get? (pointer - 1), diffs.get? pointer,
            diffs.get? (pointer + 1) with
        | some (Op.eq, eq1), some (_edOp, ed0), some (Op.eq, eq2) =>
          match losslessWalk ((losslessShift eq1 ed0 eq2).2.2.length + 2)
              (losslessShift eq1 ed0 eq2).1
              (losslessShift eq1 ed0 eq2).2.1
              (losslessShift eq1 ed0 eq2).2.2
              (losslessShift eq1 ed0 eq2).1
              (losslessShift eq1 ed0 eq2).2.1
              (losslessShift eq1 ed0 eq2).2.2
              (diff_cleanupSemanticScore_ (losslessShift eq1 ed0 eq2).1
                  (losslessShift eq1 ed0 eq2).2.1
                + diff_cleanupSemanticScore_ (losslessShift eq1 ed0 eq2).2.1
                  (losslessShift eq1 ed0 eq2).2.2) with
          | none => none
          | some (b1, bd, b2) =>
            if eq1 ≠ b1 then
              losslessLoop fuel (losslessWriteBack diffs pointer b1 bd b2).1
                ((losslessWriteBack diffs pointer b1 bd b2).2 + 1)
            else losslessLoop fuel diffs (pointer + 1)
        | _, _, _ => losslessLoop fuel diffs (pointer + 1)
    else some diffs

theorem jsCharAt_zero (s : Str) : jsCharAt s 0 = s.head? := by
  cases s <;> rfl

theorem head?_take_one (s t : Str) (h : s.head? = t.head?) :
    s.take 1 = t.take 1 := by
  cases s <;> cases t <;> simp_all

theorem take_one_drop_append (s X : Str) :
    s.take 1 ++ (s.drop 1 ++ X) = s ++ X := by
  rw [← List.append_assoc, List.take_append_drop]

/-- Both invariant concatenations of the lossless walk: the full
`equality1 ++ edit ++ equality2` and the outer `equality1 ++ equality2` are
preserved by the stepping, for the current and the best triple alike. -/
theorem losslessWalk_inv (T U : Str) :
    ∀ fuel e1 ed e2 b1 bd b2 bscore r1 rd r2,
      losslessWalk fuel e1 ed e2 b1 bd b2 bscore = some (r1, rd, r2) →
      e1 ++ (ed ++ e2) = T → e1 ++ e2 = U →
      b1 ++ (bd ++ b2) = T → b1 ++ b2 = U →
      r1 ++ (rd ++ r2) = T ∧ r1 ++ r2 = U := by
  intro fuel
  induction fuel with
  | zero =>
    intro e1 ed e2 b1 bd b2 bscore r1 rd r2 h
    simp [losslessWalk] at h
  | succ fuel ih =>
    intro e1 ed e2 b1 bd b2 bscore r1 rd r2 h hc1 hc2 hb1 hb2
    rw [losslessWalk] at h
    by_cases hcond : jsCharAt ed 0 = jsCharAt e2 0
    · rw [if_pos hcond] at h
      have htk : ed.take 1 = e2.take 1 := by
        rw [jsCharAt_zero, jsCharAt_zero] at hcond
        exact head?_take_one _ _ hcond
      have hc1' : (e1 ++ ed.take 1) ++ ((ed.drop 1 ++ e2.take 1) ++ e2.drop 1)
          = T := by
        calc (e1 ++ ed.take 1) ++ ((ed.drop 1 ++ e2.take 1) ++ e2.drop 1)
            = e1 ++ (ed.take 1 ++ (ed.drop 1 ++ (e2.take 1 ++ e2.drop 1))) := by
              simp [List.append_assoc]
          _ = e1 ++ (ed.take 1 ++ (ed.drop 1 ++ e2)) := by
              rw [List.take_append_drop]
          _ = e1 ++ (ed ++ e2) := by rw [take_one_drop_append]
          _ = T := hc1
      have hc2' : (e1 ++ ed.take 1) ++ e2.drop 1 = U := by
        rw [htk]
        calc (e1 ++ e2.take 1) ++ e2.drop 1
            = e1 ++ (e2.take 1 ++ e2.drop 1) := by simp [List.append_assoc]
          _ = e1 ++ e2 := by rw [List.take_append_drop]
          _ = U := hc2
      by_cases hsc : diff_cleanupSemanticScore_ (e1 ++ ed.take 1)
            (ed.drop 1 ++ e2.take 1)
          + diff_cleanupSemanticScore_ (ed.drop 1 ++ e2.take 1) (e2.drop 1)
          ≥ bscore
      · rw [if_pos hsc] at h
        exact ih _ _ _ _ _ _ _ _ _ _ h hc1' hc2' hc1' hc2'
      · rw [if_neg hsc] at h
        exact ih _ _ _ _ _ _ _ _ _ _ h hc1' hc2' hb1 hb2
    · rw [if_neg hcond] at h
      replace h : some (b1, bd, b2) = some (r1, rd, r2) := h
      simp only [Option.some.injEq, Prod.mk.injEq] at h
      obtain ⟨h1, h2, h3⟩ := h
      subst h1
      subst h2
      subst h3
      exact ⟨hb1, hb2⟩

/-- The initial left-shift preserves both invariant concatenations. -/
theorem losslessShift_inv (eq1 ed0 eq2 : Str) :
    (losslessShift eq1 ed0 eq2).1 ++ ((losslessShift eq1 ed0 eq2).2.1
        ++ (losslessShift eq1 ed0 eq2).2.2) = eq1 ++ (ed0 ++ eq2) ∧
    (losslessShift eq1 ed0 eq2).1 ++ (losslessShift eq1 ed0 eq2).2.2
      = eq1 ++ eq2 := by
  unfold losslessShift
  by_cases hk : diff_commonSuffix eq1 ed0 ≠ 0
  · rw [if_pos hk]
    have hlu : lastUnits eq1 (diff_commonSuffix eq1 ed0)
        = lastUnits ed0 (diff_commonSuffix eq1 ed0) :=
      commonSuffix_lastUnits_eq eq1 ed0
    obtain ⟨k, hk2⟩ : ∃ k, diff_commonSuffix eq1 ed0 = k := ⟨_, rfl⟩
    rw [hk2] at hlu ⊢
    constructor
    · show eq1.take (eq1.length - k) ++ ((lastUnits ed0 k
          ++ ed0.take (ed0.length - k)) ++ (lastUnits ed0 k ++ eq2))
        = eq1 ++ (ed0 ++ eq2)
      conv_rhs => rw [← take_append_lastUnits eq1 k]
      conv_rhs => rw [← take_append_lastUnits ed0 k]
      rw [hlu]
      simp [List.append_assoc]
    · show eq1.take (eq1.length - k) ++ (lastUnits ed0 k ++ eq2)
        = eq1 ++ eq2
      conv_rhs => rw [← take_append_lastUnits eq1 k]
      rw [hlu]
      simp [List.append_assoc]
  · rw [if_neg hk]
    exact ⟨rfl, rfl⟩

theorem get?_triple_split (l : List α) (p : Nat) (a b c : α) (hp : 1 ≤ p)
    (h1 : l.get? (p - 1) = some a) (h2 : l.get? p = some b)
    (h3 : l.get? (p + 1) = some c) :
    ∃ A B, l = A ++ a :: b :: c :: B ∧ A.length = p - 1 := by
  obtain ⟨A, B1, hl, hA⟩ := get?_pair_split l p a b hp h1 h2
  subst hl
  have hB1 : B1.head? = some c := by
    rw [show A ++ a :: b :: B1 = (A ++ [a, b]) ++ B1 by simp,
      show p + 1 = (A ++ [a, b]).length from by simp; omega,
      get?_append_length] at h3
    exact h3
  cases B1 with
  | nil => simp at hB1
  | cons c0 B =>
    obtain rfl : c0 = c := by simpa using hB1
    exact ⟨A, B, rfl, hA⟩

theorem losslessWriteBack_fst (A B : List Diff) (q1 d q2 : Diff)
    (b1 bd b2 : Str) :
    (losslessWriteBack (A ++ q1 :: d :: q2 :: B) (A.length + 1) b1 bd b2).1
      = A ++ ((if b1 = [] then [] else [(q1.1, b1)]) ++ ((d.1, bd) ::
          (if b2 = [] then [] else [(q2.1, b2)]))) ++ B := by
  unfold losslessWriteBack
  have e0 : A.length + 1 - 1 = A.length := by omega
  by_cases h1 : b1 = []
  · rw [if_neg (by simpa using h1), if_pos h1]
    rw [e0, eraseIdx_append_length, modify_append_length]
    by_cases h2 : b2 = []
    · rw [if_neg (by simpa using h2), if_pos h2]
      simp only
      rw [show A ++ (d.1, bd) :: q2 :: B = (A ++ [(d.1, bd)]) ++ q2 :: B by simp,
        show A.length + 1 = (A ++ [(d.1, bd)]).length by simp,
        eraseIdx_append_length]
      simp
    · rw [if_pos (show b2 ≠ [] from h2), if_neg h2]
      simp only
      rw [show A ++ (d.1, bd) :: q2 :: B = (A ++ [(d.1, bd)]) ++ q2 :: B by simp,
        show A.length + 1 = (A ++ [(d.1, bd)]).length by simp,
        modify_append_length]
      simp
  · rw [if_pos (show b1 ≠ [] from h1), if_neg h1]
    rw [e0, modify_append_length]
    by_cases h2 : b2 = []
    · rw [if_neg (by simpa using h2), if_pos h2]
      simp only
      rw [show A ++ ((fun x => (x.1, b1)) q1) :: d :: q2 :: B
          = (A ++ [(q1.1, b1)]) ++ d :: q2 :: B by simp,
        show A.length + 1 = (A ++ [(q1.1, b1)]).length by simp,
        modify_append_length,
        show (A ++ [(q1.1, b1)]) ++ ((fun x => (x.1, bd)) d) :: q2 :: B
          = (A ++ [(q1.1, b1), (d.1, bd)]) ++ q2 :: B by simp,
        show (A ++ [(q1.1, b1)]).length + 1
          = (A ++ [(q1.1, b1), (d.1, bd)]).length by simp,
        eraseIdx_append_length]
      simp
    · rw [if_pos (show b2 ≠ [] from h2), if_neg h2]
      simp only
      rw [show A ++ ((fun x => (x.1, b1)) q1) :: d :: q2 :: B
          = (A ++ [(q1.1, b1)]) ++ d :: q2 :: B by simp,
        show A.length + 1 = (A ++ [(q1.1, b1)]).length by simp,
        modify_append_length,
        show (A ++ [(q1.1, b1)]) ++ ((fun x => (x.1, bd)) d) :: q2 :: B
          = (A ++ [(q1.1, b1), (d.1, bd)]) ++ q2 :: B by simp,
        show (A ++ [(q1.1, b1)]).length + 1
          = (A ++ [(q1.1, b1), (d.1, bd)]).length by simp,
        modify_append_length]
      simp

/-- The lossless semantic cleanup preserves both texts. -/
theorem losslessLoop_text :
    ∀ fuel diffs pointer out,
      losslessLoop fuel diffs pointer = some out →
      diff_text1 out = diff_text1 diffs ∧ diff_text2 out = diff_text2 diffs := by
  intro fuel
  induction fuel with
  | zero => intro diffs pointer out h; simp [losslessLoop] at h
  | succ fuel ih =>
    intro diffs pointer out h
    rw [losslessLoop] at h
    by_cases hc : pointer < diffs.length - 1
    · rw [if_pos hc] at h
      by_cases hp0 : pointer = 0
      · rw [if_pos hp0] at h
        simp at h
      rw [if_neg hp0] at h
      split at h
      case _ eq1 edOp ed0 eq2 hg1 hg2 hg3 =>
        split at h
        case _ hwalk => simp at h
        case _ b1 bd b2 hwalk =>
          obtain ⟨hshift1, hshift2⟩ := losslessShift_inv eq1 ed0 eq2
          obtain ⟨hw1, hw2⟩ := losslessWalk_inv (eq1 ++ (ed0 ++ eq2))
            (eq1 ++ eq2) _ _ _ _ _ _ _ _ _ _ _ hwalk
            hshift1 hshift2 hshift1 hshift2
          by_cases hne : eq1 ≠ b1
          · rw [if_pos hne] at h
            obtain ⟨A, B, hAB, hA⟩ := get?_triple_split diffs pointer _ _ _
              (by omega) hg1 hg2 hg3
            subst hAB
            have hptr : pointer = A.length + 1 := by omega
            subst hptr
            rw [losslessWriteBack_fst] at h
            obtain ⟨hr1, hr2⟩ := ih _ _ _ h
            have key1 : ∀ X : Str,
                b1 ++ ((if edOp = Op.ins then [] else bd) ++ (b2 ++ X))
                  = eq1 ++ ((if edOp = Op.ins then [] else ed0) ++ (eq2 ++ X)) := by
              intro X
              by_cases hop : edOp = Op.ins
              · rw [if_pos hop, if_pos hop]
                simp only [List.nil_append]
                rw [show b1 ++ (b2 ++ X) = (b1 ++ b2) ++ X by
                    simp [List.append_assoc],
                  hw2,
                  show (eq1 ++ eq2) ++ X = eq1 ++ (eq2 ++ X) by
                    simp [List.append_assoc]]
              · rw [if_neg hop, if_neg hop]
                rw [show b1 ++ (bd ++ (b2 ++ X)) = (b1 ++ (bd ++ b2)) ++ X by
                    simp [List.append_assoc],
                  hw1,
                  show (eq1 ++ (ed0 ++ eq2)) ++ X = eq1 ++ (ed0 ++ (eq2 ++ X)) by
                    simp [List.append_assoc]]
            have key2 : ∀ X : Str,
                b1 ++ ((if edOp = Op.del then [] else bd) ++ (b2 ++ X))
                  = eq1 ++ ((if edOp = Op.del then [] else ed0) ++ (eq2 ++ X)) := by
              intro X
              by_cases hop : edOp = Op.del
              · rw [if_pos hop, if_pos hop]
                simp only [List.nil_append]
                rw [show b1 ++ (b2 ++ X) = (b1 ++ b2) ++ X by
                    simp [List.append_assoc],
                  hw2,
                  show (eq1 ++ eq2) ++ X = eq1 ++ (eq2 ++ X) by
                    simp [List.append_assoc]]
              · rw [if_neg hop, if_neg hop]
                rw [show b1 ++ (bd ++ (b2 ++ X)) = (b1 ++ (bd ++ b2)) ++ X by
                    simp [List.append_assoc],
                  hw1,
                  show (eq1 ++ (ed0 ++ eq2)) ++ X = eq1 ++ (ed0 ++ (eq2 ++ X)) by
                    simp [List.append_assoc]]
            have hmid1 : diff_text1 ((if b1 = [] then []
                  else [((Op.eq, eq1).1, b1)]) ++ (((edOp, ed0).1, bd) ::
                  (if b2 = [] then [] else [((Op.eq, eq2).1, b2)])))
                = b1 ++ ((if edOp = Op.ins then [] else bd) ++ b2) := by
              by_cases hb1 : b1 = [] <;> by_cases hb2 : b2 = [] <;>
                simp [hb1, hb2, text1_append, text1_cons_eq, diff_text1]
            have hmid2 : diff_text2 ((if b1 = [] then []
                  else [((Op.eq, eq1).1, b1)]) ++ (((edOp, ed0).1, bd) ::
                  (if b2 = [] then [] else [((Op.eq, eq2).1, b2)])))
                = b1 ++ ((if edOp = Op.del then [] else bd) ++ b2) := by
              by_cases hb1 : b1 = [] <;> by_cases hb2 : b2 = [] <;>
                simp [hb1, hb2, text2_append, text2_cons_eq, diff_text2]
            constructor
            · rw [hr1, text1_append, text1_append, hmid1, text1_append,
                text1_cons_eq]
              rw [show diff_text1 ((edOp, ed0) :: (Op.eq, eq2) :: B)
                  = (if edOp = Op.ins then [] else ed0) ++ (eq2 ++ diff_text1 B)
                  from by simp [diff_text1, text1_cons_eq]]
              simp only [List.append_assoc]
              rw [key1]
            · rw [hr2, text2_append, text2_append, hmid2, text2_append,
                text2_cons_eq]
              rw [show diff_text2 ((edOp, ed0) :: (Op.eq, eq2) :: B)
                  = (if edOp = Op.del then [] else ed0) ++ (eq2 ++ diff_text2 B)
                  from by simp [diff_text2, text2_cons_eq]]
              simp only [List.append_assoc]
              rw [key2]
          · rw [if_neg hne] at h
            exact ih _ _ _ h
      case _ =>
        exact ih _ _ _ h
    · rw [if_neg hc] at h
      replace h : some diffs = some out := h
      simp only [Option.some.injEq] at h
      subst h
      exact ⟨rfl, rfl⟩

/-- `diff_cleanupSemanticLossless` (pointer starts at 1). -/
def diff_cleanupSemanticLossless (diffs : Script) : Option Script :=
  losslessLoop ((diffs.length + 2) * (diffs.length + 2)) diffs 1

/-- `diff_cleanupSemantic`: the elimination loop, a merge pass if anything
changed, the lossless pass, then overlap extraction. -/
def diff_cleanupSemantic (diffs : Script) : Option Script :=
  match semLoop1 ((diffs.length + 2) * (diffs.length + 2)) diffs 0 [] none
      0 0 0 0 false with
  | none => none
  | some (d1, changes) =>
    match (if changes then diff_cleanupMerge (d1.length + 2) d1 else some d1) with
    | none => none
    | some d2 =>
      match diff_cleanupSemanticLossless d2 with
      | none => none
      | some d3 => semOverlapLoop (d3.length + 2) d3 1

/-- The whole semantic cleanup preserves both texts. -/
theorem diff_cleanupSemantic_text (diffs out : Script)
    (h : diff_cleanupSemantic diffs = some out) :
    diff_text1 out = diff_text1 diffs ∧ diff_text2 out = diff_text2 diffs := by
  unfold diff_cleanupSemantic at h
  rcases h1 : semLoop1 ((diffs.length + 2) * (diffs.length + 2)) diffs 0 [] none
      0 0 0 0 false with _ | ⟨d1, changes⟩
  · rw [h1] at h
    simp at h
  rw [h1] at h
  replace h : (match (if changes then diff_cleanupMerge (d1.length + 2) d1
      else some d1) with
    | none => none
    | some d2 =>
      match diff_cleanupSemanticLossless d2 with
      | none => none
      | some d3 => semOverlapLoop (d3.length + 2) d3 1) = some out := h
  obtain ⟨hp1a, hp1b⟩ := semLoop1_text _ _ _ _ _ _ _ _ _ _ _ _ h1
    (by intro e he; simp at he)
  rcases h2 : (if changes then diff_cleanupMerge (d1.length + 2) d1
      else some d1) with _ | d2
  · rw [h2] at h
    simp at h
  rw [h2] at h
  have hp2 : diff_text1 d2 = diff_text1 d1 ∧ diff_text2 d2 = diff_text2 d1 := by
    by_cases hch : changes
    · rw [if_pos hch] at h2
      exact diff_cleanupMerge_text _ _ _ h2
    · rw [if_neg hch] at h2
      simp only [Option.some.injEq] at h2
      subst h2
      exact ⟨rfl, rfl⟩
  replace h : (match diff_cleanupSemanticLossless d2 with
    | none => none
    | some d3 => semOverlapLoop (d3.length + 2) d3 1) = some out := h
  rcases h3 : diff_cleanupSemanticLossless d2 with _ | d3
  · rw [h3] at h
    simp at h
  rw [h3] at h
  obtain ⟨hp3a, hp3b⟩ := losslessLoop_text _ _ _ _ h3
  obtain ⟨hp4a, hp4b⟩ := semOverlapLoop_text _ _ _ _ (le_refl _) h
  exact ⟨by rw [hp4a, hp3a, hp2.1, hp1a],
    by rw [hp4b, hp3b, hp2.2, hp1b]⟩

/-! ## diff_halfMatch_ -/

/-- The `j`-loop of `diff_halfMatchI_`: scan occurrences of the seed in
`shorttext`, keeping the best common region.  The tuple is
`(longtext_a, longtext_b, shorttext_a, shorttext_b, common)`. -/
def halfMatchILoop (long short seed : Str) (i : Nat) :
    Nat → Option Nat → (Str × Str × Str × Str × Str) →
    Option (Str × Str × Str × Str × Str)
  | 0, _, _ => none
  | _, none, best => some best
  | fuel + 1, some j0, best =>
      halfMatchILoop long short seed i fuel (jsIndexOf short seed (j0 + 1))
        (if best.2.2.2.2.length
            < diff_commonSuffix (long.take i) (short.take j0)
              + diff_commonPrefix (long.drop i) (short.drop j0) then
          (long.take (i - diff_commonSuffix (long.take i) (short.take j0)),
           long.drop (i + diff_commonPrefix (long.drop i) (short.drop j0)),
           short.take (j0 - diff_commonSuffix (long.take i) (short.take j0)),
           short.drop (j0 + diff_commonPrefix (long.drop i) (short.drop j0)),
           jsSubstring short
               (j0 - diff_commonSuffix (long.take i) (short.take j0)) j0
             ++ jsSubstring short j0
               (j0 + diff_commonPrefix (long.drop i) (short.drop j0)))
        else best)

/-- `diff_halfMatchI_`; the outer `none` is fuel exhaustion, the inner
`none` is the source's `null`. -/
def diff_halfMatchI_ (long short : Str) (i : Nat) :
    Option (Option (Str × Str × Str × Str × Str)) :=
  match halfMatchILoop long short (jsSubstring long i (i + long.length / 4)) i
      (short.length + 2)
      (jsIndexOf short (jsSubstring long i (i + long.length / 4)) 0)
      ([], [], [], [], []) with
  | none => none
  | some best =>
    if 2 * best.2.2.2.2.length ≥ long.length then some (some best)
    else some none

/-- The guarded core of `diff_halfMatch_` on `(longtext, shorttext)`. -/
def hmCore (long short : Str) : Option (Option (Str × Str × Str × Str × Str)) :=
  if long.length < 4 ∨ 2 * short.length < long.length then some none
  else
    match diff_halfMatchI_ long short ((long.length + 3) / 4),
        diff_halfMatchI_ long short ((long.length + 1) / 2) with
    | none, _ => none
    | some _, none => none
    | some none, some none => some none
    | some (some h1), some none => some (some h1)
    | some none, some (some h2) => some (some h2)
    | some (some h1), some (some h2) =>
      some (some (if h1.2.2.2.2.length > h2.2.2.2.2.length then h1 else h2))

/-- Swap the long/short halves when `text2` was the longer input. -/
def hmSwap (x : Str × Str × Str × Str × Str) : Str × Str × Str × Str × Str :=
  (x.2.2.1, x.2.2.2.1, x.1, x.2.1, x.2.2.2.2)

/-- `diff_halfMatch_` (Math.ceil on `len/4` and `len/2` written with `+3`
and `+1`). -/
def diff_halfMatch_ (cfg : DMPConfig) (t1 t2 : Str) :
    Option (Option (Str × Str × Str × Str × Str)) :=
  if cfg.Diff_Timeout ≤ 0 then some none
  else if t1.length > t2.length then hmCore t1 t2
  else
    match hmCore t2 t1 with
    | none => none
    | some none => some none
    | some (some hm) => some (some (hmSwap hm))

/-- A candidate tuple reconstructs both inputs. -/
def hmValid (long short : Str) (x : Str × Str × Str × Str × Str) : Prop :=
  x.1 ++ (x.2.2.2.2 ++ x.2.1) = long ∧
    x.2.2.1 ++ (x.2.2.2.2 ++ x.2.2.2.1) = short

theorem slice3_eq (s : Str) (a b c : Nat) (hab : a ≤ b) (hbc : b ≤ c) :
    s.take a ++ ((s.take b).drop a ++ ((s.take c).drop b ++ s.drop c))
      = s := by
  rw [take_drop_append_drop s b c hbc, take_drop_append_drop s a b hab,
    List.take_append_drop]

theorem halfMatchILoop_valid (long short seed : Str) (i : Nat)
    (hi : i ≤ long.length) :
    ∀ fuel j best r,
      halfMatchILoop long short seed i fuel j best = some r →
      (∀ j0, j = some j0 → j0 + seed.length ≤ short.length) →
      (best.2.2.2.2 = [] ∨ hmValid long short best) →
      r.2.2.2.2 = [] ∨ hmValid long short r := by
  intro fuel
  induction fuel with
  | zero => intro j best r h; simp [halfMatchILoop] at h
  | succ fuel ih =>
    intro j best r h hj hbest
    rcases j with _ | j0
    · rw [halfMatchILoop] at h
      · simp only [Option.some.injEq] at h
        subst h
        exact hbest
      · omega
    · rw [halfMatchILoop] at h
      refine ih _ _ _ h ?_ ?_
      · intro j1 hj1
        exact matchAt_le _ _ _ (jsIndexOf_spec _ _ _ _ hj1).2
      · by_cases hcond : best.2.2.2.2.length
            < diff_commonSuffix (long.take i) (short.take j0)
              + diff_commonPrefix (long.drop i) (short.drop j0)
        · rw [if_pos hcond]
          right
          have hj0 : j0 ≤ short.length := by
            have := hj j0 rfl
            omega
          have hsufi : diff_commonSuffix (long.take i) (short.take j0) ≤ i := by
            have := commonSuffix_le_left (long.take i) (short.take j0)
            simp at this
            omega
          have hsufj : diff_commonSuffix (long.take i) (short.take j0) ≤ j0 := by
            have := commonSuffix_le_right (long.take i) (short.take j0)
            simp at this
            omega
          obtain ⟨ks, hks⟩ : ∃ k, diff_commonSuffix (long.take i) (short.take j0)
              = k := ⟨_, rfl⟩
          obtain ⟨kp, hkp⟩ : ∃ k, diff_commonPrefix (long.drop i) (short.drop j0)
              = k := ⟨_, rfl⟩
          have hsl : lastUnits (long.take i) ks = lastUnits (short.take j0) ks := by
            rw [← hks]
            exact commonSuffix_lastUnits_eq _ _
          have hpl : (long.drop i).take kp = (short.drop j0).take kp := by
            rw [← hkp]
            exact commonPrefix_take_eq _ _
          rw [hks, hkp] at hcond ⊢
          rw [hks] at hsufi hsufj
          have hlastL : lastUnits (long.take i) ks = (long.take i).drop (i - ks) := by
            unfold lastUnits
            congr 1
            simp
            omega
          have hlastS : lastUnits (short.take j0) ks
              = (short.take j0).drop (j0 - ks) := by
            unfold lastUnits
            congr 1
            simp
            omega
          have hdtL : (long.take (i + kp)).drop i = (long.drop i).take kp := by
            rw [List.drop_take]
            congr 1
            omega
          have hdtS : (short.take (j0 + kp)).drop j0 = (short.drop j0).take kp := by
            rw [List.drop_take]
            congr 1
            omega
          have hsub1 : jsSubstring short (j0 - ks) j0 = (short.take j0).drop (j0 - ks) := by
            unfold jsSubstring
            rw [max_eq_right (by omega), min_eq_left (by omega)]
          have hsub2 : jsSubstring short j0 (j0 + kp) = (short.take (j0 + kp)).drop j0 := by
            unfold jsSubstring
            rw [max_eq_right (by omega), min_eq_left (by omega)]
          constructor
          · show long.take (i - ks) ++ ((jsSubstring short (j0 - ks) j0
                ++ jsSubstring short j0 (j0 + kp)) ++ long.drop (i + kp)) = long
            rw [hsub1, hsub2, ← hlastS, ← hsl, hlastL, hdtS, ← hpl, ← hdtL]
            rw [List.append_assoc]
            exact slice3_eq long (i - ks) i (i + kp) (by omega) (by omega)
          · show short.take (j0 - ks) ++ ((jsSubstring short (j0 - ks) j0
                ++ jsSubstring short j0 (j0 + kp)) ++ short.drop (j0 + kp)) = short
            rw [hsub1, hsub2]
            rw [List.append_assoc]
            exact slice3_eq short (j0 - ks) j0 (j0 + kp) (by omega) (by omega)
        · rw [if_neg hcond]
          exact hbest

theorem halfMatchI_spec (long short : Str) (i : Nat) (hi : i ≤ long.length)
    (h4 : 4 ≤ long.length) (x : Str × Str × Str × Str × Str)
    (hres : diff_halfMatchI_ long short i = some (some x)) :
    hmValid long short x := by
  unfold diff_halfMatchI_ at hres
  rcases hloop : halfMatchILoop long short
      (jsSubstring long i (i + long.length / 4)) i (short.length + 2)
      (jsIndexOf short (jsSubstring long i (i + long.length / 4)) 0)
      ([], [], [], [], []) with _ | best
  · rw [hloop] at hres
    simp at hres
  rw [hloop] at hres
  replace hres : (if 2 * best.2.2.2.2.length ≥ long.length
      then some (some best) else some none) = some (some x) := hres
  have hv := halfMatchILoop_valid long short _ i hi _ _ _ _ hloop
    (fun j0 hj0 => matchAt_le _ _ _ (jsIndexOf_spec _ _ _ _ hj0).2)
    (Or.inl rfl)
  by_cases hbig : 2 * best.2.2.2.2.length ≥ long.length
  · rw [if_pos hbig] at hres
    replace hres : some (some best) = some (some x) := hres
    simp only [Option.some.injEq] at hres
    subst hres
    rcases hv with hnil | hv
    · rw [hnil] at hbig
      simp only [List.length_nil, Nat.mul_zero] at hbig
      omega
    · exact hv
  · rw [if_neg hbig] at hres
    simp at hres

theorem hmCore_spec (long short : Str) (x : Str × Str × Str × Str × Str)
    (h : hmCore long short = some (some x)) : hmValid long short x := by
  unfold hmCore at h
  by_cases hg : long.length < 4 ∨ 2 * short.length < long.length
  · rw [if_pos hg] at h
    simp at h
  rw [if_neg hg] at h
  push_neg at hg
  have h4 : 4 ≤ long.length := by omega
  have hi1 : (long.length + 3) / 4 ≤ long.length := by omega
  have hi2 : (long.length + 1) / 2 ≤ long.length := by omega
  rcases hh1 : diff_halfMatchI_ long short ((long.length + 3) / 4)
    with _ | hm1
  · rw [hh1] at h
    simp at h
  rcases hh2 : diff_halfMatchI_ long short ((long.length + 1) / 2)
    with _ | hm2
  · rw [hh1, hh2] at h
    rcases hm1 with _ | y <;> simp at h
  rw [hh1, hh2] at h
  rcases hm1 with _ | y1 <;> rcases hm2 with _ | y2
  · simp at h
  · replace h : some (some y2) = some (some x) := h
    simp only [Option.some.injEq] at h
    subst h
    exact halfMatchI_spec long short _ hi2 h4 _ hh2
  · replace h : some (some y1) = some (some x) := h
    simp only [Option.some.injEq] at h
    subst h
    exact halfMatchI_spec long short _ hi1 h4 _ hh1
  · replace h : some (some (if y1.2.2.2.2.length > y2.2.2.2.2.length
        then y1 else y2)) = some (some x) := h
    simp only [Option.some.injEq] at h
    subst h
    by_cases hsel : y1.2.2.2.2.length > y2.2.2.2.2.length
    · rw [if_pos hsel]
      exact halfMatchI_spec long short _ hi1 h4 _ hh1
    · rw [if_neg hsel]
      exact halfMatchI_spec long short _ hi2 h4 _ hh2

/-- Whatever `diff_halfMatch_` returns reconstructs both inputs. -/
theorem halfMatch_spec (cfg : DMPConfig) (t1 t2 : Str)
    (t1a t1b t2a t2b mid : Str)
    (h : diff_halfMatch_ cfg t1 t2 = some (some (t1a, t1b, t2a, t2b, mid))) :
    t1a ++ (mid ++ t1b) = t1 ∧ t2a ++ (mid ++ t2b) = t2 := by
  unfold diff_halfMatch_ at h
  by_cases ht : cfg.Diff_Timeout ≤ 0
  · rw [if_pos ht] at h
    simp at h
  rw [if_neg ht] at h
  by_cases hlen : t1.length > t2.length
  · rw [if_pos hlen] at h
    have := hmCore_spec t1 t2 _ h
    exact ⟨this.1, this.2⟩
  · rw [if_neg hlen] at h
    rcases hcr : hmCore t2 t1 with _ | hm
    · rw [hcr] at h
      simp at h
    rw [hcr] at h
    rcases hm with _ | y
    · simp at h
    · replace h : some (some (hmSwap y)) = some
        (some (t1a, t1b, t2a, t2b, mid)) := h
      simp only [Option.some.injEq] at h
      have hv := hmCore_spec t2 t1 _ hcr
      obtain ⟨ya, yb, yc, yd, ye⟩ := y
      unfold hmSwap at h
      simp only [Prod.mk.injEq] at h
      obtain ⟨h1, h2, h3, h4, h5⟩ := h
      subst h1
      subst h2
      subst h3
      subst h4
      subst h5
      exact ⟨hv.2, hv.1⟩

/-! ## diff_bisect_ and the diff_main recursion -/

/-- JS `charAt` at a possibly negative index. -/
def jsCharAtI (s : Str) (i : Int) : Option Nat :=
  if i < 0 then none else s.get? i.toNat

/-- The forward snake of `diff_bisect_` (`while charAt(x1) === charAt(y1)`). -/
def snakeF (t1 t2 : Str) : Nat → Int → Int → Option (Int × Int)
  | 0, _, _ => none
  | fuel + 1, x, y =>
    if x < (t1.length : Int) ∧ y < (t2.length : Int) ∧
        jsCharAtI t1 x = jsCharAtI t2 y then
      snakeF t1 t2 fuel (x + 1) (y + 1)
    else some (x, y)

/-- The reverse snake of `diff_bisect_`. -/
def snakeR (t1 t2 : Str) : Nat → Int → Int → Option (Int × Int)
  | 0, _, _ => none
  | fuel + 1, x, y =>
    if x < (t1.length : Int) ∧ y < (t2.length : Int) ∧
        jsCharAtI t1 ((t1.length : Int) - x - 1)
          = jsCharAtI t2 ((t2.length : Int) - y - 1) then
      snakeR t1 t2 fuel (x + 1) (y + 1)
    else some (x, y)

/-- The forward `k1` loop of one `d` level.  `inl` continues with the new
`v1`/`k1start`/`k1end`, `inr` is an overlap (the split point). -/
def bisectWalk1 (t1 t2 : Str) (voffset vlength delta : Int) (front : Bool)
    (d : Int) (v2 : Int → Int) :
    Nat → Int → (Int → Int) → Int → Int →
    Option ((Int → Int) × Int × Int ⊕ Int × Int)
  | 0, _, _, _, _ => none
  | fuel + 1, k1, v1, k1start, k1end =>
    if k1 ≤ d - k1end then
      let k1_offset := voffset + k1
      let x1init : Int :=
        if k1 = -d ∨ (k1 ≠ d ∧ v1 (k1_offset - 1) < v1 (k1_offset + 1)) then
          v1 (k1_offset + 1)
        else v1 (k1_offset - 1) + 1
      match snakeF t1 t2 (t1.length + t2.length + 2) x1init (x1init - k1) with
      | none => none
      | some (x1, y1) =>
        let v1' : Int → Int := fun o => if o = k1_offset then x1 else v1 o
        if x1 > (t1.length : Int) then
          bisectWalk1 t1 t2 voffset vlength delta front d v2 fuel (k1 + 2)
            v1' k1start (k1end + 2)
        else if y1 > (t2.length : Int) then
          bisectWalk1 t1 t2 voffset vlength delta front d v2 fuel (k1 + 2)
            v1' (k1start + 2) k1end
        else if front then
          if 0 ≤ voffset + delta - k1 ∧ voffset + delta - k1 < vlength ∧
              v2 (voffset + delta - k1) ≠ -1 then
            if x1 ≥ (t1.length : Int) - v2 (voffset + delta - k1) then
              some (Sum.inr (x1, y1))
            else
              bisectWalk1 t1 t2 voffset vlength delta front d v2 fuel (k1 + 2)
                v1' k1start k1end
          else
            bisectWalk1 t1 t2 voffset vlength delta front d v2 fuel (k1 + 2)
              v1' k1start k1end
        else
          bisectWalk1 t1 t2 voffset vlength delta front d v2 fuel (k1 + 2)
            v1' k1start k1end
    else some (Sum.inl (v1, k1start, k1end))

/-- The reverse `k2` loop of one `d` level. -/
def bisectWalk2 (t1 t2 : Str) (voffset vlength delta : Int) (front : Bool)
    (d : Int) (v1 : Int → Int) :
    Nat → Int → (Int → Int) → Int → Int →
    Option ((Int → Int) × Int × Int ⊕ Int × Int)
  | 0, _, _, _, _ => none
  | fuel + 1, k2, v2, k2start, k2end =>
    if k2 ≤ d - k2end then
      let k2_offset := voffset + k2
      let x2init : Int :=
        if k2 = -d ∨ (k2 ≠ d ∧ v2 (k2_offset - 1) < v2 (k2_offset + 1)) then
          v2 (k2_offset + 1)
        else v2 (k2_offset - 1) + 1
      match snakeR t1 t2 (t1.length + t2.length + 2) x2init (x2init - k2) with
      | none => none
      | some (x2, y2) =>
        let v2' : Int → Int := fun o => if o = k2_offset then x2 else v2 o
        if x2 > (t1.length : Int) then
          bisectWalk2 t1 t2 voffset vlength delta front d v1 fuel (k2 + 2)
            v2' k2start (k2end + 2)
        else if y2 > (t2.length : Int) then
          bisectWalk2 t1 t2 voffset vlength delta front d v1 fuel (k2 + 2)
            v2' (k2start + 2) k2end
        else if !front then
          if 0 ≤ voffset + delta - k2 ∧ voffset + delta - k2 < vlength ∧
              v1 (voffset + delta - k2) ≠ -1 then
            if v1 (voffset + delta - k2) ≥ (t1.length : Int) - x2 then
              some (Sum.inr (v1 (voffset + delta - k2),
                voffset + v1 (voffset + delta - k2) - (voffset + delta - k2)))
            else
              bisectWalk2 t1 t2 voffset vlength delta front d v1 fuel (k2 + 2)
                v2' k2start k2end
          else
            bisectWalk2 t1 t2 voffset vlength delta front d v1 fuel (k2 + 2)
              v2' k2start k2end
        else
          bisectWalk2 t1 t2 voffset vlength delta front d v1 fuel (k2 + 2)
            v2' k2start k2end
    else some (Sum.inl (v2, k2start, k2end))

/-- The `d` loop of `diff_bisect_`: one deadline check (an oracle query) per
level, then the two `k` walks.  `inl` is a found split, `inr` the
delete/insert fallback (deadline hit or levels exhausted). -/
def bisectDLoop (clk : Nat → Bool) (t1 t2 : Str)
    (voffset vlength delta : Int) (front : Bool) :
    Nat → Int → (Int → Int) → (Int → Int) → Int → Int → Int → Int → Nat →
    Option ((Int × Int ⊕ Unit) × Nat)
  | 0, _, _, _, _, _, _, _, ctr => some (Sum.inr (), ctr)
  | levels + 1, d, v1, v2, k1start, k1end, k2start, k2end, ctr =>
    if clk ctr then some (Sum.inr (), ctr + 1)
    else
      match bisectWalk1 t1 t2 voffset vlength delta front d v2
          (d.toNat + 2) (-d + k1start) v1 k1start k1end with
      | none => none
      | some (Sum.inr xy) => some (Sum.inl xy, ctr + 1)
      | some (Sum.inl (v1', k1start', k1end')) =>
        match bisectWalk2 t1 t2 voffset vlength delta front d v1'
            (d.toNat + 2) (-d + k2start) v2 k2start k2end with
        | none => none
        | some (Sum.inr xy) => some (Sum.inl xy, ctr + 1)
        | some (Sum.inl (v2', k2start', k2end')) =>
          bisectDLoop clk t1 t2 voffset vlength delta front levels (d + 1)
            v1' v2' k1start' k1end' k2start' k2end' (ctr + 1)

/-- The common prefix kept aside by `diff_main`. -/
def mainPre (t1 t2 : Str) : Str :=
  t1.take (diff_commonPrefix t1 t2)

/-- `text1` after trimming the common prefix and suffix. -/
def mainMid1 (t1 t2 : Str) : Str :=
  (t1.drop (diff_commonPrefix t1 t2)).take
    ((t1.drop (diff_commonPrefix t1 t2)).length
      - diff_commonSuffix (t1.drop (diff_commonPrefix t1 t2))
          (t2.drop (diff_commonPrefix t1 t2)))

/-- `text2` after trimming the common prefix and suffix. -/
def mainMid2 (t1 t2 : Str) : Str :=
  (t2.drop (diff_commonPrefix t1 t2)).take
    ((t2.drop (diff_commonPrefix t1 t2)).length
      - diff_commonSuffix (t1.drop (diff_commonPrefix t1 t2))
          (t2.drop (diff_commonPrefix t1 t2)))

/-- The common suffix kept aside by `diff_main`. -/
def mainSuf (t1 t2 : Str) : Str :=
  lastUnits (t1.drop (diff_commonPrefix t1 t2))
    (diff_commonSuffix (t1.drop (diff_commonPrefix t1 t2))
      (t2.drop (diff_commonPrefix t1 t2)))

theorem mainPre_mid1_suf (t1 t2 : Str) :
    mainPre t1 t2 ++ (mainMid1 t1 t2 ++ mainSuf t1 t2) = t1 := by
  unfold mainPre mainMid1 mainSuf
  rw [take_append_lastUnits, List.take_append_drop]

theorem mainPre_mid2_suf (t1 t2 : Str) :
    mainPre t1 t2 ++ (mainMid2 t1 t2 ++ mainSuf t1 t2) = t2 := by
  unfold mainPre mainMid2 mainSuf
  rw [commonSuffix_lastUnits_eq, commonPrefix_take_eq,
    take_append_lastUnits, List.take_append_drop]

/-- The call graph of `diff_main`'s recursion: `main`, `compute_`,
`lineMode_`, the character-rediff loop of `lineMode_`, and `bisect_`
(including `bisectSplit_`).  Each carries the deadline-oracle cursor. -/
inductive DCall : Type
  | main (checklines : Bool) (t1 t2 : Str) (ctr : Nat)
  | compute (checklines : Bool) (t1 t2 : Str) (ctr : Nat)
  | lineMode (t1 t2 : Str) (ctr : Nat)
  | lineRe (diffs : Script) (pointer cd ci : Nat) (td ti : Str) (ctr : Nat)
  | bisect (t1 t2 : Str) (ctr : Nat)

/-- The mutual recursion of `diff_main` / `diff_compute_` / `diff_lineMode_`
/ `diff_bisect_` / `diff_bisectSplit_`, fuelled; the deadline oracle `clk`
is consulted once per bisect level, with the cursor threaded through. -/
def diffGo (clk : Nat → Bool) (cfg : DMPConfig) : Nat → DCall →
    Option (Script × Nat)
  | 0, _ => none
  | fuel + 1, DCall.main checklines t1 t2 ctr =>
    if t1 = t2 then
      if t1 ≠ [] then some ([(Op.eq, t1)], ctr) else some ([], ctr)
    else
      match diffGo clk cfg fuel
          (DCall.compute checklines (mainMid1 t1 t2) (mainMid2 t1 t2) ctr) with
      | none => none
      | some (d0, ctr2) =>
        match diff_cleanupMerge
            (((if mainPre t1 t2 ≠ [] then [(Op.eq, mainPre t1 t2)] else [])
              ++ d0
              ++ (if mainSuf t1 t2 ≠ [] then [(Op.eq, mainSuf t1 t2)]
                  else [])).length + 2)
            ((if mainPre t1 t2 ≠ [] then [(Op.eq, mainPre t1 t2)] else [])
              ++ d0
              ++ (if mainSuf t1 t2 ≠ [] then [(Op.eq, mainSuf t1 t2)]
                  else [])) with
        | none => none
        | some d2 => some (d2, ctr2)
  | fuel + 1, DCall.compute checklines t1 t2 ctr =>
    if t1 = [] then some ([(Op.ins, t2)], ctr)
    else if t2 = [] then some ([(Op.del, t1)], ctr)
    else
      match jsIndexOf (if t1.length > t2.length then t1 else t2)
          (if t1.length > t2.length then t2 else t1) 0 with
      | some i =>
        some ([(if t1.length > t2.length then Op.del else Op.ins,
            (if t1.length > t2.length then t1 else t2).take i),
          (Op.eq, if t1.length > t2.length then t2 else t1),
          (if t1.length > t2.length then Op.del else Op.ins,
            (if t1.length > t2.length then t1 else t2).drop
              (i + (if t1.length > t2.length then t2 else t1).length))], ctr)
      | none =>
        if (if t1.length > t2.length then t2 else t1).length = 1 then
          some ([(Op.del, t1), (Op.ins, t2)], ctr)
        else
          match diff_halfMatch_ cfg t1 t2 with
          | none => none
          | some (some (t1a, t1b, t2a, t2b, mid)) =>
            match diffGo clk cfg fuel (DCall.main checklines t1a t2a ctr) with
            | none => none
            | some (da, c1) =>
              match diffGo clk cfg fuel (DCall.main checklines t1b t2b c1) with
              | none => none
              | some (db, c2) => some (da ++ ((Op.eq, mid) :: db), c2)
          | some none =>
            if checklines ∧ t1.length > 100 ∧ t2.length > 100 then
              diffGo clk cfg fuel (DCall.lineMode t1 t2 ctr)
            else diffGo clk cfg fuel (DCall.bisect t1 t2 ctr)
  | fuel + 1, DCall.lineMode t1 t2 ctr =>
    match diff_linesToChars_ t1 t2 with
    | none => none
    | some (c1, c2, la) =>
      match diffGo clk cfg fuel (DCall.main false c1 c2 ctr) with
      | none => none
      | some (d0, ctr2) =>
        match diff_cleanupSemantic (diff_charsToLines_ d0 la) with
        | none => none
        | some d1 =>
          match diffGo clk cfg fuel
              (DCall.lineRe (d1 ++ [(Op.eq, [])]) 0 0 0 [] [] ctr2) with
          | none => none
          | some (d2, ctr3) => some (d2.dropLast, ctr3)
  | fuel + 1, DCall.lineRe diffs pointer cd ci td ti ctr =>
    match diffs.get? pointer with
    | none => some (diffs, ctr)
    | some (Op.ins, s) =>
      diffGo clk cfg fuel
        (DCall.lineRe diffs (pointer + 1) cd (ci + 1) td (ti ++ s) ctr)
    | some (Op.del, s) =>
      diffGo clk cfg fuel
        (DCall.lineRe diffs (pointer + 1) (cd + 1) ci (td ++ s) ti ctr)
    | some (Op.eq, _s) =>
      if cd ≥ 1 ∧ ci ≥ 1 then
        match diffGo clk cfg fuel (DCall.main false td ti ctr) with
        | none => none
        | some (sub, ctr2) =>
          diffGo clk cfg fuel
            (DCall.lineRe
              (listSplice (listSplice diffs (pointer - (cd + ci)) (cd + ci) [])
                (pointer - (cd + ci)) 0 sub)
              (pointer - (cd + ci) + sub.length + 1) 0 0 [] [] ctr2)
      else
        diffGo clk cfg fuel
          (DCall.lineRe diffs (pointer + 1) 0 0 [] [] ctr)
  | fuel + 1, DCall.bisect t1 t2 ctr =>
    match bisectDLoop clk t1 t2
        (((t1.length + t2.length + 1) / 2 : Nat) : Int)
        (2 * (((t1.length + t2.length + 1) / 2 : Nat) : Int))
        ((t1.length : Int) - (t2.length : Int))
        (decide (((t1.length : Int) - (t2.length : Int)) % 2 ≠ 0))
        ((t1.length + t2.length + 1) / 2) 0
        (fun o => if o = (((t1.length + t2.length + 1) / 2 : Nat) : Int) + 1
          then 0 else -1)
        (fun o => if o = (((t1.length + t2.length + 1) / 2 : Nat) : Int) + 1
          then 0 else -1)
        0 0 0 0 ctr with
    | none => none
    | some (Sum.inr (), ctr2) =>
      some ([(Op.del, t1), (Op.ins, t2)], ctr2)
    | some (Sum.inl (x, y), ctr2) =>
      match diffGo clk cfg fuel
          (DCall.main false (t1.take x.toNat) (t2.take y.toNat) ctr2) with
      | none => none
      | some (da, c1) =>
        match diffGo clk cfg fuel
            (DCall.main false (t1.drop x.toNat) (t2.drop y.toNat) c1) with
        | none => none
        | some (db, c2) => some (da ++ db, c2)

/-- The top-level `diff_main` entry point: a `DCall.main` call to the
mutual recursion, with the deadline oracle `clk`, an explicit fuel
bound, and the opt_checklines flag (the internal recursion from
line-mode always passes `false`). -/
def diff_main (clk : Nat → Bool) (cfg : DMPConfig) (fuel : Nat)
    (t1 t2 : Str) (checklines : Bool) : Option Script :=
  match diffGo clk cfg fuel (DCall.main checklines t1 t2 0) with
  | none => none
  | some (out, _) => some out

/-- The per-call round-trip statement for `diffGo`: every call shape
returns a script whose two texts are the call's two inputs (for the
re-diff loop of `lineMode_`, relative to the zipper invariants, also
keeping the final dummy record in place). -/
def diffGoOK : DCall → Script → Prop
  | DCall.main _ t1 t2 _, out => diff_text1 out = t1 ∧ diff_text2 out = t2
  | DCall.compute _ t1 t2 _, out => diff_text1 out = t1 ∧ diff_text2 out = t2
  | DCall.lineMode t1 t2 _, out => diff_text1 out = t1 ∧ diff_text2 out = t2
  | DCall.lineRe diffs pointer cd ci td ti _, out =>
    ∀ pre run rest, diffs = pre ++ run ++ rest →
      pointer = pre.length + run.length →
      run.length = cd + ci →
      (∀ x ∈ run, x.1 ≠ Op.eq) →
      diff_text1 run = td → diff_text2 run = ti →
      (diff_text1 out = diff_text1 diffs ∧ diff_text2 out = diff_text2 diffs)
        ∧ out.getLast? = diffs.getLast?
  | DCall.bisect t1 t2 _, out => diff_text1 out = t1 ∧ diff_text2 out = t2

theorem text1_assemble (p sf : Str) (d0 : Script) :
    diff_text1 ((if p ≠ [] then [(Op.eq, p)] else []) ++ d0
        ++ (if sf ≠ [] then [(Op.eq, sf)] else []))
      = p ++ (diff_text1 d0 ++ sf) := by
  by_cases hp : p = [] <;> by_cases hs : sf = [] <;>
    simp [hp, hs, text1_append, text1_cons_eq, diff_text1]

theorem text2_assemble (p sf : Str) (d0 : Script) :
    diff_text2 ((if p ≠ [] then [(Op.eq, p)] else []) ++ d0
        ++ (if sf ≠ [] then [(Op.eq, sf)] else []))
      = p ++ (diff_text2 d0 ++ sf) := by
  by_cases hp : p = [] <;> by_cases hs : sf = [] <;>
    simp [hp, hs, text2_append, text2_cons_eq, diff_text2]

/-- Round-trip preservation through the whole `diff_main` recursion. -/
theorem diffGo_text (clk : Nat → Bool) (cfg : DMPConfig) :
    ∀ fuel call out ctr2,
      diffGo clk cfg fuel call = some (out, ctr2) →
      diffGoOK call out := by
  intro fuel
  induction fuel with
  | zero => intro call out ctr2 h; simp [diffGo] at h
  | succ fuel ih =>
    intro call out ctr2 h
    cases call with
    | main checklines t1 t2 ctr =>
      rw [diffGo] at h
      by_cases heq : t1 = t2
      · rw [if_pos heq] at h
        by_cases hne : t1 ≠ []
        · rw [if_pos hne] at h
          replace h : some ([(Op.eq, t1)], ctr) = some (out, ctr2) := h
          simp only [Option.some.injEq, Prod.mk.injEq] at h
          rw [← h.1]
          exact ⟨by simp [text1_cons_eq, diff_text1],
            by rw [← heq]; simp [text2_cons_eq, diff_text2]⟩
        · rw [if_neg hne] at h
          replace h : some ([], ctr) = some (out, ctr2) := h
          simp only [Option.some.injEq, Prod.mk.injEq] at h
          rw [← h.1]
          push_neg at hne
          exact ⟨by simp [diff_text1, hne], by rw [← heq]; simp [diff_text2, hne]⟩
      · rw [if_neg heq] at h
        rcases h0 : diffGo clk cfg fuel
            (DCall.compute checklines (mainMid1 t1 t2) (mainMid2 t1 t2) ctr)
          with _ | ⟨d0, c0⟩
        · rw [h0] at h
          simp at h
        rw [h0] at h
        replace h : (match diff_cleanupMerge
            (((if mainPre t1 t2 ≠ [] then [(Op.eq, mainPre t1 t2)] else [])
              ++ d0
              ++ (if mainSuf t1 t2 ≠ [] then [(Op.eq, mainSuf t1 t2)]
                  else [])).length + 2)
            ((if mainPre t1 t2 ≠ [] then [(Op.eq, mainPre t1 t2)] else [])
              ++ d0
              ++ (if mainSuf t1 t2 ≠ [] then [(Op.eq, mainSuf t1 t2)]
                  else [])) with
          | none => none
          | some d2 => some (d2, c0)) = some (out, ctr2) := h
        rcases h1 : diff_cleanupMerge
            (((if mainPre t1 t2 ≠ [] then [(Op.eq, mainPre t1 t2)] else [])
              ++ d0
              ++ (if mainSuf t1 t2 ≠ [] then [(Op.eq, mainSuf t1 t2)]
                  else [])).length + 2)
            ((if mainPre t1 t2 ≠ [] then [(Op.eq, mainPre t1 t2)] else [])
              ++ d0
              ++ (if mainSuf t1 t2 ≠ [] then [(Op.eq, mainSuf t1 t2)]
                  else [])) with _ | d2
        · rw [h1] at h
          simp at h
        rw [h1] at h
        replace h : some (d2, c0) = some (out, ctr2) := h
        simp only [Option.some.injEq, Prod.mk.injEq] at h
        rw [← h.1]
        obtain ⟨hm1, hm2⟩ := diff_cleanupMerge_text _ _ _ h1
        obtain ⟨hc1, hc2⟩ := ih _ _ _ h0
        constructor
        · rw [hm1, text1_assemble, hc1, mainPre_mid1_suf]
        · rw [hm2, text2_assemble, hc2, mainPre_mid2_suf]
    | compute checklines t1 t2 ctr =>
      rw [diffGo] at h
      by_cases he1 : t1 = []
      · rw [if_pos he1] at h
        replace h : some ([(Op.ins, t2)], ctr) = some (out, ctr2) := h
        simp only [Option.some.injEq, Prod.mk.injEq] at h
        rw [← h.1]
        subst he1
        exact ⟨by simp [text1_cons_ins, diff_text1],
          by simp [text2_cons_ins, diff_text2]⟩
      rw [if_neg he1] at h
      by_cases he2 : t2 = []
      · rw [if_pos he2] at h
        replace h : some ([(Op.del, t1)], ctr) = some (out, ctr2) := h
        simp only [Option.some.injEq, Prod.mk.injEq] at h
        rw [← h.1]
        subst he2
        exact ⟨by simp [text1_cons_del, diff_text1],
          by simp [text2_cons_del, diff_text2]⟩
      rw [if_neg he2] at h
      rcases hidx : jsIndexOf (if t1.length > t2.length then t1 else t2)
          (if t1.length > t2.length then t2 else t1) 0 with _ | i
      · rw [hidx] at h
        by_cases hshort : (if t1.length > t2.length then t2 else t1).length = 1
        · rw [if_pos hshort] at h
          replace h : some ([(Op.del, t1), (Op.ins, t2)], ctr)
              = some (out, ctr2) := h
          simp only [Option.some.injEq, Prod.mk.injEq] at h
          rw [← h.1]
          exact ⟨by simp [text1_cons_del, text1_cons_ins, diff_text1],
            by simp [text2_cons_del, text2_cons_ins, diff_text2]⟩
        rw [if_neg hshort] at h
        rcases hhm : diff_halfMatch_ cfg t1 t2 with _ | hm
        · rw [hhm] at h
          simp at h
        rw [hhm] at h
        rcases hm with _ | ⟨t1a, t1b, t2a, t2b, mid⟩
        · replace h : (if checklines ∧ t1.length > 100 ∧ t2.length > 100 then
              diffGo clk cfg fuel (DCall.lineMode t1 t2 ctr)
            else diffGo clk cfg fuel (DCall.bisect t1 t2 ctr))
              = some (out, ctr2) := h
          by_cases hcl : checklines ∧ t1.length > 100 ∧ t2.length > 100
          · rw [if_pos hcl] at h
            show diff_text1 out = t1 ∧ diff_text2 out = t2
            exact ih _ _ _ h
          · rw [if_neg hcl] at h
            show diff_text1 out = t1 ∧ diff_text2 out = t2
            exact ih _ _ _ h
        · replace h : (match diffGo clk cfg fuel
              (DCall.main checklines t1a t2a ctr) with
            | none => none
            | some (da, c1) =>
              match diffGo clk cfg fuel (DCall.main checklines t1b t2b c1) with
              | none => none
              | some (db, c2) => some (da ++ ((Op.eq, mid) :: db), c2))
              = some (out, ctr2) := h
          rcases ha : diffGo clk cfg fuel (DCall.main checklines t1a t2a ctr)
            with _ | ⟨da, c1⟩
          · rw [ha] at h
            simp at h
          rw [ha] at h
          replace h : (match diffGo clk cfg fuel
              (DCall.main checklines t1b t2b c1) with
            | none => none
            | some (db, c2) => some (da ++ ((Op.eq, mid) :: db), c2))
              = some (out, ctr2) := h
          rcases hb : diffGo clk cfg fuel (DCall.main checklines t1b t2b c1)
            with _ | ⟨db, c2⟩
          · rw [hb] at h
            simp at h
          rw [hb] at h
          replace h : some (da ++ ((Op.eq, mid) :: db), c2)
              = some (out, ctr2) := h
          simp only [Option.some.injEq, Prod.mk.injEq] at h
          rw [← h.1]
          obtain ⟨ha1, ha2⟩ := ih _ _ _ ha
          obtain ⟨hb1, hb2⟩ := ih _ _ _ hb
          obtain ⟨hv1, hv2⟩ := halfMatch_spec cfg t1 t2 _ _ _ _ _ hhm
          constructor
          · rw [text1_append, text1_cons_eq, ha1, hb1]
            exact hv1
          · rw [text2_append, text2_cons_eq, ha2, hb2]
            exact hv2
      · rw [hidx] at h
        replace h : some ([((if t1.length > t2.length then Op.del else Op.ins),
            (if t1.length > t2.length then t1 else t2).take i),
          (Op.eq, if t1.length > t2.length then t2 else t1),
          ((if t1.length > t2.length then Op.del else Op.ins),
            (if t1.length > t2.length then t1 else t2).drop
              (i + (if t1.length > t2.length then t2 else t1).length))], ctr)
            = some (out, ctr2) := h
        simp only [Option.some.injEq, Prod.mk.injEq] at h
        rw [← h.1]
        have hdecomp := matchAt_decomp _ _ _ (jsIndexOf_spec _ _ _ _ hidx).2
        by_cases hlen : t1.length > t2.length
        · simp only [if_pos hlen] at hdecomp ⊢
          constructor
          · simp only [text1_cons_del, text1_cons_eq, diff_text1,
              List.append_nil]
            conv_rhs => rw [hdecomp]
            simp [List.append_assoc]
          · simp [text2_cons_del, text2_cons_eq, diff_text2]
        · simp only [if_neg hlen] at hdecomp ⊢
          constructor
          · simp [text1_cons_ins, text1_cons_eq, diff_text1]
          · simp only [text2_cons_ins, text2_cons_eq, diff_text2,
              List.append_nil]
            conv_rhs => rw [hdecomp]
            simp [List.append_assoc]
    | lineMode t1 t2 ctr =>
      rw [diffGo] at h
      rcases hl : diff_linesToChars_ t1 t2 with _ | ⟨c1, c2, la⟩
      · rw [hl] at h
        simp at h
      rw [hl] at h
      replace h : (match diffGo clk cfg fuel (DCall.main false c1 c2 ctr) with
        | none => none
        | some (d0, ctr3) =>
          match diff_cleanupSemantic (diff_charsToLines_ d0 la) with
          | none => none
          | some d1 =>
            match diffGo clk cfg fuel
                (DCall.lineRe (d1 ++ [(Op.eq, [])]) 0 0 0 [] [] ctr3) with
            | none => none
            | some (d2, ctr4) => some (d2.dropLast, ctr4))
          = some (out, ctr2) := h
      rcases h0 : diffGo clk cfg fuel (DCall.main false c1 c2 ctr)
        with _ | ⟨d0, ctr3⟩
      · rw [h0] at h
        simp at h
      rw [h0] at h
      replace h : (match diff_cleanupSemantic (diff_charsToLines_ d0 la) with
        | none => none
        | some d1 =>
          match diffGo clk cfg fuel
              (DCall.lineRe (d1 ++ [(Op.eq, [])]) 0 0 0 [] [] ctr3) with
          | none => none
          | some (d2, ctr4) => some (d2.dropLast, ctr4))
          = some (out, ctr2) := h
      rcases h1 : diff_cleanupSemantic (diff_charsToLines_ d0 la) with _ | d1
      · rw [h1] at h
        simp at h
      rw [h1] at h
      replace h : (match diffGo clk cfg fuel
          (DCall.lineRe (d1 ++ [(Op.eq, [])]) 0 0 0 [] [] ctr3) with
        | none => none
        | some (d2, ctr4) => some (d2.dropLast, ctr4))
          = some (out, ctr2) := h
      rcases h2 : diffGo clk cfg fuel
          (DCall.lineRe (d1 ++ [(Op.eq, [])]) 0 0 0 [] [] ctr3)
        with _ | ⟨d2, ctr4⟩
      · rw [h2] at h
        simp at h
      rw [h2] at h
      replace h : some (d2.dropLast, ctr4) = some (out, ctr2) := h
      simp only [Option.some.injEq, Prod.mk.injEq] at h
      rw [← h.1]
      obtain ⟨hm1, hm2⟩ := ih _ _ _ h0
      obtain ⟨hdc, hlc⟩ := linesToChars_spec t1 t2 c1 c2 la hl
      obtain ⟨hcl1, hcl2⟩ := charsToLines_text la d0
      obtain ⟨hs1, hs2⟩ := diff_cleanupSemantic_text _ _ h1
      obtain ⟨⟨hr1, hr2⟩, hrl⟩ := ih _ _ _ h2 [] [] (d1 ++ [(Op.eq, [])])
        (by simp) (by simp) (by simp) (by intro x hx; simp at hx) rfl rfl
      have hlast : d2.getLast? = some (Op.eq, []) := by
        rw [hrl, List.getLast?_append_cons]
        rfl
      have hd2 : d2 = d2.dropLast ++ [(Op.eq, [])] := by
        rcases List.eq_nil_or_concat d2 with hnil | ⟨d2a, a, hcat⟩
        · rw [hnil] at hlast
          simp at hlast
        · rw [List.concat_eq_append] at hcat
          subst hcat
          rw [List.getLast?_append_cons] at hlast
          simp only [List.getLast?_singleton, Option.some.injEq] at hlast
          subst hlast
          rw [List.dropLast_append_cons]
          simp
      constructor
      · have : diff_text1 d2 = diff_text1 d2.dropLast := by
          conv_lhs => rw [hd2]
          rw [text1_append]
          simp [diff_text1]
        rw [← this, hr1, text1_append, hs1, hcl1, hm1, hdc]
        simp [diff_text1]
      · have : diff_text2 d2 = diff_text2 d2.dropLast := by
          conv_lhs => rw [hd2]
          rw [text2_append]
          simp [diff_text2]
        rw [← this, hr2, text2_append, hs2, hcl2, hm2, hlc]
        simp [diff_text2]
    | lineRe diffs pointer cd ci td ti ctr =>
      intro pre run rest hdiffs hptr hlen hops htd hti
      subst hdiffs
      subst hptr
      rw [diffGo] at h
      have hget : (pre ++ run ++ rest).get? (pre.length + run.length)
          = rest.head? := by
        rw [show pre ++ run ++ rest = (pre ++ run) ++ rest by simp,
          show pre.length + run.length = (pre ++ run).length by simp,
          get?_append_length]
      cases rest with
      | nil =>
        rw [hget] at h
        replace h : some (pre ++ run ++ [], ctr) = some (out, ctr2) := h
        simp only [Option.some.injEq, Prod.mk.injEq] at h
        rw [← h.1]
        exact ⟨⟨rfl, rfl⟩, rfl⟩
      | cons dd rest2 =>
        obtain ⟨op0, s⟩ := dd
        rw [hget] at h
        cases op0 with
        | ins =>
          replace h : diffGo clk cfg fuel
              (DCall.lineRe (pre ++ run ++ ((Op.ins, s) :: rest2))
                (pre.length + run.length + 1) cd (ci + 1) td (ti ++ s) ctr)
              = some (out, ctr2) := h
          have hres := ih _ _ _ h pre (run ++ [(Op.ins, s)]) rest2
            (by simp) (by simp; omega) (by simp; omega) ?_ ?_ ?_
          rotate_left
          · intro x hx
            rcases List.mem_append.mp hx with hx | hx
            · exact hops x hx
            · simp only [List.mem_singleton] at hx
              subst hx
              simp
          · rw [text1_append, htd]
            simp [diff_text1]
          · rw [text2_append, hti]
            simp [diff_text2]
          exact hres
        | del =>
          replace h : diffGo clk cfg fuel
              (DCall.lineRe (pre ++ run ++ ((Op.del, s) :: rest2))
                (pre.length + run.length + 1) (cd + 1) ci (td ++ s) ti ctr)
              = some (out, ctr2) := h
          have hres := ih _ _ _ h pre (run ++ [(Op.del, s)]) rest2
            (by simp) (by simp; omega) (by simp; omega) ?_ ?_ ?_
          rotate_left
          · intro x hx
            rcases List.mem_append.mp hx with hx | hx
            · exact hops x hx
            · simp only [List.mem_singleton] at hx
              subst hx
              simp
          · rw [text1_append, htd]
            simp [diff_text1]
          · rw [text2_append, hti]
            simp [diff_text2]
          exact hres
        | eq =>
          replace h : (if cd ≥ 1 ∧ ci ≥ 1 then
              match diffGo clk cfg fuel (DCall.main false td ti ctr) with
              | none => none
              | some (sub, ctr3) =>
                diffGo clk cfg fuel
                  (DCall.lineRe
                    (listSplice (listSplice (pre ++ run ++ ((Op.eq, s) :: rest2))
                        (pre.length + run.length - (cd + ci)) (cd + ci) [])
                      (pre.length + run.length - (cd + ci)) 0 sub)
                    (pre.length + run.length - (cd + ci) + sub.length + 1)
                    0 0 [] [] ctr3)
            else
              diffGo clk cfg fuel
                (DCall.lineRe (pre ++ run ++ ((Op.eq, s) :: rest2))
                  (pre.length + run.length + 1) 0 0 [] [] ctr))
              = some (out, ctr2) := h
          by_cases hmerge : cd ≥ 1 ∧ ci ≥ 1
          · rw [if_pos hmerge] at h
            rcases hsub : diffGo clk cfg fuel (DCall.main false td ti ctr)
              with _ | ⟨sub, ctr3⟩
            · rw [hsub] at h
              simp at h
            rw [hsub] at h
            replace h : diffGo clk cfg fuel
                (DCall.lineRe
                  (listSplice
                    (listSplice (pre ++ run ++ ((Op.eq, s) :: rest2))
                      (pre.length + run.length - (cd + ci)) (cd + ci) [])
                    (pre.length + run.length - (cd + ci)) 0 sub)
                  (pre.length + run.length - (cd + ci) + sub.length + 1)
                  0 0 [] [] ctr3) = some (out, ctr2) := h
            have hp0 : pre.length + run.length - (cd + ci) = pre.length := by
              omega
            have hsplice1 : listSplice (pre ++ run ++ ((Op.eq, s) :: rest2))
                (pre.length + run.length - (cd + ci)) (cd + ci) []
                = pre ++ ((Op.eq, s) :: rest2) := by
              rw [hp0,
                show pre ++ run ++ ((Op.eq, s) :: rest2)
                  = pre ++ (run ++ ((Op.eq, s) :: rest2)) by simp,
                splice_append_length]
              rw [show cd + ci = run.length by omega, List.drop_left]
              simp
            have hsplice2 : listSplice (pre ++ ((Op.eq, s) :: rest2))
                (pre.length + run.length - (cd + ci)) 0 sub
                = pre ++ sub ++ ((Op.eq, s) :: rest2) := by
              rw [hp0, splice_append_length]
              simp
            rw [hsplice1, hsplice2, hp0] at h
            obtain ⟨hsub1, hsub2⟩ := ih _ _ _ hsub
            have hres := ih _ _ _ h (pre ++ sub ++ [(Op.eq, s)]) [] rest2
              (by simp)
              (by simp only [List.length_append, List.length_cons,
                List.length_nil])
              (by simp) (by intro x hx; simp at hx) rfl rfl
            obtain ⟨⟨hr1, hr2⟩, hrl⟩ := hres
            refine ⟨⟨?_, ?_⟩, ?_⟩
            · rw [hr1,
                show pre ++ sub ++ ((Op.eq, s) :: rest2)
                  = pre ++ (sub ++ ((Op.eq, s) :: rest2)) by simp,
                show pre ++ run ++ ((Op.eq, s) :: rest2)
                  = pre ++ (run ++ ((Op.eq, s) :: rest2)) by simp,
                text1_append, text1_append, text1_append, text1_append,
                hsub1, htd]
            · rw [hr2,
                show pre ++ sub ++ ((Op.eq, s) :: rest2)
                  = pre ++ (sub ++ ((Op.eq, s) :: rest2)) by simp,
                show pre ++ run ++ ((Op.eq, s) :: rest2)
                  = pre ++ (run ++ ((Op.eq, s) :: rest2)) by simp,
                text2_append, text2_append, text2_append, text2_append,
                hsub2, hti]
            · rw [hrl,
                show pre ++ sub ++ ((Op.eq, s) :: rest2)
                  = (pre ++ sub) ++ ((Op.eq, s) :: rest2) by simp,
                show pre ++ run ++ ((Op.eq, s) :: rest2)
                  = (pre ++ run) ++ ((Op.eq, s) :: rest2) by simp,
                List.getLast?_append_cons, List.getLast?_append_cons]
          · rw [if_neg hmerge] at h
            have hres := ih _ _ _ h (pre ++ run ++ [(Op.eq, s)]) [] rest2
              (by simp)
              (by simp only [List.length_append, List.length_cons,
                List.length_nil])
              (by simp) (by intro x hx; simp at hx) rfl rfl
            exact hres
    | bisect t1 t2 ctr =>
      rw [diffGo] at h
      rcases hd : bisectDLoop clk t1 t2
          (((t1.length + t2.length + 1) / 2 : Nat) : Int)
          (2 * (((t1.length + t2.length + 1) / 2 : Nat) : Int))
          ((t1.length : Int) - (t2.length : Int))
          (decide (((t1.length : Int) - (t2.length : Int)) % 2 ≠ 0))
          ((t1.length + t2.length + 1) / 2) 0
          (fun o => if o = (((t1.length + t2.length + 1) / 2 : Nat) : Int) + 1
            then 0 else -1)
          (fun o => if o = (((t1.length + t2.length + 1) / 2 : Nat) : Int) + 1
            then 0 else -1)
          0 0 0 0 ctr with _ | ⟨res, ctr3⟩
      · rw [hd] at h
        simp at h
      rw [hd] at h
      rcases res with ⟨x, y⟩ | u
      · replace h : (match diffGo clk cfg fuel
            (DCall.main false (t1.take x.toNat) (t2.take y.toNat) ctr3) with
          | none => none
          | some (da, c1) =>
            match diffGo clk cfg fuel
                (DCall.main false (t1.drop x.toNat) (t2.drop y.toNat) c1) with
            | none => none
            | some (db, c2) => some (da ++ db, c2)) = some (out, ctr2) := h
        rcases ha : diffGo clk cfg fuel
            (DCall.main false (t1.take x.toNat) (t2.take y.toNat) ctr3)
          with _ | ⟨da, c1⟩
        · rw [ha] at h
          simp at h
        rw [ha] at h
        replace h : (match diffGo clk cfg fuel
            (DCall.main false (t1.drop x.toNat) (t2.drop y.toNat) c1) with
          | none => none
          | some (db, c2) => some (da ++ db, c2)) = some (out, ctr2) := h
        rcases hb : diffGo clk cfg fuel
            (DCall.main false (t1.drop x.toNat) (t2.drop y.toNat) c1)
          with _ | ⟨db, c2⟩
        · rw [hb] at h
          simp at h
        rw [hb] at h
        replace h : some (da ++ db, c2) = some (out, ctr2) := h
        simp only [Option.some.injEq, Prod.mk.injEq] at h
        rw [← h.1]
        obtain ⟨ha1, ha2⟩ := ih _ _ _ ha
        obtain ⟨hb1, hb2⟩ := ih _ _ _ hb
        exact ⟨by rw [text1_append, ha1, hb1, List.take_append_drop],
          by rw [text2_append, ha2, hb2, List.take_append_drop]⟩
      · replace h : some ([(Op.del, t1), (Op.ins, t2)], ctr3)
            = some (out, ctr2) := h
        simp only [Option.some.injEq, Prod.mk.injEq] at h
        rw [← h.1]
        exact ⟨by simp [text1_cons_del, text1_cons_ins, diff_text1],
          by simp [text2_cons_del, text2_cons_ins, diff_text2]⟩

/-- The textbook Levenshtein edit distance between two code-unit
strings (the reference definition the spec's C6 claim compares
`diff_levenshtein` against). -/
def lev : Str → Str → Nat
  | [], v => v.length
  | _ :: u, [] => u.length + 1
  | a :: u, b :: v =>
    if a = b then lev u v
    else 1 + min (lev u v) (min (lev (a :: u) v) (lev u (b :: v)))
termination_by u v => u.length + v.length

theorem lev_nil_left (v : Str) : lev [] v = v.length := by
  simp [lev]

theorem lev_nil_right (u : Str) : lev u [] = u.length := by
  cases u <;> simp [lev]

theorem lev_cons_cons (a b : Nat) (u v : Str) :
    lev (a :: u) (b :: v)
      = if a = b then lev u v
        else 1 + min (lev u v) (min (lev (a :: u) v) (lev u (b :: v))) := by
  rw [lev]

theorem lev_self : ∀ u : Str, lev u u = 0 := by
  intro u
  induction u with
  | nil => simp [lev]
  | cons a u ih => rw [lev_cons_cons, if_pos rfl, ih]

theorem lev_le_max : ∀ N u v, u.length + v.length ≤ N →
    lev u v ≤ max u.length v.length := by
  intro N
  induction N with
  | zero =>
    intro u v hb
    have hu : u = [] := by cases u <;> simp_all
    have hv : v = [] := by cases v <;> simp_all
    subst hu; subst hv
    simp [lev]
  | succ N ihN =>
    intro u v hb
    cases u with
    | nil => simp [lev_nil_left]
    | cons a u =>
      cases v with
      | nil => simp [lev_nil_right]
      | cons b v =>
        rw [lev_cons_cons]
        by_cases hab : a = b
        · rw [if_pos hab]
          have := ihN u v (by simp at hb ⊢; omega)
          simp only [List.length_cons]
          omega
        · rw [if_neg hab]
          have := ihN u v (by simp at hb ⊢; omega)
          simp only [List.length_cons]
          omega

theorem lev_lipschitz : ∀ N u v, u.length + v.length ≤ N →
    (∀ a, lev (a :: u) v ≤ 1 + lev u v ∧ lev u v ≤ 1 + lev (a :: u) v) ∧
    (∀ b, lev u (b :: v) ≤ 1 + lev u v ∧ lev u v ≤ 1 + lev u (b :: v)) := by
  intro N
  induction N with
  | zero =>
    intro u v hb
    have hu : u = [] := by cases u <;> simp_all
    have hv : v = [] := by cases v <;> simp_all
    subst hu; subst hv
    constructor
    · intro a
      simp [lev_nil_left, lev_nil_right]
    · intro b
      simp [lev_nil_left, lev_nil_right]
  | succ N ihN =>
    intro u v hb
    constructor
    · intro a
      cases v with
      | nil =>
        simp only [lev_nil_right, List.length_cons]
        omega
      | cons b v =>
        rw [lev_cons_cons]
        by_cases hab : a = b
        · rw [if_pos hab]
          subst hab
          have h := (ihN u v (by simp at hb ⊢; omega)).2 a
          exact ⟨h.2, h.1⟩
        · rw [if_neg hab]
          have h2 := ((ihN u v (by simp at hb ⊢; omega)).2 b).1
          have h3 := ((ihN u v (by simp at hb ⊢; omega)).1 a).2
          constructor
          · omega
          · omega
    · intro b
      cases u with
      | nil =>
        simp only [lev_nil_left, List.length_cons]
        omega
      | cons a u =>
        rw [lev_cons_cons]
        by_cases hab : a = b
        · rw [if_pos hab]
          subst hab
          have h := (ihN u v (by simp at hb ⊢; omega)).1 a
          exact ⟨h.2, h.1⟩
        · rw [if_neg hab]
          have h1 := ((ihN u v (by simp at hb ⊢; omega)).1 a).1
          have h4 := ((ihN u v (by simp at hb ⊢; omega)).2 b).2
          constructor
          · omega
          · omega

theorem lev_cons_left_le (a : Nat) (u v : Str) :
    lev (a :: u) v ≤ 1 + lev u v :=
  ((lev_lipschitz (u.length + v.length) u v le_rfl).1 a).1

theorem lev_cons_right_le (b : Nat) (u v : Str) :
    lev u (b :: v) ≤ 1 + lev u v :=
  ((lev_lipschitz (u.length + v.length) u v le_rfl).2 b).1

theorem lev_append_right_le : ∀ (v1 u v2 : Str),
    lev u (v1 ++ v2) ≤ v1.length + lev u v2 := by
  intro v1
  induction v1 with
  | nil => intro u v2; simp
  | cons b v1 ih =>
    intro u v2
    have h1 := lev_cons_right_le b u (v1 ++ v2)
    have h2 := ih u v2
    simp only [List.cons_append, List.length_cons]
    omega

theorem lev_append_left_le : ∀ (u1 u2 v2 : Str),
    lev (u1 ++ u2) v2 ≤ u1.length + lev u2 v2 := by
  intro u1
  induction u1 with
  | nil => intro u2 v2; simp
  | cons a u1 ih =>
    intro u2 v2
    have h1 := lev_cons_left_le a (u1 ++ u2) v2
    have h2 := ih u2 v2
    simp only [List.cons_append, List.length_cons]
    omega

theorem lev_append_le : ∀ N u1 v1, u1.length + v1.length ≤ N → ∀ u2 v2,
    lev (u1 ++ u2) (v1 ++ v2) ≤ lev u1 v1 + lev u2 v2 := by
  intro N
  induction N with
  | zero =>
    intro u1 v1 hb u2 v2
    have hu : u1 = [] := by cases u1 <;> simp_all
    have hv : v1 = [] := by cases v1 <;> simp_all
    subst hu; subst hv
    simp [lev_nil_left]
  | succ N ihN =>
    intro u1 v1 hb u2 v2
    cases u1 with
    | nil =>
      simp only [List.nil_append, lev_nil_left]
      exact lev_append_right_le v1 u2 v2
    | cons a u1 =>
      cases v1 with
      | nil =>
        simp only [List.nil_append, lev_nil_right, List.length_cons]
        have := lev_append_left_le (a :: u1) u2 v2
        simp only [List.length_cons] at this
        omega
      | cons b v1 =>
        rw [show (a :: u1) ++ u2 = a :: (u1 ++ u2) from rfl,
          show (b :: v1) ++ v2 = b :: (v1 ++ v2) from rfl,
          lev_cons_cons, lev_cons_cons]
        by_cases hab : a = b
        · rw [if_pos hab, if_pos hab]
          exact ihN u1 v1 (by simp at hb ⊢; omega) u2 v2
        · rw [if_neg hab, if_neg hab]
          have hA := ihN u1 v1 (by simp at hb ⊢; omega) u2 v2
          have hB := ihN (a :: u1) v1 (by simp at hb ⊢; omega) u2 v2
          have hC := ihN u1 (b :: v1) (by simp at hb ⊢; omega) u2 v2
          rw [show (a :: u1) ++ u2 = a :: (u1 ++ u2) from rfl] at hB
          rw [show (b :: v1) ++ v2 = b :: (v1 ++ v2) from rfl] at hC
          omega

theorem levLoop_acc : ∀ (d : Script) (acc ins del : Nat),
    levLoop d acc ins del = acc + levLoop d 0 ins del := by
  intro d
  induction d with
  | nil => intro acc ins del; simp [levLoop]
  | cons p rest ih =>
    intro acc ins del
    obtain ⟨op, s⟩ := p
    cases op with
    | ins => simp only [levLoop]; rw [ih, ih 0]
    | del => simp only [levLoop]; rw [ih, ih 0]
    | eq =>
      simp only [levLoop]
      rw [ih, ih (0 + max ins del)]
      omega

theorem levLoop_lower : ∀ (d : Script) (D I : Str),
    lev (D ++ diff_text1 d) (I ++ diff_text2 d)
      ≤ levLoop d 0 I.length D.length := by
  intro d
  induction d with
  | nil =>
    intro D I
    simp only [diff_text1, diff_text2, List.append_nil, levLoop, Nat.zero_add]
    have := lev_le_max (D.length + I.length) D I le_rfl
    omega
  | cons p rest ih =>
    intro D I
    obtain ⟨op, s⟩ := p
    cases op with
    | ins =>
      rw [text1_cons_ins, text2_cons_ins]
      have := ih D (I ++ s)
      simp only [List.append_assoc, List.length_append] at this
      simpa [levLoop] using this
    | del =>
      rw [text1_cons_del, text2_cons_del]
      have := ih (D ++ s) I
      simp only [List.append_assoc, List.length_append] at this
      simpa [levLoop] using this
    | eq =>
      rw [text1_cons_eq, text2_cons_eq]
      have h1 := lev_append_le (D.length + I.length) D I le_rfl
        (s ++ diff_text1 rest) (s ++ diff_text2 rest)
      have h2 := lev_append_le (s.length + s.length) s s le_rfl
        (diff_text1 rest) (diff_text2 rest)
      have h3 := ih [] []
      have h4 := lev_le_max (D.length + I.length) D I le_rfl
      simp only [List.nil_append, List.length_nil] at h3
      rw [lev_self] at h2
      show lev (D ++ (s ++ diff_text1 rest)) (I ++ (s ++ diff_text2 rest))
        ≤ levLoop rest (0 + max I.length D.length) 0 0
      rw [levLoop_acc]
      omega

theorem levLoop_upper : ∀ (d : Script) (acc ins del : Nat),
    levLoop d acc ins del
      ≤ acc + ins + del + (diff_text1 d).length + (diff_text2 d).length := by
  intro d
  induction d with
  | nil =>
    intro acc ins del
    simp only [levLoop, diff_text1, diff_text2, List.length_nil]
    omega
  | cons p rest ih =>
    intro acc ins del
    obtain ⟨op, s⟩ := p
    cases op with
    | ins =>
      rw [text1_cons_ins, text2_cons_ins]
      have := ih acc (ins + s.length) del
      simp only [levLoop, List.length_append]
      omega
    | del =>
      rw [text1_cons_del, text2_cons_del]
      have := ih acc ins (del + s.length)
      simp only [levLoop, List.length_append]
      omega
    | eq =>
      rw [text1_cons_eq, text2_cons_eq]
      have := ih (acc + max ins del) 0 0
      simp only [levLoop, List.length_append]
      omega

/-- Uppercase hex digit for a nibble, as a code unit. -/
def hexDigit (n : Nat) : Nat :=
  if n < 10 then 48 + n else 55 + n

/-- Value of a hex digit code unit (either case); `none` if not hex. -/
def hexVal (c : Nat) : Option Nat :=
  if 48 ≤ c ∧ c ≤ 57 then some (c - 48)
  else if 65 ≤ c ∧ c ≤ 70 then some (c - 55)
  else if 97 ≤ c ∧ c ≤ 102 then some (c - 87)
  else none

/-- The `%XX` escape of one byte. -/
def byteEscape (b : Nat) : Str :=
  [37, hexDigit (b / 16), hexDigit (b % 16)]

/-- UTF-8 bytes of one code point. -/
def utf8Encode (cp : Nat) : List Nat :=
  if cp < 128 then [cp]
  else if cp < 2048 then [192 + cp / 64, 128 + cp % 64]
  else if cp < 65536 then
    [224 + cp / 4096, 128 + cp / 64 % 64, 128 + cp % 64]
  else
    [240 + cp / 262144, 128 + cp / 4096 % 64, 128 + cp / 64 % 64,
      128 + cp % 64]

/-- Percent-escapes of a byte sequence. -/
def escBytes (bs : List Nat) : Str :=
  (bs.map byteEscape).flatten

/-- The characters `encodeURI` leaves unescaped: uriReserved ∪
uriUnescaped ∪ "#", i.e. alphanumerics and `#$&'()*+,-./:;=?@_~!`. -/
def uriAllowed (c : Nat) : Bool :=
  decide ((65 ≤ c ∧ c ≤ 90) ∨ (97 ≤ c ∧ c ≤ 122) ∨ (48 ≤ c ∧ c ≤ 57)) ||
    (c ∈ ([33, 35, 36, 38, 39, 40, 41, 42, 43, 44, 45, 46, 47, 58, 59,
      61, 63, 64, 95, 126] : List Nat))

/-- The characters whose escapes `decodeURI` preserves: uriReserved ∪
"#", i.e. `;/?:@&=+$,#`. -/
def reservedURI (b : Nat) : Bool :=
  b ∈ ([35, 36, 38, 43, 44, 47, 58, 59, 61, 63, 64] : List Nat)

/-- Is `c` a high (leading) surrogate code unit? -/
def highSurrogate (c : Nat) : Bool :=
  decide (55296 ≤ c ∧ c ≤ 56319)

/-- Is `c` a low (trailing) surrogate code unit? -/
def lowSurrogate (c : Nat) : Bool :=
  decide (56320 ≤ c ∧ c ≤ 57343)

/-- JS `encodeURI`: unescaped characters pass through, other code
points are UTF-8 percent-escaped; surrogate pairs combine into one
code point and lone surrogates throw a URIError (`none`). -/
def jsEncodeURI : Str → Option Str
  | [] => some []
  | c :: rest =>
    if uriAllowed c then
      match jsEncodeURI rest with
      | none => none
      | some t => some (c :: t)
    else if highSurrogate c then
      match rest with
      | [] => none
      | d :: rest2 =>
        if lowSurrogate d then
          match jsEncodeURI rest2 with
          | none => none
          | some t =>
            some (escBytes
              (utf8Encode (65536 + (c - 55296) * 1024 + (d - 56320))) ++ t)
        else none
    else if lowSurrogate c then none
    else
      match jsEncodeURI rest with
      | none => none
      | some t => some (escBytes (utf8Encode c) ++ t)

/-- `.replace(/%20/g, " ")`: scan left to right, replacing every
non-overlapping occurrence of `%20` by a space. -/
def replacePct20 : Str → Str
  | [] => []
  | [c] => [c]
  | [c, d] => [c, d]
  | c :: d :: e :: rest =>
    if c = 37 ∧ d = 50 ∧ e = 48 then 32 :: replacePct20 rest
    else c :: replacePct20 (d :: e :: rest)

/-- Read one `%XX` escape from the front of a string. -/
def readByte : Str → Option (Nat × Str)
  | [] => none
  | [_] => none
  | [_, _] => none
  | c :: d1 :: d2 :: rest =>
    if c = 37 then
      match hexVal d1, hexVal d2 with
      | some h, some l => some (16 * h + l, rest)
      | _, _ => none
    else none

/-- JS `decodeURI` (fuel-indexed): percent-escapes are decoded as
strict UTF-8 (an illegal sequence throws, modeled as `none`), except
that escapes of the reserved characters are left intact; code points
above 0xFFFF come back as surrogate pairs; other characters pass
through. -/
def jsDecodeURIF : Nat → Str → Option Str
  | 0, _ => none
  | _ + 1, [] => some []
  | fuel + 1, c :: rest =>
    if c = 37 then
      match readByte (c :: rest) with
      | none => none
      | some (b, r1) =>
        if b < 128 then
          if reservedURI b then
            match jsDecodeURIF fuel r1 with
            | none => none
            | some t => some (37 :: rest.take 2 ++ t)
          else
            match jsDecodeURIF fuel r1 with
            | none => none
            | some t => some (b :: t)
        else if 194 ≤ b ∧ b ≤ 223 then
          match readByte r1 with
          | none => none
          | some (b2, r2) =>
            if 128 ≤ b2 ∧ b2 ≤ 191 then
              match jsDecodeURIF fuel r2 with
              | none => none
              | some t => some (((b - 192) * 64 + (b2 - 128)) :: t)
            else none
        else if 224 ≤ b ∧ b ≤ 239 then
          match readByte r1 with
          | none => none
          | some (b2, r2) =>
            match readByte r2 with
            | none => none
            | some (b3, r3) =>
              if ((b = 224 ∧ 160 ≤ b2 ∧ b2 ≤ 191) ∨
                  (225 ≤ b ∧ b ≤ 236 ∧ 128 ≤ b2 ∧ b2 ≤ 191) ∨
                  (b = 237 ∧ 128 ≤ b2 ∧ b2 ≤ 159) ∨
                  (238 ≤ b ∧ 128 ≤ b2 ∧ b2 ≤ 191)) ∧
                  128 ≤ b3 ∧ b3 ≤ 191 then
                match jsDecodeURIF fuel r3 with
                | none => none
                | some t =>
                  some (((b - 224) * 4096 + (b2 - 128) * 64 + (b3 - 128))
                    :: t)
              else none
        else if 240 ≤ b ∧ b ≤ 244 then
          match readByte r1 with
          | none => none
          | some (b2, r2) =>
            match readByte r2 with
            | none => none
            | some (b3, r3) =>
              match readByte r3 with
              | none => none
              | some (b4, r4) =>
                if ((b = 240 ∧ 144 ≤ b2 ∧ b2 ≤ 191) ∨
                    (241 ≤ b ∧ b ≤ 243 ∧ 128 ≤ b2 ∧ b2 ≤ 191) ∨
                    (b = 244 ∧ 128 ≤ b2 ∧ b2 ≤ 143)) ∧
                    128 ≤ b3 ∧ b3 ≤ 191 ∧ 128 ≤ b4 ∧ b4 ≤ 191 then
                  match jsDecodeURIF fuel r4 with
                  | none => none
                  | some t =>
                    some ((55296 +
                        ((b - 240) * 262144 + (b2 - 128) * 4096 +
                          (b3 - 128) * 64 + (b4 - 128) - 65536) / 1024)
                      :: (56320 +
                        ((b - 240) * 262144 + (b2 - 128) * 4096 +
                          (b3 - 128) * 64 + (b4 - 128) - 65536) % 1024)
                      :: t)
                else none
        else none
    else
      match jsDecodeURIF fuel rest with
      | none => none
      | some t => some (c :: t)

/-- JS `decodeURI` with adequate fuel. -/
def jsDecodeURI (s : Str) : Option Str :=
  jsDecodeURIF (s.length + 1) s

/-- Decimal digits of `n` (fuel-indexed division loop). -/
def natDigitsAux : Nat → Nat → Str
  | 0, _ => []
  | fuel + 1, n =>
    if n < 10 then [48 + n]
    else natDigitsAux fuel (n / 10) ++ [48 + n % 10]

/-- Decimal string of a natural number. -/
def natToStr (n : Nat) : Str :=
  natDigitsAux (n + 1) n

/-- Value of a string of decimal digit code units. -/
def digitsToNat (ds : Str) : Nat :=
  ds.foldl (fun acc c => 10 * acc + (c - 48)) 0

/-- The longest leading run of decimal digits, as a value (`none` if
there is none). -/
def digitsVal (s : Str) : Option Nat :=
  if s.takeWhile (fun c => decide (48 ≤ c ∧ c ≤ 57)) = [] then none
  else some (digitsToNat (s.takeWhile (fun c => decide (48 ≤ c ∧ c ≤ 57))))

/-- JS `parseInt(s, 10)`: skip leading whitespace, optional sign,
longest digit prefix; `none` models NaN. -/
def parseIntJS (s : Str) : Option Int :=
  if (s.dropWhile (fun c => isWhitespace c)).head? = some 45 then
    (digitsVal ((s.dropWhile (fun c => isWhitespace c)).drop 1)).map
      (fun n => -(n : Int))
  else if (s.dropWhile (fun c => isWhitespace c)).head? = some 43 then
    (digitsVal ((s.dropWhile (fun c => isWhitespace c)).drop 1)).map
      (fun n => (n : Int))
  else
    (digitsVal (s.dropWhile (fun c => isWhitespace c))).map
      (fun n => (n : Int))

/-- JS `delta.split(/\t/g)`. -/
def splitTab : Str → List Str
  | [] => [[]]
  | c :: rest =>
    if c = 9 then [] :: splitTab rest
    else (c :: (splitTab rest).headI) :: (splitTab rest).tail

/-- JS `tokens.join("\t")`. -/
def joinTab : List Str → Str
  | [] => []
  | [t] => t
  | t :: t2 :: ts => t ++ 9 :: joinTab (t2 :: ts)

/-- The per-diff tokens of `diff_toDelta` (`none` when `encodeURI`
throws on a lone surrogate). -/
def toDeltaTokens : Script → Option (List Str)
  | [] => some []
  | (op, s) :: rest =>
    match op with
    | Op.ins =>
      match jsEncodeURI s with
      | none => none
      | some e =>
        match toDeltaTokens rest with
        | none => none
        | some ts => some ((43 :: e) :: ts)
    | Op.del =>
      match toDeltaTokens rest with
      | none => none
      | some ts => some ((45 :: natToStr s.length) :: ts)
    | Op.eq =>
      match toDeltaTokens rest with
      | none => none
      | some ts => some ((61 :: natToStr s.length) :: ts)

/-- `diff_toDelta`: tab-join the tokens, then `%20` → space. -/
def diff_toDelta (diffs : Script) : Option Str :=
  match toDeltaTokens diffs with
  | none => none
  | some ts => some (replacePct20 (joinTab ts))

/-- The token loop of `diff_fromDelta`, threading the text1 cursor. -/
def fromDeltaLoop : List Str → Str → Nat → Except JsError Script
  | [], text1, pointer =>
    if pointer = text1.length then Except.ok []
    else Except.error JsError.deltaLengthMismatch
  | tok :: rest, text1, pointer =>
    if tok.head? = some 43 then
      match jsDecodeURI (tok.drop 1) with
      | none => Except.error JsError.invalidEscape
      | some txt =>
        match fromDeltaLoop rest text1 pointer with
        | Except.error e => Except.error e
        | Except.ok ds => Except.ok ((Op.ins, txt) :: ds)
    else if tok.head? = some 45 ∨ tok.head? = some 61 then
      match parseIntJS (tok.drop 1) with
      | none => Except.error JsError.invalidLength
      | some n =>
        if n < 0 then Except.error JsError.invalidLength
        else
          match fromDeltaLoop rest text1 (pointer + n.toNat) with
          | Except.error e => Except.error e
          | Except.ok ds =>
            Except.ok (((if tok.head? = some 61 then Op.eq else Op.del),
              jsSubstring text1 pointer (pointer + n.toNat)) :: ds)
    else if tok = [] then fromDeltaLoop rest text1 pointer
    else Except.error JsError.invalidOperation

/-- `diff_fromDelta`. -/
def diff_fromDelta (text1 delta : Str) : Except JsError Script :=
  fromDeltaLoop (splitTab delta) text1 0

theorem repl_cons_ne (c : Nat) (s : Str) (hc : c ≠ 37) :
    replacePct20 (c :: s) = c :: replacePct20 s := by
  match s with
  | [] => rfl
  | [d] => rfl
  | d :: e :: rest => simp [replacePct20, hc]

theorem repl_cons_pct (d e : Nat) (s : Str) (h : ¬(d = 50 ∧ e = 48)) :
    replacePct20 (37 :: d :: e :: s) = 37 :: replacePct20 (d :: e :: s) := by
  rw [show replacePct20 (37 :: d :: e :: s)
      = if (37 : Nat) = 37 ∧ d = 50 ∧ e = 48 then 32 :: replacePct20 s
        else 37 :: replacePct20 (d :: e :: s) from rfl,
    if_neg (by tauto)]

theorem repl_pct20 (s : Str) :
    replacePct20 (37 :: 50 :: 48 :: s) = 32 :: replacePct20 s := by
  rw [show replacePct20 (37 :: 50 :: 48 :: s)
      = if (37 : Nat) = 37 ∧ (50 : Nat) = 50 ∧ (48 : Nat) = 48 then
          32 :: replacePct20 s
        else 37 :: replacePct20 (50 :: 48 :: s) from rfl,
    if_pos (by omega)]

theorem repl_no37 : ∀ (t : Str), (∀ c ∈ t, c ≠ 37) → ∀ X,
    replacePct20 (t ++ X) = t ++ replacePct20 X := by
  intro t
  induction t with
  | nil => intro _ X; rfl
  | cons c t ih =>
    intro h X
    rw [List.cons_append, repl_cons_ne c _ (h c (by simp)),
      ih (fun x hx => h x (by simp [hx])) X, List.cons_append]

theorem hexDigit_ne37 (x : Nat) : hexDigit x ≠ 37 := by
  unfold hexDigit
  split <;> omega

theorem hexDigit_ne9 (x : Nat) : hexDigit x ≠ 9 := by
  unfold hexDigit
  split <;> omega

theorem hexVal_hexDigit (x : Nat) (hx : x < 16) :
    hexVal (hexDigit x) = some x := by
  unfold hexDigit hexVal
  split_ifs <;> first
  | (simp only [Option.some.injEq]; omega)
  | omega

theorem repl_byteEscape (b : Nat) (hb : b ≠ 32) (X : Str) :
    replacePct20 (byteEscape b ++ X) = byteEscape b ++ replacePct20 X := by
  unfold byteEscape
  rw [show ([37, hexDigit (b / 16), hexDigit (b % 16)] : Str) ++ X
      = 37 :: hexDigit (b / 16) :: hexDigit (b % 16) :: X from rfl,
    repl_cons_pct _ _ _ ?_,
    repl_cons_ne _ _ (hexDigit_ne37 _), repl_cons_ne _ _ (hexDigit_ne37 _)]
  · rfl
  · rintro ⟨h1, h2⟩
    unfold hexDigit at h1 h2
    split_ifs at h1 h2 <;> omega

theorem readByte_esc (b : Nat) (hb : b < 256) (r : Str) :
    readByte (byteEscape b ++ r) = some (b, r) := by
  unfold byteEscape
  rw [show ([37, hexDigit (b / 16), hexDigit (b % 16)] : Str) ++ r
      = 37 :: hexDigit (b / 16) :: hexDigit (b % 16) :: r from rfl]
  rw [show readByte (37 :: hexDigit (b / 16) :: hexDigit (b % 16) :: r)
      = if (37 : Nat) = 37 then
          match hexVal (hexDigit (b / 16)), hexVal (hexDigit (b % 16)) with
          | some h, some l => some (16 * h + l, r)
          | _, _ => none
        else none from rfl,
    if_pos rfl, hexVal_hexDigit _ (by omega), hexVal_hexDigit _ (by omega)]
  simp only [Option.some.injEq, Prod.mk.injEq]
  exact ⟨by omega, trivial⟩

theorem dec_char (f : Nat) (c : Nat) (hc : c ≠ 37) (T : Str) :
    jsDecodeURIF (f + 1) (c :: T)
      = (jsDecodeURIF f T).map (fun u => c :: u) := by
  rw [jsDecodeURIF, if_neg hc]
  cases jsDecodeURIF f T <;> rfl

theorem dec_byte1 (f b : Nat) (hb : b < 128) (hres : reservedURI b = false)
    (T : Str) :
    jsDecodeURIF (f + 1) (byteEscape b ++ T)
      = (jsDecodeURIF f T).map (fun u => b :: u) := by
  have hrb : readByte (byteEscape b ++ T) = some (b, T) :=
    readByte_esc b (by omega) T
  rw [show byteEscape b ++ T
      = 37 :: hexDigit (b / 16) :: hexDigit (b % 16) :: T from rfl] at hrb ⊢
  rw [jsDecodeURIF, if_pos rfl, hrb]
  simp only [hb, if_true, hres, Bool.false_eq_true, if_false]
  rcases hT : jsDecodeURIF f T with _ | u <;> rfl

theorem dec_cp2 (f cp : Nat) (h1 : 128 ≤ cp) (h2 : cp < 2048) (T : Str) :
    jsDecodeURIF (f + 1) (escBytes (utf8Encode cp) ++ T)
      = (jsDecodeURIF f T).map (fun u => cp :: u) := by
  have he : escBytes (utf8Encode cp)
      = byteEscape (192 + cp / 64) ++ byteEscape (128 + cp % 64) := by
    unfold utf8Encode
    rw [if_neg (by omega), if_pos (by omega)]
    simp [escBytes]
  rw [he, List.append_assoc]
  have hrb1 : readByte (byteEscape (192 + cp / 64)
        ++ (byteEscape (128 + cp % 64) ++ T))
      = some (192 + cp / 64, byteEscape (128 + cp % 64) ++ T) :=
    readByte_esc _ (by omega) _
  have hrb2 : readByte (byteEscape (128 + cp % 64) ++ T)
      = some (128 + cp % 64, T) :=
    readByte_esc _ (by omega) _
  rw [show byteEscape (192 + cp / 64) ++ (byteEscape (128 + cp % 64) ++ T)
      = 37 :: hexDigit ((192 + cp / 64) / 16)
        :: hexDigit ((192 + cp / 64) % 16)
        :: (byteEscape (128 + cp % 64) ++ T) from rfl] at hrb1 ⊢
  rw [jsDecodeURIF, if_pos rfl, hrb1]
  have hA : ¬(192 + cp / 64 < 128) := by omega
  have hB1 : 194 ≤ 192 + cp / 64 := by omega
  have hB2 : 192 + cp / 64 ≤ 223 := by omega
  have hC1 : 128 ≤ 128 + cp % 64 := by omega
  have hC2 : 128 + cp % 64 ≤ 191 := by omega
  simp only [hA, if_false, hB1, hB2, and_self, and_true, true_and, if_true,
    hrb2, hC1, hC2]
  have hv : (192 + cp / 64 - 192) * 64 + (128 + cp % 64 - 128) = cp := by
    omega
  rw [hv]
  rcases hT : jsDecodeURIF f T with _ | u <;> rfl

theorem dec_cp3 (f cp : Nat) (h1 : 2048 ≤ cp) (h2 : cp < 65536)
    (hsur : ¬(55296 ≤ cp ∧ cp ≤ 57343)) (T : Str) :
    jsDecodeURIF (f + 1) (escBytes (utf8Encode cp) ++ T)
      = (jsDecodeURIF f T).map (fun u => cp :: u) := by
  have he : escBytes (utf8Encode cp)
      = byteEscape (224 + cp / 4096) ++ byteEscape (128 + cp / 64 % 64)
        ++ byteEscape (128 + cp % 64) := by
    unfold utf8Encode
    rw [if_neg (by omega), if_neg (by omega), if_pos (by omega)]
    simp [escBytes]
  rw [he, List.append_assoc, List.append_assoc]
  have hrb1 : readByte (byteEscape (224 + cp / 4096)
        ++ (byteEscape (128 + cp / 64 % 64)
          ++ (byteEscape (128 + cp % 64) ++ T)))
      = some (224 + cp / 4096,
          byteEscape (128 + cp / 64 % 64) ++ (byteEscape (128 + cp % 64) ++ T)) :=
    readByte_esc _ (by omega) _
  have hrb2 : readByte (byteEscape (128 + cp / 64 % 64)
        ++ (byteEscape (128 + cp % 64) ++ T))
      = some (128 + cp / 64 % 64, byteEscape (128 + cp % 64) ++ T) :=
    readByte_esc _ (by omega) _
  have hrb3 : readByte (byteEscape (128 + cp % 64) ++ T)
      = some (128 + cp % 64, T) :=
    readByte_esc _ (by omega) _
  rw [show byteEscape (224 + cp / 4096)
        ++ (byteEscape (128 + cp / 64 % 64)
          ++ (byteEscape (128 + cp % 64) ++ T))
      = 37 :: hexDigit ((224 + cp / 4096) / 16)
        :: hexDigit ((224 + cp / 4096) % 16)
        :: (byteEscape (128 + cp / 64 % 64)
          ++ (byteEscape (128 + cp % 64) ++ T)) from rfl] at hrb1 ⊢
  rw [jsDecodeURIF, if_pos rfl, hrb1]
  have hA : ¬(224 + cp / 4096 < 128) := by omega
  have hB : ¬(194 ≤ 224 + cp / 4096 ∧ 224 + cp / 4096 ≤ 223) := by omega
  have hC1 : 224 ≤ 224 + cp / 4096 := by omega
  have hC2 : 224 + cp / 4096 ≤ 239 := by omega
  have hcond : ((224 + cp / 4096 = 224 ∧ 160 ≤ 128 + cp / 64 % 64
        ∧ 128 + cp / 64 % 64 ≤ 191) ∨
      (225 ≤ 224 + cp / 4096 ∧ 224 + cp / 4096 ≤ 236
        ∧ 128 ≤ 128 + cp / 64 % 64 ∧ 128 + cp / 64 % 64 ≤ 191) ∨
      (224 + cp / 4096 = 237 ∧ 128 ≤ 128 + cp / 64 % 64
        ∧ 128 + cp / 64 % 64 ≤ 159) ∨
      (238 ≤ 224 + cp / 4096 ∧ 128 ≤ 128 + cp / 64 % 64
        ∧ 128 + cp / 64 % 64 ≤ 191)) ∧
      128 ≤ 128 + cp % 64 ∧ 128 + cp % 64 ≤ 191 := by
    omega
  simp only [hA, if_false, hB, hC1, hC2, and_self, and_true, true_and,
    if_true, hrb2, hrb3, hcond]
  have hv : (224 + cp / 4096 - 224) * 4096 + (128 + cp / 64 % 64 - 128) * 64
      + (128 + cp % 64 - 128) = cp := by
    omega
  rw [hv]
  rcases hT : jsDecodeURIF f T with _ | u <;> rfl

theorem dec_cp4 (f cp : Nat) (h1 : 65536 ≤ cp) (h2 : cp ≤ 1114111) (T : Str) :
    jsDecodeURIF (f + 1) (escBytes (utf8Encode cp) ++ T)
      = (jsDecodeURIF f T).map
          (fun u => (55296 + (cp - 65536) / 1024)
            :: (56320 + (cp - 65536) % 1024) :: u) := by
  have he : escBytes (utf8Encode cp)
      = byteEscape (240 + cp / 262144) ++ byteEscape (128 + cp / 4096 % 64)
        ++ byteEscape (128 + cp / 64 % 64) ++ byteEscape (128 + cp % 64) := by
    unfold utf8Encode
    rw [if_neg (by omega), if_neg (by omega), if_neg (by omega)]
    simp [escBytes]
  rw [he, List.append_assoc, List.append_assoc, List.append_assoc]
  have hrb1 : readByte (byteEscape (240 + cp / 262144)
        ++ (byteEscape (128 + cp / 4096 % 64)
          ++ (byteEscape (128 + cp / 64 % 64)
            ++ (byteEscape (128 + cp % 64) ++ T))))
      = some (240 + cp / 262144,
          byteEscape (128 + cp / 4096 % 64)
            ++ (byteEscape (128 + cp / 64 % 64)
              ++ (byteEscape (128 + cp % 64) ++ T))) :=
    readByte_esc _ (by omega) _
  have hrb2 : readByte (byteEscape (128 + cp / 4096 % 64)
        ++ (byteEscape (128 + cp / 64 % 64)
          ++ (byteEscape (128 + cp % 64) ++ T)))
      = some (128 + cp / 4096 % 64,
          byteEscape (128 + cp / 64 % 64) ++ (byteEscape (128 + cp % 64) ++ T)) :=
    readByte_esc _ (by omega) _
  have hrb3 : readByte (byteEscape (128 + cp / 64 % 64)
        ++ (byteEscape (128 + cp % 64) ++ T))
      = some (128 + cp / 64 % 64, byteEscape (128 + cp % 64) ++ T) :=
    readByte_esc _ (by omega) _
  have hrb4 : readByte (byteEscape (128 + cp % 64) ++ T)
      = some (128 + cp % 64, T) :=
    readByte_esc _ (by omega) _
  rw [show byteEscape (240 + cp / 262144)
        ++ (byteEscape (128 + cp / 4096 % 64)
          ++ (byteEscape (128 + cp / 64 % 64)
            ++ (byteEscape (128 + cp % 64) ++ T)))
      = 37 :: hexDigit ((240 + cp / 262144) / 16)
        :: hexDigit ((240 + cp / 262144) % 16)
        :: (byteEscape (128 + cp / 4096 % 64)
          ++ (byteEscape (128 + cp / 64 % 64)
            ++ (byteEscape (128 + cp % 64) ++ T))) from rfl] at hrb1 ⊢
  rw [jsDecodeURIF, if_pos rfl, hrb1]
  have hA : ¬(240 + cp / 262144 < 128) := by omega
  have hB : ¬(194 ≤ 240 + cp / 262144 ∧ 240 + cp / 262144 ≤ 223) := by omega
  have hC : ¬(224 ≤ 240 + cp / 262144 ∧ 240 + cp / 262144 ≤ 239) := by omega
  have hD1 : 240 ≤ 240 + cp / 262144 := by omega
  have hD2 : 240 + cp / 262144 ≤ 244 := by omega
  have hcond : ((240 + cp / 262144 = 240 ∧ 144 ≤ 128 + cp / 4096 % 64
        ∧ 128 + cp / 4096 % 64 ≤ 191) ∨
      (241 ≤ 240 + cp / 262144 ∧ 240 + cp / 262144 ≤ 243
        ∧ 128 ≤ 128 + cp / 4096 % 64 ∧ 128 + cp / 4096 % 64 ≤ 191) ∨
      (240 + cp / 262144 = 244 ∧ 128 ≤ 128 + cp / 4096 % 64
        ∧ 128 + cp / 4096 % 64 ≤ 143)) ∧
      (128 ≤ 128 + cp / 64 % 64 ∧ 128 + cp / 64 % 64 ≤ 191) ∧
      128 ≤ 128 + cp % 64 ∧ 128 + cp % 64 ≤ 191 := by
    omega
  simp only [hA, if_false, hB, hC, hD1, hD2, and_self, and_true, true_and,
    if_true, hrb2, hrb3, hrb4, hcond]
  have hv : (240 + cp / 262144 - 240) * 262144 + (128 + cp / 4096 % 64 - 128)
      * 4096 + (128 + cp / 64 % 64 - 128) * 64 + (128 + cp % 64 - 128)
      = cp := by
    omega
  rw [hv]
  rcases hT : jsDecodeURIF f T with _ | u <;> rfl

theorem dec_mono : ∀ f s out, jsDecodeURIF f s = some out →
    jsDecodeURIF (f + 1) s = some out := by
  intro f
  induction f with
  | zero => intro s out h; simp [jsDecodeURIF] at h
  | succ g ih =>
    intro s out h
    cases s with
    | nil => exact h
    | cons c rest =>
      by_cases hc : c = 37
      · subst hc
        rw [jsDecodeURIF, if_pos rfl] at h ⊢
        rcases hrb : readByte (37 :: rest) with _ | ⟨b, r1⟩
        · rw [hrb] at h
          simp at h
        simp only [hrb] at h ⊢
        by_cases hb1 : b < 128
        · simp only [hb1, if_true] at h ⊢
          by_cases hbr : reservedURI b = true
          · simp only [hbr, if_true] at h ⊢
            rcases hr : jsDecodeURIF g r1 with _ | t
            · rw [hr] at h
              simp at h
            rw [hr] at h
            rw [ih _ _ hr]
            exact h
          · simp only [Bool.not_eq_true] at hbr
            simp only [hbr, Bool.false_eq_true, if_false] at h ⊢
            rcases hr : jsDecodeURIF g r1 with _ | t
            · rw [hr] at h
              simp at h
            rw [hr] at h
            rw [ih _ _ hr]
            exact h
        · simp only [hb1, if_false] at h ⊢
          by_cases hb2 : 194 ≤ b ∧ b ≤ 223
          · simp only [hb2, if_true] at h ⊢
            rcases hrb2 : readByte r1 with _ | ⟨b2, r2⟩
            · rw [hrb2] at h
              simp at h
            simp only [hrb2] at h ⊢
            by_cases hc2 : 128 ≤ b2 ∧ b2 ≤ 191
            · simp only [hc2, if_true] at h ⊢
              rcases hr : jsDecodeURIF g r2 with _ | t
              · rw [hr] at h
                simp at h
              rw [hr] at h
              rw [ih _ _ hr]
              exact h
            · rw [if_neg hc2] at h
              simp at h
          · simp only [hb2, if_false] at h ⊢
            by_cases hb3 : 224 ≤ b ∧ b ≤ 239
            · simp only [hb3, if_true] at h ⊢
              rcases hrb2 : readByte r1 with _ | ⟨b2, r2⟩
              · rw [hrb2] at h
                simp at h
              simp only [hrb2] at h ⊢
              rcases hrb3 : readByte r2 with _ | ⟨b3, r3⟩
              · rw [hrb3] at h
                simp at h
              simp only [hrb3] at h ⊢
              by_cases hcnd : ((b = 224 ∧ 160 ≤ b2 ∧ b2 ≤ 191) ∨
                  (225 ≤ b ∧ b ≤ 236 ∧ 128 ≤ b2 ∧ b2 ≤ 191) ∨
                  (b = 237 ∧ 128 ≤ b2 ∧ b2 ≤ 159) ∨
                  (238 ≤ b ∧ 128 ≤ b2 ∧ b2 ≤ 191)) ∧
                  128 ≤ b3 ∧ b3 ≤ 191
              · rw [if_pos hcnd] at h ⊢
                rcases hr : jsDecodeURIF g r3 with _ | t
                · rw [hr] at h
                  simp at h
                rw [hr] at h
                rw [ih _ _ hr]
                exact h
              · rw [if_neg hcnd] at h
                simp at h
            · simp only [hb3, if_false] at h ⊢
              by_cases hb4 : 240 ≤ b ∧ b ≤ 244
              · simp only [hb4, if_true] at h ⊢
                rcases hrb2 : readByte r1 with _ | ⟨b2, r2⟩
                · rw [hrb2] at h
                  simp at h
                simp only [hrb2] at h ⊢
                rcases hrb3 : readByte r2 with _ | ⟨b3, r3⟩
                · rw [hrb3] at h
                  simp at h
                simp only [hrb3] at h ⊢
                rcases hrb4 : readByte r3 with _ | ⟨b4, r4⟩
                · rw [hrb4] at h
                  simp at h
                simp only [hrb4] at h ⊢
                by_cases hcnd : ((b = 240 ∧ 144 ≤ b2 ∧ b2 ≤ 191) ∨
                    (241 ≤ b ∧ b ≤ 243 ∧ 128 ≤ b2 ∧ b2 ≤ 191) ∨
                    (b = 244 ∧ 128 ≤ b2 ∧ b2 ≤ 143)) ∧
                    128 ≤ b3 ∧ b3 ≤ 191 ∧ 128 ≤ b4 ∧ b4 ≤ 191
                · rw [if_pos hcnd] at h ⊢
                  rcases hr : jsDecodeURIF g r4 with _ | t
                  · rw [hr] at h
                    simp at h
                  rw [hr] at h
                  rw [ih _ _ hr]
                  exact h
                · rw [if_neg hcnd] at h
                  simp at h
              · simp only [hb4, if_false] at h
                simp at h
      · rw [jsDecodeURIF, if_neg hc] at h ⊢
        rcases hr : jsDecodeURIF g rest with _ | t
        · rw [hr] at h
          simp at h
        rw [hr] at h
        rw [ih _ _ hr]
        exact h

theorem dec_mono_le (f f2 : Nat) (s : Str) (out : Str)
    (h : jsDecodeURIF f s = some out) (hle : f ≤ f2) :
    jsDecodeURIF f2 s = some out := by
  obtain ⟨k, rfl⟩ : ∃ k, f2 = f + k := ⟨f2 - f, by omega⟩
  clear hle
  induction k with
  | zero => exact h
  | succ k ihk => exact dec_mono _ _ _ ihk

theorem allowed_ne37 (c : Nat) (h : uriAllowed c = true) : c ≠ 37 := by
  intro hc
  subst hc
  exact absurd h (by decide)

theorem allowed_ne9 (c : Nat) (h : uriAllowed c = true) : c ≠ 9 := by
  intro hc
  subst hc
  exact absurd h (by decide)

theorem reserved_imp_allowed (b : Nat) (h : reservedURI b = true) :
    uriAllowed b = true := by
  simp only [reservedURI, List.mem_cons, List.not_mem_nil, or_false,
    decide_eq_true_eq] at h
  rcases h with rfl | rfl | rfl | rfl | rfl | rfl | rfl | rfl | rfl | rfl
    | rfl <;> decide

theorem escBytes_cons (b : Nat) (bs : List Nat) :
    escBytes (b :: bs) = byteEscape b ++ escBytes bs := by
  simp [escBytes]

theorem repl_escBytes : ∀ (bs : List Nat), (∀ b ∈ bs, b ≠ 32) → ∀ X,
    replacePct20 (escBytes bs ++ X) = escBytes bs ++ replacePct20 X := by
  intro bs
  induction bs with
  | nil => intro _ X; rfl
  | cons b bs ih =>
    intro h X
    rw [escBytes_cons, List.append_assoc,
      repl_byteEscape b (h b (by simp)) _,
      ih (fun x hx => h x (by simp [hx])) X, List.append_assoc]

theorem escBytes_ne9 : ∀ (bs : List Nat), ∀ x ∈ escBytes bs, x ≠ 9 := by
  intro bs
  induction bs with
  | nil => intro x hx; simp [escBytes] at hx
  | cons b bs ih =>
    intro x hx
    rw [escBytes_cons] at hx
    rcases List.mem_append.mp hx with hx | hx
    · unfold byteEscape at hx
      simp only [List.mem_cons, List.not_mem_nil, or_false] at hx
      rcases hx with rfl | rfl | rfl
      · omega
      · exact hexDigit_ne9 _
      · exact hexDigit_ne9 _
    · exact ih x hx

theorem escBytes_length (bs : List Nat) :
    (escBytes bs).length = 3 * bs.length := by
  induction bs with
  | nil => rfl
  | cons b bs ih => rw [escBytes_cons]; simp [byteEscape, ih]; omega

theorem utf8Encode_pos (cp : Nat) : 0 < (utf8Encode cp).length := by
  unfold utf8Encode
  split_ifs <;> simp

theorem utf8_bytes_ne32 (cp : Nat) (h : 128 ≤ cp) :
    ∀ b ∈ utf8Encode cp, b ≠ 32 := by
  unfold utf8Encode
  rw [if_neg (by omega)]
  split_ifs <;> intro b hb <;>
    simp only [List.mem_cons, List.not_mem_nil, or_false] at hb <;>
    omega

theorem encode_allowed (c : Nat) (s0 : Str) (ha : uriAllowed c = true) :
    jsEncodeURI (c :: s0) = (jsEncodeURI s0).map (fun t => c :: t) := by
  cases s0 with
  | nil =>
    show (if uriAllowed c = true then
        match jsEncodeURI ([] : Str) with
        | none => none
        | some t => some (c :: t)
      else if highSurrogate c = true then none
      else if lowSurrogate c = true then none
      else match jsEncodeURI ([] : Str) with
        | none => none
        | some t => some (escBytes (utf8Encode c) ++ t)) = _
    rw [if_pos ha]
    rfl
  | cons d s1 =>
    show (if uriAllowed c = true then
        match jsEncodeURI (d :: s1) with
        | none => none
        | some t => some (c :: t)
      else if highSurrogate c = true then
        (if lowSurrogate d = true then
          match jsEncodeURI s1 with
          | none => none
          | some t => some (escBytes
              (utf8Encode (65536 + (c - 55296) * 1024 + (d - 56320))) ++ t)
        else none)
      else if lowSurrogate c = true then none
      else match jsEncodeURI (d :: s1) with
        | none => none
        | some t => some (escBytes (utf8Encode c) ++ t)) = _
    rw [if_pos ha]
    cases jsEncodeURI (d :: s1) <;> rfl

theorem encode_esc (c : Nat) (s0 : Str) (ha : ¬ uriAllowed c = true)
    (hh : ¬ highSurrogate c = true) (hl : ¬ lowSurrogate c = true) :
    jsEncodeURI (c :: s0)
      = (jsEncodeURI s0).map (fun t => escBytes (utf8Encode c) ++ t) := by
  cases s0 with
  | nil =>
    show (if uriAllowed c = true then
        match jsEncodeURI ([] : Str) with
        | none => none
        | some t => some (c :: t)
      else if highSurrogate c = true then none
      else if lowSurrogate c = true then none
      else match jsEncodeURI ([] : Str) with
        | none => none
        | some t => some (escBytes (utf8Encode c) ++ t)) = _
    rw [if_neg ha, if_neg hh, if_neg hl]
    rfl
  | cons d s1 =>
    show (if uriAllowed c = true then
        match jsEncodeURI (d :: s1) with
        | none => none
        | some t => some (c :: t)
      else if highSurrogate c = true then
        (if lowSurrogate d = true then
          match jsEncodeURI s1 with
          | none => none
          | some t => some (escBytes
              (utf8Encode (65536 + (c - 55296) * 1024 + (d - 56320))) ++ t)
        else none)
      else if lowSurrogate c = true then none
      else match jsEncodeURI (d :: s1) with
        | none => none
        | some t => some (escBytes (utf8Encode c) ++ t)) = _
    rw [if_neg ha, if_neg hh, if_neg hl]
    cases jsEncodeURI (d :: s1) <;> rfl

theorem encode_pair (c d : Nat) (s1 : Str) (ha : ¬ uriAllowed c = true)
    (hh : highSurrogate c = true) (hl : lowSurrogate d = true) :
    jsEncodeURI (c :: d :: s1)
      = (jsEncodeURI s1).map (fun t => escBytes
          (utf8Encode (65536 + (c - 55296) * 1024 + (d - 56320))) ++ t) := by
  show (if uriAllowed c = true then
      match jsEncodeURI (d :: s1) with
      | none => none
      | some t => some (c :: t)
    else if highSurrogate c = true then
      (if lowSurrogate d = true then
        match jsEncodeURI s1 with
        | none => none
        | some t => some (escBytes
            (utf8Encode (65536 + (c - 55296) * 1024 + (d - 56320))) ++ t)
      else none)
    else if lowSurrogate c = true then none
    else match jsEncodeURI (d :: s1) with
      | none => none
      | some t => some (escBytes (utf8Encode c) ++ t)) = _
  rw [if_neg ha, if_pos hh, if_pos hl]
  cases jsEncodeURI s1 <;> rfl

theorem encode_high_nil (c : Nat) (ha : ¬ uriAllowed c = true)
    (hh : highSurrogate c = true) :
    jsEncodeURI [c] = none := by
  show (if uriAllowed c = true then
      match jsEncodeURI ([] : Str) with
      | none => none
      | some t => some (c :: t)
    else if highSurrogate c = true then none
    else if lowSurrogate c = true then none
    else match jsEncodeURI ([] : Str) with
      | none => none
      | some t => some (escBytes (utf8Encode c) ++ t)) = _
  rw [if_neg ha, if_pos hh]

theorem encode_high_badlow (c d : Nat) (s1 : Str) (ha : ¬ uriAllowed c = true)
    (hh : highSurrogate c = true) (hl : ¬ lowSurrogate d = true) :
    jsEncodeURI (c :: d :: s1) = none := by
  show (if uriAllowed c = true then
      match jsEncodeURI (d :: s1) with
      | none => none
      | some t => some (c :: t)
    else if highSurrogate c = true then
      (if lowSurrogate d = true then
        match jsEncodeURI s1 with
        | none => none
        | some t => some (escBytes
            (utf8Encode (65536 + (c - 55296) * 1024 + (d - 56320))) ++ t)
      else none)
    else if lowSurrogate c = true then none
    else match jsEncodeURI (d :: s1) with
      | none => none
      | some t => some (escBytes (utf8Encode c) ++ t)) = _
  rw [if_neg ha, if_pos hh, if_neg hl]

theorem encode_lonelow (c : Nat) (s0 : Str) (ha : ¬ uriAllowed c = true)
    (hh : ¬ highSurrogate c = true) (hl : lowSurrogate c = true) :
    jsEncodeURI (c :: s0) = none := by
  cases s0 with
  | nil =>
    show (if uriAllowed c = true then
        match jsEncodeURI ([] : Str) with
        | none => none
        | some t => some (c :: t)
      else if highSurrogate c = true then none
      else if lowSurrogate c = true then none
      else match jsEncodeURI ([] : Str) with
        | none => none
        | some t => some (escBytes (utf8Encode c) ++ t)) = _
    rw [if_neg ha, if_neg hh, if_pos hl]
  | cons d s1 =>
    show (if uriAllowed c = true then
        match jsEncodeURI (d :: s1) with
        | none => none
        | some t => some (c :: t)
      else if highSurrogate c = true then
        (if lowSurrogate d = true then
          match jsEncodeURI s1 with
          | none => none
          | some t => some (escBytes
              (utf8Encode (65536 + (c - 55296) * 1024 + (d - 56320))) ++ t)
        else none)
      else if lowSurrogate c = true then none
      else match jsEncodeURI (d :: s1) with
        | none => none
        | some t => some (escBytes (utf8Encode c) ++ t)) = _
    rw [if_neg ha, if_neg hh, if_pos hl]

/-- The master lemma behind the delta round trip: a successful
`encodeURI` output, after the `%20` → space replacement, is tab-free,
no shorter than the input, the replacement acts on it locally, and
`decodeURI` (at any adequate fuel) maps it back to the input. -/
theorem encMaster : ∀ N s, s.length ≤ N → (∀ u ∈ s, u < 65536) →
    ∀ e, jsEncodeURI s = some e →
    ∃ w : Str,
      (∀ X, replacePct20 (e ++ X) = w ++ replacePct20 X) ∧
      (∀ c ∈ w, c ≠ 9) ∧
      s.length ≤ w.length ∧
      (∀ f t out, jsDecodeURIF f t = some out →
        jsDecodeURIF (f + s.length) (w ++ t) = some (s ++ out)) := by
  intro N
  induction N with
  | zero =>
    intro s hN hu e h
    have hs : s = [] := by cases s <;> simp_all
    subst hs
    replace h : some [] = some e := h
    simp only [Option.some.injEq] at h
    subst h
    exact ⟨[], fun X => rfl, by simp, by simp,
      fun f t out ht => by simpa using ht⟩
  | succ N ihN =>
    intro s hN hu e h
    cases s with
    | nil =>
      replace h : some [] = some e := h
      simp only [Option.some.injEq] at h
      subst h
      exact ⟨[], fun X => rfl, by simp, by simp,
        fun f t out ht => by simpa using ht⟩
    | cons c s0 =>
      by_cases ha : uriAllowed c = true
      · rw [encode_allowed c s0 ha] at h
        rcases he0 : jsEncodeURI s0 with _ | e0
        · rw [he0] at h
          simp at h
        rw [he0] at h
        simp only [Option.map_some', Option.some.injEq] at h
        subst h
        obtain ⟨w0, hdist, h9, hlen, hdec⟩ := ihN s0 (by simp at hN ⊢; omega)
          (fun u hu2 => hu u (by simp [hu2])) e0 he0
        refine ⟨c :: w0, ?_, ?_, ?_, ?_⟩
        · intro X
          rw [List.cons_append, repl_cons_ne c _ (allowed_ne37 _ ha), hdist X,
            List.cons_append]
        · intro x hx
          rcases List.mem_cons.mp hx with rfl | hx
          · exact allowed_ne9 _ ha
          · exact h9 x hx
        · simp only [List.length_cons]
          omega
        · intro f t out ht
          have h2 := dec_char (f + s0.length) c (allowed_ne37 _ ha) (w0 ++ t)
          show jsDecodeURIF (f + s0.length + 1) (c :: (w0 ++ t))
            = some (c :: (s0 ++ out))
          rw [h2, hdec f t out ht]
          rfl
      · by_cases hhs : highSurrogate c = true
        · cases s0 with
          | nil =>
            rw [encode_high_nil c ha hhs] at h
            simp at h
          | cons d s1 =>
            by_cases hls : lowSurrogate d = true
            · rw [encode_pair c d s1 ha hhs hls] at h
              rcases he1 : jsEncodeURI s1 with _ | e1
              · rw [he1] at h
                simp at h
              rw [he1] at h
              simp only [Option.map_some', Option.some.injEq] at h
              subst h
              simp only [highSurrogate, decide_eq_true_eq] at hhs
              simp only [lowSurrogate, decide_eq_true_eq] at hls
              obtain ⟨w1, hdist, h9, hlen, hdec⟩ := ihN s1
                (by simp at hN ⊢; omega)
                (fun u hu2 => hu u (by simp [hu2])) e1 he1
              have hcp1 : 65536 ≤ 65536 + (c - 55296) * 1024 + (d - 56320) := by
                omega
              have hcp2 : 65536 + (c - 55296) * 1024 + (d - 56320)
                  ≤ 1114111 := by
                omega
              refine ⟨escBytes (utf8Encode
                  (65536 + (c - 55296) * 1024 + (d - 56320))) ++ w1,
                ?_, ?_, ?_, ?_⟩
              · intro X
                rw [List.append_assoc,
                  repl_escBytes _ (utf8_bytes_ne32 _ (by omega)) _,
                  hdist X, List.append_assoc]
              · intro x hx
                rcases List.mem_append.mp hx with hx | hx
                · exact escBytes_ne9 _ x hx
                · exact h9 x hx
              · have := escBytes_length (utf8Encode
                  (65536 + (c - 55296) * 1024 + (d - 56320)))
                have := utf8Encode_pos
                  (65536 + (c - 55296) * 1024 + (d - 56320))
                simp only [List.length_cons, List.length_append]
                omega
              · intro f t out ht
                have h2 := dec_cp4 (f + s1.length + 1) _ hcp1 hcp2 (w1 ++ t)
                rw [List.append_assoc]
                show jsDecodeURIF (f + s1.length + 1 + 1)
                  (escBytes (utf8Encode
                    (65536 + (c - 55296) * 1024 + (d - 56320))) ++ (w1 ++ t))
                  = some (c :: d :: (s1 ++ out))
                rw [h2, dec_mono _ _ _ (hdec f t out ht)]
                simp only [Option.map_some']
                rw [show 55296 + (65536 + (c - 55296) * 1024 + (d - 56320)
                      - 65536) / 1024 = c from by omega,
                  show 56320 + (65536 + (c - 55296) * 1024 + (d - 56320)
                      - 65536) % 1024 = d from by omega]
            · rw [encode_high_badlow c d s1 ha hhs hls] at h
              simp at h
        · by_cases hlsc : lowSurrogate c = true
          · rw [encode_lonelow c s0 ha hhs hlsc] at h
            simp at h
          · rw [encode_esc c s0 ha hhs hlsc] at h
            rcases he0 : jsEncodeURI s0 with _ | e0
            · rw [he0] at h
              simp at h
            rw [he0] at h
            simp only [Option.map_some', Option.some.injEq] at h
            subst h
            simp only [highSurrogate, decide_eq_true_eq] at hhs
            simp only [lowSurrogate, decide_eq_true_eq] at hlsc
            have hc16 : c < 65536 := hu c (by simp)
            obtain ⟨w0, hdist, h9, hlen, hdec⟩ := ihN s0
              (by simp at hN ⊢; omega)
              (fun u hu2 => hu u (by simp [hu2])) e0 he0
            by_cases hsmall : c < 128
            · by_cases hsp : c = 32
              · subst hsp
                refine ⟨32 :: w0, ?_, ?_, ?_, ?_⟩
                · intro X
                  rw [show escBytes (utf8Encode 32) ++ e0 ++ X
                      = 37 :: 50 :: 48 :: (e0 ++ X) from rfl,
                    repl_pct20, hdist X, List.cons_append]
                · intro x hx
                  rcases List.mem_cons.mp hx with rfl | hx
                  · omega
                  · exact h9 x hx
                · simp only [List.length_cons]
                  omega
                · intro f t out ht
                  have h2 := dec_char (f + s0.length) 32 (by omega) (w0 ++ t)
                  show jsDecodeURIF (f + s0.length + 1) (32 :: (w0 ++ t))
                    = some (32 :: (s0 ++ out))
                  rw [h2, hdec f t out ht]
                  rfl
              · have hres : reservedURI c = false := by
                  rcases hx : reservedURI c with _ | _
                  · rfl
                  · exact absurd (reserved_imp_allowed _ hx) ha
                have hesc : escBytes (utf8Encode c) = byteEscape c := by
                  unfold utf8Encode
                  rw [if_pos hsmall]
                  simp [escBytes]
                refine ⟨byteEscape c ++ w0, ?_, ?_, ?_, ?_⟩
                · intro X
                  rw [hesc, List.append_assoc, repl_byteEscape c hsp _,
                    hdist X, List.append_assoc]
                · intro x hx
                  rcases List.mem_append.mp hx with hx | hx
                  · exact escBytes_ne9 [c] x (by
                      rw [show escBytes [c] = byteEscape c ++ [] by
                        simp [escBytes]]
                      simpa using hx)
                  · exact h9 x hx
                · simp only [List.length_cons, List.length_append, byteEscape,
                    List.length_nil]
                  omega
                · intro f t out ht
                  have h2 := dec_byte1 (f + s0.length) c hsmall hres (w0 ++ t)
                  rw [List.append_assoc]
                  show jsDecodeURIF (f + s0.length + 1)
                    (byteEscape c ++ (w0 ++ t)) = some (c :: (s0 ++ out))
                  rw [h2, hdec f t out ht]
                  rfl
            · by_cases hmed : c < 2048
              · refine ⟨escBytes (utf8Encode c) ++ w0, ?_, ?_, ?_, ?_⟩
                · intro X
                  rw [List.append_assoc,
                    repl_escBytes _ (utf8_bytes_ne32 _ (by omega)) _,
                    hdist X, List.append_assoc]
                · intro x hx
                  rcases List.mem_append.mp hx with hx | hx
                  · exact escBytes_ne9 _ x hx
                  · exact h9 x hx
                · have := escBytes_length (utf8Encode c)
                  have := utf8Encode_pos c
                  simp only [List.length_cons, List.length_append]
                  omega
                · intro f t out ht
                  have h2 := dec_cp2 (f + s0.length) c (by omega) hmed
                    (w0 ++ t)
                  rw [List.append_assoc]
                  show jsDecodeURIF (f + s0.length + 1)
                    (escBytes (utf8Encode c) ++ (w0 ++ t))
                    = some (c :: (s0 ++ out))
                  rw [h2, hdec f t out ht]
                  rfl
              · refine ⟨escBytes (utf8Encode c) ++ w0, ?_, ?_, ?_, ?_⟩
                · intro X
                  rw [List.append_assoc,
                    repl_escBytes _ (utf8_bytes_ne32 _ (by omega)) _,
                    hdist X, List.append_assoc]
                · intro x hx
                  rcases List.mem_append.mp hx with hx | hx
                  · exact escBytes_ne9 _ x hx
                  · exact h9 x hx
                · have := escBytes_length (utf8Encode c)
                  have := utf8Encode_pos c
                  simp only [List.length_cons, List.length_append]
                  omega
                · intro f t out ht
                  have h2 := dec_cp3 (f + s0.length) c (by omega) hc16
                    (by omega) (w0 ++ t)
                  rw [List.append_assoc]
                  show jsDecodeURIF (f + s0.length + 1)
                    (escBytes (utf8Encode c) ++ (w0 ++ t))
                    = some (c :: (s0 ++ out))
                  rw [h2, hdec f t out ht]
                  rfl

theorem splitTab_no_tab : ∀ (t : Str), (∀ c ∈ t, c ≠ 9) →
    splitTab t = [t] := by
  intro t
  induction t with
  | nil => intro _; rfl
  | cons c t ih =>
    intro h
    rw [splitTab, if_neg (h c (by simp)), ih (fun x hx => h x (by simp [hx]))]
    rfl

theorem splitTab_boundary : ∀ (t : Str), (∀ c ∈ t, c ≠ 9) → ∀ rest,
    splitTab (t ++ 9 :: rest) = t :: splitTab rest := by
  intro t
  induction t with
  | nil =>
    intro _ rest
    rw [List.nil_append, splitTab, if_pos rfl]
  | cons c t ih =>
    intro h rest
    rw [List.cons_append, splitTab, if_neg (h c (by simp)),
      ih (fun x hx => h x (by simp [hx])) rest]
    rfl

theorem natDigitsAux_spec : ∀ fuel n, n < fuel →
    (∀ c ∈ natDigitsAux fuel n, 48 ≤ c ∧ c ≤ 57) ∧
    natDigitsAux fuel n ≠ [] ∧
    digitsToNat (natDigitsAux fuel n) = n := by
  intro fuel
  induction fuel with
  | zero => intro n hn; omega
  | succ fuel ih =>
    intro n hn
    by_cases h10 : n < 10
    · rw [natDigitsAux, if_pos h10]
      refine ⟨?_, by simp, ?_⟩
      · intro c hc
        simp only [List.mem_singleton] at hc
        omega
      · simp [digitsToNat]
    · rw [natDigitsAux, if_neg h10]
      obtain ⟨hd, hne, hv⟩ := ih (n / 10) (by omega)
      refine ⟨?_, by simp, ?_⟩
      · intro c hc
        rcases List.mem_append.mp hc with hc | hc
        · exact hd c hc
        · simp only [List.mem_singleton] at hc
          omega
      · unfold digitsToNat at hv ⊢
        rw [List.foldl_append]
        simp only [List.foldl_cons, List.foldl_nil]
        rw [hv]
        omega

theorem takeWhile_all {p : Nat → Bool} : ∀ (l : List Nat),
    (∀ c ∈ l, p c = true) → l.takeWhile p = l := by
  intro l
  induction l with
  | nil => intro _; rfl
  | cons c l ih =>
    intro h
    rw [List.takeWhile_cons, if_pos (h c (by simp)),
      ih (fun x hx => h x (by simp [hx]))]

theorem dropWhile_none {p : Nat → Bool} : ∀ (l : List Nat),
    (∀ c ∈ l, p c = false) → l.dropWhile p = l := by
  intro l
  induction l with
  | nil => intro _; rfl
  | cons c l _ =>
    intro h
    rw [List.dropWhile_cons, if_neg (by simp [h c (by simp)])]

theorem parse_natToStr (n : Nat) : parseIntJS (natToStr n) = some (n : Int) := by
  obtain ⟨hd, hne, hv⟩ := natDigitsAux_spec (n + 1) n (by omega)
  have hdig : ∀ c ∈ natToStr n, 48 ≤ c ∧ c ≤ 57 := hd
  have hdw : (natToStr n).dropWhile (fun c => isWhitespace c) = natToStr n := by
    apply dropWhile_none
    intro c hc
    have := hdig c hc
    simp [isWhitespace]
    omega
  have htw : (natToStr n).takeWhile (fun c => decide (48 ≤ c ∧ c ≤ 57))
      = natToStr n := by
    apply takeWhile_all
    intro c hc
    simpa using hdig c hc
  obtain ⟨c0, cs, hshape⟩ : ∃ c0 cs, natToStr n = c0 :: cs := by
    rcases hx : natToStr n with _ | ⟨a, b⟩
    · exact absurd hx hne
    · exact ⟨a, b, rfl⟩
  have hc0 : 48 ≤ c0 ∧ c0 ≤ 57 := hdig c0 (by rw [hshape]; simp)
  unfold parseIntJS
  rw [hdw]
  rw [if_neg (by
      rw [hshape]
      simp only [List.head?_cons, Option.some.injEq]
      omega),
    if_neg (by
      rw [hshape]
      simp only [List.head?_cons, Option.some.injEq]
      omega)]
  unfold digitsVal
  have hne2 : natToStr n ≠ [] := hne
  have hv2 : digitsToNat (natToStr n) = n := hv
  rw [htw, if_neg hne2, hv2]
  rfl

theorem jsSubstring_mid (pre s suf : Str) :
    jsSubstring (pre ++ (s ++ suf)) pre.length (pre.length + s.length)
      = s := by
  rw [jsSubstring_of_le _ _ _ (by omega)]
  have h1 : (pre ++ (s ++ suf)).take (pre.length + s.length) = pre ++ s := by
    rw [List.take_append_eq_append_take,
      List.take_of_length_le (by omega : pre.length ≤ pre.length + s.length)]
    congr 1
    rw [show pre.length + s.length - pre.length = s.length by omega]
    exact List.take_left s suf
  rw [h1, List.drop_left]

theorem digits_tok_facts (m : Nat) :
    (∀ c ∈ natToStr m, c ≠ 37) ∧ (∀ c ∈ natToStr m, c ≠ 9) := by
  obtain ⟨hd, _, _⟩ := natDigitsAux_spec (m + 1) m (by omega)
  constructor
  · intro c hc
    have := hd c hc
    omega
  · intro c hc
    have := hd c hc
    omega

theorem toDeltaTokens_nil_iff : ∀ d T, toDeltaTokens d = some T →
    (T = [] ↔ d = []) := by
  intro d T ht
  cases d with
  | nil =>
    replace ht : some [] = some T := ht
    simp only [Option.some.injEq] at ht
    subst ht
    simp
  | cons p rest =>
    obtain ⟨op, s⟩ := p
    cases op with
    | ins =>
      replace ht : (match jsEncodeURI s with
        | none => none
        | some e =>
          match toDeltaTokens rest with
          | none => none
          | some ts => some ((43 :: e) :: ts)) = some T := ht
      rcases he : jsEncodeURI s with _ | e
      · rw [he] at ht; simp at ht
      rw [he] at ht
      rcases hr : toDeltaTokens rest with _ | ts
      · rw [hr] at ht; simp at ht
      rw [hr] at ht
      replace ht : some ((43 :: e) :: ts) = some T := ht
      simp only [Option.some.injEq] at ht
      subst ht
      simp
    | del =>
      replace ht : (match toDeltaTokens rest with
        | none => none
        | some ts => some ((45 :: natToStr s.length) :: ts)) = some T := ht
      rcases hr : toDeltaTokens rest with _ | ts
      · rw [hr] at ht; simp at ht
      rw [hr] at ht
      replace ht : some ((45 :: natToStr s.length) :: ts) = some T := ht
      simp only [Option.some.injEq] at ht
      subst ht
      simp
    | eq =>
      replace ht : (match toDeltaTokens rest with
        | none => none
        | some ts => some ((61 :: natToStr s.length) :: ts)) = some T := ht
      rcases hr : toDeltaTokens rest with _ | ts
      · rw [hr] at ht; simp at ht
      rw [hr] at ht
      replace ht : some ((61 :: natToStr s.length) :: ts) = some T := ht
      simp only [Option.some.injEq] at ht
      subst ht
      simp

/-- Per-token form of the replacement: the replaced token stream of a
tab join splits back into the individually replaced tokens. -/
theorem split_repl_join : ∀ d T, toDeltaTokens d = some T →
    (∀ p ∈ d, ∀ u ∈ p.2, u < 65536) → d ≠ [] →
    splitTab (replacePct20 (joinTab T)) = T.map replacePct20 := by
  intro d
  induction d with
  | nil => intro T _ _ hne; exact absurd rfl hne
  | cons p rest ih =>
    intro T ht hu _
    obtain ⟨op, s⟩ := p
    have tok_spec : ∃ tok T2, T = tok :: T2 ∧ toDeltaTokens rest = some T2 ∧
        (∀ X, replacePct20 (tok ++ X)
          = replacePct20 tok ++ replacePct20 X) ∧
        (∀ c ∈ replacePct20 tok, c ≠ 9) := by
      cases op with
      | ins =>
        replace ht : (match jsEncodeURI s with
          | none => none
          | some e =>
            match toDeltaTokens rest with
            | none => none
            | some ts => some ((43 :: e) :: ts)) = some T := ht
        rcases he : jsEncodeURI s with _ | e
        · rw [he] at ht; simp at ht
        rw [he] at ht
        rcases hr : toDeltaTokens rest with _ | ts
        · rw [hr] at ht; simp at ht
        rw [hr] at ht
        replace ht : some ((43 :: e) :: ts) = some T := ht
        simp only [Option.some.injEq] at ht
        subst ht
        obtain ⟨w, hdist, h9, hlen, hdec⟩ := encMaster s.length s le_rfl
          (fun u hu2 => hu (Op.ins, s) (by simp) u hu2) e he
        have hrepl : replacePct20 (43 :: e) = 43 :: w := by
          rw [repl_cons_ne 43 _ (by omega),
            show e = e ++ [] by simp, hdist [],
            show replacePct20 ([] : Str) = [] from rfl, List.append_nil]
        refine ⟨43 :: e, ts, rfl, rfl, ?_, ?_⟩
        · intro X
          rw [List.cons_append, repl_cons_ne 43 _ (by omega), hdist X,
            hrepl, List.cons_append]
        · rw [hrepl]
          intro c hc
          rcases List.mem_cons.mp hc with rfl | hc
          · omega
          · exact h9 c hc
      | del =>
        replace ht : (match toDeltaTokens rest with
          | none => none
          | some ts => some ((45 :: natToStr s.length) :: ts)) = some T := ht
        rcases hr : toDeltaTokens rest with _ | ts
        · rw [hr] at ht; simp at ht
        rw [hr] at ht
        replace ht : some ((45 :: natToStr s.length) :: ts) = some T := ht
        simp only [Option.some.injEq] at ht
        subst ht
        obtain ⟨h37, h9⟩ := digits_tok_facts s.length
        have hno37 : ∀ c ∈ 45 :: natToStr s.length, c ≠ 37 := by
          intro c hc
          rcases List.mem_cons.mp hc with rfl | hc
          · omega
          · exact h37 c hc
        have hrepl : replacePct20 (45 :: natToStr s.length)
            = 45 :: natToStr s.length := by
          conv_lhs => rw [show (45 :: natToStr s.length : Str)
              = (45 :: natToStr s.length) ++ [] by simp]
          rw [repl_no37 _ hno37,
            show replacePct20 ([] : Str) = [] from rfl, List.append_nil]
        refine ⟨45 :: natToStr s.length, ts, rfl, rfl, ?_, ?_⟩
        · intro X
          rw [repl_no37 _ hno37, hrepl]
        · rw [hrepl]
          intro c hc
          rcases List.mem_cons.mp hc with rfl | hc
          · omega
          · exact h9 c hc
      | eq =>
        replace ht : (match toDeltaTokens rest with
          | none => none
          | some ts => some ((61 :: natToStr s.length) :: ts)) = some T := ht
        rcases hr : toDeltaTokens rest with _ | ts
        · rw [hr] at ht; simp at ht
        rw [hr] at ht
        replace ht : some ((61 :: natToStr s.length) :: ts) = some T := ht
        simp only [Option.some.injEq] at ht
        subst ht
        obtain ⟨h37, h9⟩ := digits_tok_facts s.length
        have hno37 : ∀ c ∈ 61 :: natToStr s.length, c ≠ 37 := by
          intro c hc
          rcases List.mem_cons.mp hc with rfl | hc
          · omega
          · exact h37 c hc
        have hrepl : replacePct20 (61 :: natToStr s.length)
            = 61 :: natToStr s.length := by
          conv_lhs => rw [show (61 :: natToStr s.length : Str)
              = (61 :: natToStr s.length) ++ [] by simp]
          rw [repl_no37 _ hno37,
            show replacePct20 ([] : Str) = [] from rfl, List.append_nil]
        refine ⟨61 :: natToStr s.length, ts, rfl, rfl, ?_, ?_⟩
        · intro X
          rw [repl_no37 _ hno37, hrepl]
        · rw [hrepl]
          intro c hc
          rcases List.mem_cons.mp hc with rfl | hc
          · omega
          · exact h9 c hc
    obtain ⟨tok, T2, rfl, hr2, hdist2, h92⟩ := tok_spec
    rcases hT2 : T2 with _ | ⟨t2, ts2⟩
    · show splitTab (replacePct20 (joinTab [tok])) = [tok].map replacePct20
      rw [show joinTab [tok] = tok from rfl]
      rw [show replacePct20 tok = replacePct20 (tok ++ []) by simp,
        hdist2 []]
      rw [show replacePct20 ([] : Str) = [] from rfl, List.append_nil]
      rw [splitTab_no_tab _ h92]
      rfl
    · rw [hT2] at hr2
      have hrest_ne : rest ≠ [] := by
        intro hx
        subst hx
        replace hr2 : some [] = some (t2 :: ts2) := hr2
        simp at hr2
      rw [show joinTab (tok :: t2 :: ts2)
          = tok ++ 9 :: joinTab (t2 :: ts2) from rfl]
      rw [hdist2 (9 :: joinTab (t2 :: ts2)),
        repl_cons_ne 9 _ (by omega),
        splitTab_boundary _ h92 _,
        ih (t2 :: ts2) hr2
          (fun p hp => hu p (by simp [hp])) hrest_ne]
      rfl

/-- Decoding the replaced token of an encoded insert text gives the
text back. -/
theorem dec_of_master (s e w : Str)
    (hlen : s.length ≤ w.length)
    (hdec : ∀ f t out, jsDecodeURIF f t = some out →
      jsDecodeURIF (f + s.length) (w ++ t) = some (s ++ out)) :
    jsDecodeURI w = some s := by
  unfold jsDecodeURI
  have h1 := hdec 1 [] [] rfl
  simp only [List.append_nil] at h1
  exact dec_mono_le _ _ _ _ h1 (by omega)

/-- The token loop of `diff_fromDelta` consumes the replaced tokens of
a successfully encoded script and rebuilds it, advancing the cursor
from `pre.length` to the end of `pre ++ diff_text1 d`. -/
theorem fromDelta_loop_spec : ∀ d T, toDeltaTokens d = some T →
    (∀ p ∈ d, ∀ u ∈ p.2, u < 65536) → ∀ pre,
    fromDeltaLoop (T.map replacePct20) (pre ++ diff_text1 d) pre.length
      = Except.ok d := by
  intro d
  induction d with
  | nil =>
    intro T ht _ pre
    replace ht : some [] = some T := ht
    simp only [Option.some.injEq] at ht
    subst ht
    show fromDeltaLoop [] (pre ++ diff_text1 []) pre.length = Except.ok []
    rw [show diff_text1 [] = ([] : Str) from rfl, List.append_nil]
    show (if pre.length = pre.length then Except.ok ([] : Script)
      else Except.error JsError.deltaLengthMismatch) = Except.ok []
    rw [if_pos rfl]
  | cons p rest ih =>
    intro T ht hu pre
    obtain ⟨op, s⟩ := p
    cases op with
    | ins =>
      replace ht : (match jsEncodeURI s with
        | none => none
        | some e =>
          match toDeltaTokens rest with
          | none => none
          | some ts => some ((43 :: e) :: ts)) = some T := ht
      rcases he : jsEncodeURI s with _ | e
      · rw [he] at ht; simp at ht
      rw [he] at ht
      rcases hr : toDeltaTokens rest with _ | ts
      · rw [hr] at ht; simp at ht
      rw [hr] at ht
      replace ht : some ((43 :: e) :: ts) = some T := ht
      simp only [Option.some.injEq] at ht
      subst ht
      obtain ⟨w, hdist, h9, hlen, hdec⟩ := encMaster s.length s le_rfl
        (fun u hu2 => hu (Op.ins, s) (by simp) u hu2) e he
      have hrepl : replacePct20 (43 :: e) = 43 :: w := by
        rw [repl_cons_ne 43 _ (by omega),
          show e = e ++ [] by simp, hdist [],
          show replacePct20 ([] : Str) = [] from rfl, List.append_nil]
      simp only [List.map_cons, hrepl, text1_cons_ins]
      rw [fromDeltaLoop]
      rw [if_pos (show (43 :: w).head? = some 43 from rfl)]
      rw [show (43 :: w).drop 1 = w from rfl]
      have hdecw : jsDecodeURI w = some s := dec_of_master s e w hlen hdec
      simp only [hdecw]
      rw [ih ts hr (fun q hq => hu q (by simp [hq])) pre]
    | del =>
      replace ht : (match toDeltaTokens rest with
        | none => none
        | some ts => some ((45 :: natToStr s.length) :: ts)) = some T := ht
      rcases hr : toDeltaTokens rest with _ | ts
      · rw [hr] at ht; simp at ht
      rw [hr] at ht
      replace ht : some ((45 :: natToStr s.length) :: ts) = some T := ht
      simp only [Option.some.injEq] at ht
      subst ht
      obtain ⟨h37, _⟩ := digits_tok_facts s.length
      have hno37 : ∀ c ∈ 45 :: natToStr s.length, c ≠ 37 := by
        intro c hc
        rcases List.mem_cons.mp hc with rfl | hc
        · omega
        · exact h37 c hc
      have hrepl : replacePct20 (45 :: natToStr s.length)
          = 45 :: natToStr s.length := by
        conv_lhs => rw [show (45 :: natToStr s.length : Str)
            = (45 :: natToStr s.length) ++ [] by simp]
        rw [repl_no37 _ hno37,
          show replacePct20 ([] : Str) = [] from rfl, List.append_nil]
      simp only [List.map_cons, hrepl, text1_cons_del]
      rw [fromDeltaLoop]
      rw [if_neg (show ¬ ((45 :: natToStr s.length).head? = some 43) by
          simp only [List.head?_cons, Option.some.injEq]
          omega),
        if_pos (Or.inl (show (45 :: natToStr s.length).head? = some 45
          from rfl))]
      rw [show (45 :: natToStr s.length).drop 1 = natToStr s.length from rfl]
      simp only [parse_natToStr]
      rw [if_neg (show ¬ ((s.length : Int) < 0) by omega)]
      rw [if_neg (show ¬ ((45 :: natToStr s.length).head? = some 61) by
          simp only [List.head?_cons, Option.some.injEq]
          omega)]
      rw [show ((s.length : Int)).toNat = s.length from Int.toNat_natCast _]
      rw [show pre ++ (s ++ diff_text1 rest)
          = (pre ++ s) ++ diff_text1 rest by simp]
      rw [show jsSubstring ((pre ++ s) ++ diff_text1 rest) pre.length
            (pre.length + s.length) = s from by
        rw [List.append_assoc]
        exact jsSubstring_mid pre s (diff_text1 rest)]
      rw [show pre.length + s.length = (pre ++ s).length by simp]
      rw [ih ts hr (fun q hq => hu q (by simp [hq])) (pre ++ s)]
    | eq =>
      replace ht : (match toDeltaTokens rest with
        | none => none
        | some ts => some ((61 :: natToStr s.length) :: ts)) = some T := ht
      rcases hr : toDeltaTokens rest with _ | ts
      · rw [hr] at ht; simp at ht
      rw [hr] at ht
      replace ht : some ((61 :: natToStr s.length) :: ts) = some T := ht
      simp only [Option.some.injEq] at ht
      subst ht
      obtain ⟨h37, _⟩ := digits_tok_facts s.length
      have hno37 : ∀ c ∈ 61 :: natToStr s.length, c ≠ 37 := by
        intro c hc
        rcases List.mem_cons.mp hc with rfl | hc
        · omega
        · exact h37 c hc
      have hrepl : replacePct20 (61 :: natToStr s.length)
          = 61 :: natToStr s.length := by
        conv_lhs => rw [show (61 :: natToStr s.length : Str)
            = (61 :: natToStr s.length) ++ [] by simp]
        rw [repl_no37 _ hno37,
          show replacePct20 ([] : Str) = [] from rfl, List.append_nil]
      simp only [List.map_cons, hrepl, text1_cons_eq]
      rw [fromDeltaLoop]
      rw [if_neg (show ¬ ((61 :: natToStr s.length).head? = some 43) by
          simp only [List.head?_cons, Option.some.injEq]
          omega),
        if_pos (Or.inr (show (61 :: natToStr s.length).head? = some 61
          from rfl))]
      rw [show (61 :: natToStr s.length).drop 1 = natToStr s.length from rfl]
      simp only [parse_natToStr]
      rw [if_neg (show ¬ ((s.length : Int) < 0) by omega)]
      rw [if_pos (show (61 :: natToStr s.length).head? = some 61 from rfl)]
      rw [show ((s.length : Int)).toNat = s.length from Int.toNat_natCast _]
      rw [show pre ++ (s ++ diff_text1 rest)
          = (pre ++ s) ++ diff_text1 rest by simp]
      rw [show jsSubstring ((pre ++ s) ++ diff_text1 rest) pre.length
            (pre.length + s.length) = s from by
        rw [List.append_assoc]
        exact jsSubstring_mid pre s (diff_text1 rest)]
      rw [show pre.length + s.length = (pre ++ s).length by simp]
      rw [ih ts hr (fun q hq => hu q (by simp [hq])) (pre ++ s)]

theorem halvingLoop_allTrue (test : Nat → Nat → Bool)
    (h : ∀ s m, test s m = true) :
    ∀ fuel pmin pmax pstart,
      halvingLoop test fuel pmin pmax pmax pstart = pmax := by
  intro fuel
  induction fuel with
  | zero => intro pmin pmax pstart; rfl
  | succ fuel ih =>
    intro pmin pmax pstart
    rw [halvingLoop]
    by_cases hlt : pmin < pmax
    · rw [if_pos hlt, if_pos (h pstart pmax)]
      rw [show (pmax - pmax) / 2 + pmax = pmax by omega]
      exact ih pmax pmax pmax
    · rw [if_neg hlt]

theorem jsShl_small (m : Nat) (hm : m ≤ 31) : jsShl 1 (m : Int) = 2 ^ m := by
  unfold jsShl jsShiftCount
  have h32 : (m : Int) % 32 = (m : Int) := by
    apply Int.emod_eq_of_lt <;> omega
  rw [h32, show ((m : Int)).toNat = m from Int.toNat_natCast m]
  rw [Nat.shiftLeft_eq, one_mul]
  apply Nat.mod_eq_of_lt
  show 2 ^ m < pow32
  rw [show pow32 = 2 ^ 32 from rfl]
  exact Nat.pow_lt_pow_right (by omega) (by omega)

theorem and_two_pow_ne (v k : Nat) :
    v &&& 2 ^ k ≠ 0 ↔ Nat.testBit v k = true := by
  constructor
  · intro h2
    by_contra hb
    simp only [Bool.not_eq_true] at hb
    rw [Nat.and_two_pow, hb] at h2
    simp at h2
  · intro hb
    rw [Nat.and_two_pow, hb]
    simp only [Bool.toNat_true, one_mul]
    exact (pow_pos (by omega : (0 : Nat) < 2) k).ne'

theorem alphabet_fold (p : Str) (hp32 : p.length ≤ 32) (u k : Nat) :
    ∀ (L : List Nat), (∀ i ∈ L, i < p.length) → ∀ acc,
      (Nat.testBit (L.foldl (fun acc i =>
          if p.get? i = some u then
            acc ||| jsShl 1 ((p.length : Int) - i - 1)
          else acc) acc) k = true
        ↔ Nat.testBit acc k = true
          ∨ ∃ i ∈ L, p.get? i = some u ∧ p.length - 1 - i = k) := by
  intro L
  induction L with
  | nil =>
    intro _ acc
    simp
  | cons i L ih =>
    intro hmem acc
    rw [List.foldl_cons, ih (fun x hx => hmem x (by simp [hx]))]
    have hi : i < p.length := hmem i (by simp)
    have hshl : jsShl 1 ((p.length : Int) - i - 1)
        = 2 ^ (p.length - 1 - i) := by
      rw [show ((p.length : Int) - i - 1)
          = ((p.length - 1 - i : Nat) : Int) by push_cast; omega]
      exact jsShl_small _ (by omega)
    by_cases hg : p.get? i = some u
    · rw [if_pos hg, hshl]
      constructor
      · rintro (hacc | hrest)
        · rw [Nat.testBit_or] at hacc
          rcases Bool.or_eq_true_iff.mp hacc with hacc | hpow
          · exact Or.inl hacc
          · right
            refine ⟨i, by simp, hg, ?_⟩
            by_contra hne
            rw [Nat.testBit_two_pow_of_ne hne] at hpow
            simp at hpow
        · obtain ⟨i2, hi2, hgi2, hki2⟩ := hrest
          exact Or.inr ⟨i2, by simp [hi2], hgi2, hki2⟩
      · rintro (hacc | ⟨i2, hi2, hgi2, hki2⟩)
        · left
          rw [Nat.testBit_or, hacc]
          simp
        · rcases List.mem_cons.mp hi2 with rfl | hi2
          · left
            rw [Nat.testBit_or, ← hki2, Nat.testBit_two_pow_self]
            simp
          · exact Or.inr ⟨i2, hi2, hgi2, hki2⟩
    · rw [if_neg hg]
      constructor
      · rintro (hacc | ⟨i2, hi2, hgi2, hki2⟩)
        · exact Or.inl hacc
        · exact Or.inr ⟨i2, by simp [hi2], hgi2, hki2⟩
      · rintro (hacc | ⟨i2, hi2, hgi2, hki2⟩)
        · exact Or.inl hacc
        · rcases List.mem_cons.mp hi2 with rfl | hi2
          · exact absurd hgi2 hg
          · exact Or.inr ⟨i2, hi2, hgi2, hki2⟩

theorem alphabet_testBit (p : Str) (hp32 : p.length ≤ 32) (u k : Nat) :
    Nat.testBit (match_alphabet_ p (some u)) k = true
      ↔ (k < p.length ∧ p.get? (p.length - 1 - k) = some u) := by
  unfold match_alphabet_
  rw [alphabet_fold p hp32 u k (List.range p.length)
    (fun i hi => List.mem_range.mp hi) 0]
  simp only [Nat.zero_testBit, Bool.false_eq_true, false_or, List.mem_range]
  constructor
  · rintro ⟨i, hi, hgi, hki⟩
    have hik : i = p.length - 1 - k := by omega
    exact ⟨by omega, by rw [← hik]; exact hgi⟩
  · rintro ⟨hk, hg⟩
    exact ⟨p.length - 1 - k, by omega, hg, by omega⟩

theorem alphabet_none (p : Str) : match_alphabet_ p none = 0 := rfl

theorem rd0_testBit (charMatch rdNext lrn lrh k : Nat) (hk : k ≤ 31) :
    Nat.testBit (bitapRdValue 0 charMatch rdNext lrn lrh) k = true
      ↔ Nat.testBit charMatch k = true
        ∧ (k = 0 ∨ Nat.testBit rdNext (k - 1) = true) := by
  unfold bitapRdValue
  rw [if_pos rfl]
  rw [show pow32 = 2 ^ 32 from rfl, Nat.testBit_mod_two_pow]
  rw [Nat.testBit_and, Nat.testBit_or, Nat.testBit_shiftLeft]
  cases k with
  | zero =>
    simp [(by decide : Nat.testBit 1 0 = true)]
  | succ k =>
    have h32 : decide (k + 1 < 32) = true := decide_eq_true (by omega)
    have h1b : Nat.testBit 1 (k + 1) = false := by
      rw [show (1 : Nat) = 2 ^ 0 from rfl]
      exact Nat.testBit_two_pow_of_ne (by omega)
    have h1le : decide (1 ≤ k + 1) = true := decide_eq_true (by omega)
    simp only [h32, h1b, h1le, Bool.true_and, Bool.or_false,
      Bool.and_eq_true, Nat.add_sub_cancel]
    tauto

theorem score_pos (cfg : DMPConfig) (e x : Nat) (pattern : Str) (loc : Nat)
    (he : 1 ≤ e) (hp : 0 < pattern.length) :
    0 < match_bitapScore_ cfg e x pattern loc := by
  unfold match_bitapScore_
  have hacc : (0 : ℚ) < (e : ℚ) / (pattern.length : ℚ) := by
    apply div_pos
    · exact_mod_cast he
    · exact_mod_cast hp
  have hnn : (0 : ℚ) ≤ (((loc : Int) - (x : Int)).natAbs : ℚ)
      / (cfg.Match_Distance : ℚ) := by positivity
  split_ifs with h1
  · show (0 : ℚ) < if ((loc : Int) - (x : Int)).natAbs ≠ 0 then 1
      else (e : ℚ) / (pattern.length : ℚ)
    by_cases h2 : ((loc : Int) - (x : Int)).natAbs ≠ 0
    · rw [if_pos h2]
      norm_num
    · rw [if_neg h2]
      exact hacc
  · linarith

/-- Soundness invariant of the `d = 0` Bitap row: a set bit `k` at
index `i` certifies that the length-`k+1` suffix of the pattern occurs
in the text starting at `i - 1`. -/
def sweepInv (text pattern : Str) (rd : Nat → Nat) : Prop :=
  ∀ i k, k < pattern.length → Nat.testBit (rd i) k = true →
    1 ≤ i ∧ (i - 1) + (k + 1) ≤ text.length ∧
      (text.drop (i - 1)).take (k + 1) = pattern.drop (pattern.length - 1 - k)

/-- The best-location accumulator is `-1` or marks an exact
occurrence. -/
def okBest (text pattern : Str) (b : Int) : Prop :=
  b = -1 ∨ (0 ≤ b ∧ matchAt text pattern b.toNat = true)

theorem drop_take_cons (l : Str) (j : Nat) (u : Nat) (hj : l.get? j = some u) :
    l.drop j = u :: l.drop (j + 1) := by
  have hjl : j < l.length := by
    by_contra hx
    rw [List.get?_eq_none.mpr (by omega)] at hj
    simp at hj
  rw [List.drop_eq_get_cons hjl]
  congr 1
  have := List.get?_eq_get hjl
  rw [this] at hj
  simpa using hj

theorem bitapSweep_sound (cfg : DMPConfig) (text pattern : Str)
    (loc matchmask : Nat) (lastRd : Nat → Nat)
    (hp : 0 < pattern.length) (hp32 : pattern.length ≤ 32)
    (hmask : matchmask = 2 ^ (pattern.length - 1)) :
    ∀ j start thr bestLoc rd, thr ≤ 0 →
      sweepInv text pattern rd → okBest text pattern bestLoc →
      sweepInv text pattern
          (bitapSweep cfg text pattern loc matchmask 0 lastRd j start thr
            bestLoc rd).1
        ∧ (bitapSweep cfg text pattern loc matchmask 0 lastRd j start thr
            bestLoc rd).2.1 ≤ thr
        ∧ okBest text pattern
          (bitapSweep cfg text pattern loc matchmask 0 lastRd j start thr
            bestLoc rd).2.2 := by
  intro j
  induction j with
  | zero =>
    intro start thr bestLoc rd hthr hinv hok
    exact ⟨hinv, le_rfl, hok⟩
  | succ j ih =>
    intro start thr bestLoc rd hthr hinv hok
    rw [bitapSweep]
    by_cases hst : j + 1 < start
    · rw [if_pos hst]
      exact ⟨hinv, le_rfl, hok⟩
    rw [if_neg hst]
    have hinv2 : sweepInv text pattern (fun i => if i = j + 1 then
        bitapRdValue 0 (match_alphabet_ pattern (jsCharAt text j)) (rd (j + 2))
          (lastRd (j + 2)) (lastRd (j + 1)) else rd i) := by
      intro i k hk htb
      by_cases hij : i = j + 1
      · subst hij
        replace htb : Nat.testBit (bitapRdValue 0
            (match_alphabet_ pattern (jsCharAt text j)) (rd (j + 2))
            (lastRd (j + 2)) (lastRd (j + 1))) k = true := by
          simpa using htb
        rw [rd0_testBit _ _ _ _ _ (by omega)] at htb
        obtain ⟨hcm, hor⟩ := htb
        rcases hu : jsCharAt text j with _ | u
        · rw [hu, alphabet_none] at hcm
          simp [Nat.zero_testBit] at hcm
        rw [hu, alphabet_testBit pattern hp32 u k] at hcm
        obtain ⟨hk2, hgp⟩ := hcm
        have hjt : text.get? j = some u := hu
        have hjlen : j < text.length := by
          by_contra hx
          rw [List.get?_eq_none.mpr (by omega)] at hjt
          simp at hjt
        have htext : text.drop j = u :: text.drop (j + 1) :=
          drop_take_cons text j u hjt
        have hpat : pattern.drop (pattern.length - 1 - k)
            = u :: pattern.drop (pattern.length - k) := by
          have h2 := drop_take_cons pattern (pattern.length - 1 - k) u hgp
          rw [h2, show pattern.length - 1 - k + 1 = pattern.length - k
            by omega]
        by_cases hk0 : k = 0
        · subst hk0
          refine ⟨by omega, by omega, ?_⟩
          rw [show j + 1 - 1 = j from rfl, htext, hpat]
          rw [show pattern.length - 0 = pattern.length from rfl,
            List.drop_length]
          rfl
        · have hbit : Nat.testBit (rd (j + 2)) (k - 1) = true := by
            rcases hor with h0 | hb
            · omega
            · exact hb
          obtain ⟨_, hb2, hs2⟩ := hinv (j + 2) (k - 1) (by omega) hbit
          refine ⟨by omega, by omega, ?_⟩
          rw [show j + 1 - 1 = j from rfl, htext, hpat]
          rw [List.take_succ_cons]
          congr 1
          rw [show j + 2 - 1 = j + 1 from rfl] at hs2
          rw [show k - 1 + 1 = k by omega] at hs2
          rw [show pattern.length - 1 - (k - 1) = pattern.length - k
            by omega] at hs2
          exact hs2
      · replace htb : Nat.testBit (rd i) k = true := by
          simpa [hij] using htb
        exact hinv i k hk htb
    by_cases hv : bitapRdValue 0 (match_alphabet_ pattern (jsCharAt text j))
        (rd (j + 2)) (lastRd (j + 2)) (lastRd (j + 1)) &&& matchmask ≠ 0
    · rw [if_pos hv]
      have hbit : Nat.testBit (bitapRdValue 0
          (match_alphabet_ pattern (jsCharAt text j)) (rd (j + 2))
          (lastRd (j + 2)) (lastRd (j + 1))) (pattern.length - 1) = true := by
        rw [← and_two_pow_ne]
        rw [hmask] at hv
        exact hv
      obtain ⟨_, hbound, hsfx⟩ := hinv2 (j + 1) (pattern.length - 1)
        (by omega) (by simpa using hbit)
      have hmatch : matchAt text pattern j = true := by
        unfold matchAt
        rw [Bool.and_eq_true]
        refine ⟨decide_eq_true (by omega), decide_eq_true ?_⟩
        rw [show j + 1 - 1 = j from rfl] at hsfx
        rw [show pattern.length - 1 - (pattern.length - 1) = 0 by omega,
          List.drop_zero] at hsfx
        rw [show pattern.length - 1 + 1 = pattern.length by omega] at hsfx
        exact hsfx
      by_cases hsc : match_bitapScore_ cfg 0 j pattern loc ≤ thr
      · rw [if_pos hsc]
        by_cases hjl : (j : Int) > (loc : Int)
        · rw [if_pos hjl]
          have hres := ih (max 1 ((2 * (loc : Int) - (j : Int)).toNat))
            (match_bitapScore_ cfg 0 j pattern loc) (j : Int) _
            (le_trans hsc hthr) hinv2
            (Or.inr ⟨by exact_mod_cast Nat.zero_le j,
              by simpa [Int.toNat_natCast] using hmatch⟩)
          exact ⟨hres.1, le_trans hres.2.1 hsc, hres.2.2⟩
        · rw [if_neg hjl]
          refine ⟨hinv2, hsc, Or.inr ⟨?_, ?_⟩⟩
          · show (0 : Int) ≤ (j : Int)
            exact_mod_cast Nat.zero_le j
          · show matchAt text pattern ((j : Int)).toNat = true
            simpa [Int.toNat_natCast] using hmatch
      · rw [if_neg hsc]
        exact ih start thr bestLoc _ hthr hinv2 hok
    · rw [if_neg hv]
      exact ih start thr bestLoc _ hthr hinv2 hok

theorem bitapSweep_no_hit (cfg : DMPConfig) (text pattern : Str)
    (loc matchmask d : Nat) (lastRd : Nat → Nat)
    (hd : 1 ≤ d) (hp : 0 < pattern.length) :
    ∀ j start thr bestLoc rd, thr ≤ 0 →
      (bitapSweep cfg text pattern loc matchmask d lastRd j start thr
        bestLoc rd).2.1 = thr ∧
      (bitapSweep cfg text pattern loc matchmask d lastRd j start thr
        bestLoc rd).2.2 = bestLoc := by
  intro j
  induction j with
  | zero =>
    intro start thr bestLoc rd _
    exact ⟨rfl, rfl⟩
  | succ j ih =>
    intro start thr bestLoc rd hthr
    rw [bitapSweep]
    by_cases hst : j + 1 < start
    · rw [if_pos hst]
      exact ⟨rfl, rfl⟩
    rw [if_neg hst]
    by_cases hv : bitapRdValue d (match_alphabet_ pattern (jsCharAt text j))
        (rd (j + 2)) (lastRd (j + 2)) (lastRd (j + 1)) &&& matchmask ≠ 0
    · rw [if_pos hv]
      have hpos := score_pos cfg d j pattern loc hd hp
      rw [if_neg (by linarith)]
      exact ih start thr bestLoc _ hthr
    · rw [if_neg hv]
      exact ih start thr bestLoc _ hthr

theorem score_le_one_dist0 (cfg : DMPConfig) (x : Nat) (pattern : Str)
    (loc : Nat) (hdist : cfg.Match_Distance = 0) :
    match_bitapScore_ cfg 0 x pattern loc ≤ 1 := by
  unfold match_bitapScore_
  rw [if_pos hdist]
  show (if ((loc : Int) - (x : Int)).natAbs ≠ 0 then (1 : ℚ)
    else (0 : ℚ) / (pattern.length : ℚ)) ≤ 1
  by_cases h2 : ((loc : Int) - (x : Int)).natAbs ≠ 0
  · rw [if_pos h2]
  · rw [if_neg h2]
    norm_num

theorem score_eq_one_dist0 (cfg : DMPConfig) (x : Nat) (pattern : Str)
    (loc : Nat) (hdist : cfg.Match_Distance = 0) (hx : x ≠ loc) :
    match_bitapScore_ cfg 0 x pattern loc = 1 := by
  unfold match_bitapScore_
  rw [if_pos hdist]
  show (if ((loc : Int) - (x : Int)).natAbs ≠ 0 then (1 : ℚ)
    else (0 : ℚ) / (pattern.length : ℚ)) = 1
  rw [if_pos (by
    intro hz
    rw [Int.natAbs_eq_zero] at hz
    omega)]

theorem jsLastIndexOf_spec (s pat : Str) (f i : Nat)
    (h : jsLastIndexOf s pat f = some i) : matchAt s pat i = true := by
  unfold jsLastIndexOf at h
  have h2 := List.find?_some h
  simp only [Bool.and_eq_true, decide_eq_true_eq] at h2
  exact h2.2

theorem bitapSweep_best_mono (cfg : DMPConfig) (text pattern : Str)
    (loc matchmask d : Nat) (lastRd : Nat → Nat) :
    ∀ j start thr bestLoc rd, 0 ≤ bestLoc →
      0 ≤ (bitapSweep cfg text pattern loc matchmask d lastRd j start thr
        bestLoc rd).2.2 := by
  intro j
  induction j with
  | zero => intro start thr bestLoc rd h; exact h
  | succ j ih =>
    intro start thr bestLoc rd h
    rw [bitapSweep]
    by_cases hst : j + 1 < start
    · rw [if_pos hst]
      exact h
    rw [if_neg hst]
    by_cases hv : bitapRdValue d (match_alphabet_ pattern (jsCharAt text j))
        (rd (j + 2)) (lastRd (j + 2)) (lastRd (j + 1)) &&& matchmask ≠ 0
    · rw [if_pos hv]
      by_cases hsc : match_bitapScore_ cfg d j pattern loc ≤ thr
      · rw [if_pos hsc]
        by_cases hjl : (j : Int) > (loc : Int)
        · rw [if_pos hjl]
          exact ih _ _ _ _ (by exact_mod_cast Nat.zero_le j)
        · rw [if_neg hjl]
          show (0 : Int) ≤ (j : Int)
          exact_mod_cast Nat.zero_le j
      · rw [if_neg hsc]
        exact ih _ _ _ _ h
    · rw [if_neg hv]
      exact ih _ _ _ _ h

theorem bitapLoop_step (cfg : DMPConfig) (text pattern : Str)
    (loc matchmask levels d : Nat) (thr : ℚ) (bestLoc : Int) (binMax : Nat)
    (lastRd : Nat → Nat) (bm fi st : Nat) (rd0 : Nat → Nat)
    (hbm : bm = halvingLoop
      (fun _ m => decide (match_bitapScore_ cfg d (loc + m) pattern loc ≤ thr))
      (binMax + 2) 0 binMax binMax 0)
    (hfi : fi = min (loc + bm) text.length + pattern.length)
    (hst : st = max 1 (((loc : Int) - (bm : Int) + 1).toNat))
    (hrd : rd0 = fun i => if i = fi + 1 then (jsShl 1 d - 1) % pow32 else 0) :
    bitapLoop cfg text pattern loc matchmask (levels + 1) d thr bestLoc binMax
        lastRd
      = if match_bitapScore_ cfg (d + 1) loc pattern loc >
            (bitapSweep cfg text pattern loc matchmask d lastRd fi st thr
              bestLoc rd0).2.1
        then (bitapSweep cfg text pattern loc matchmask d lastRd fi st thr
          bestLoc rd0).2.2
        else bitapLoop cfg text pattern loc matchmask levels (d + 1)
          (bitapSweep cfg text pattern loc matchmask d lastRd fi st thr
            bestLoc rd0).2.1
          (bitapSweep cfg text pattern loc matchmask d lastRd fi st thr
            bestLoc rd0).2.2
          bm
          (bitapSweep cfg text pattern loc matchmask d lastRd fi st thr
            bestLoc rd0).1 := by
  subst hbm
  subst hfi
  subst hst
  subst hrd
  rfl

theorem bitapLoop_best_mono (cfg : DMPConfig) (text pattern : Str)
    (loc matchmask : Nat) :
    ∀ levels d thr bestLoc binMax lastRd, 0 ≤ bestLoc →
      0 ≤ bitapLoop cfg text pattern loc matchmask levels d thr bestLoc binMax
        lastRd := by
  intro levels
  induction levels with
  | zero => intro d thr bestLoc binMax lastRd h; exact h
  | succ levels ih =>
    intro d thr bestLoc binMax lastRd h
    obtain ⟨bm, hbm⟩ : ∃ bm, bm = halvingLoop
        (fun _ m => decide (match_bitapScore_ cfg d (loc + m) pattern loc ≤ thr))
        (binMax + 2) 0 binMax binMax 0 := ⟨_, rfl⟩
    obtain ⟨fi, hfi⟩ : ∃ fi, fi
        = min (loc + bm) text.length + pattern.length := ⟨_, rfl⟩
    obtain ⟨st, hst⟩ : ∃ st, st
        = max 1 (((loc : Int) - (bm : Int) + 1).toNat) := ⟨_, rfl⟩
    obtain ⟨rd0, hrd⟩ : ∃ rd0 : Nat → Nat, rd0
        = fun i => if i = fi + 1 then (jsShl 1 d - 1) % pow32 else 0 :=
      ⟨_, rfl⟩
    rw [bitapLoop_step cfg text pattern loc matchmask levels d thr bestLoc
      binMax lastRd bm fi st rd0 hbm hfi hst hrd]
    by_cases hgt : match_bitapScore_ cfg (d + 1) loc pattern loc >
        (bitapSweep cfg text pattern loc matchmask d lastRd fi st thr bestLoc
          rd0).2.1
    · rw [if_pos hgt]
      exact bitapSweep_best_mono cfg text pattern loc matchmask d lastRd
        fi st thr bestLoc rd0 h
    · rw [if_neg hgt]
      exact ih (d + 1) _ _ _ _
        (bitapSweep_best_mono cfg text pattern loc matchmask d lastRd
          fi st thr bestLoc rd0 h)

theorem bitapLoop_sound (cfg : DMPConfig) (text pattern : Str)
    (loc matchmask : Nat)
    (hp : 0 < pattern.length) (hp32 : pattern.length ≤ 32)
    (hmask : matchmask = 2 ^ (pattern.length - 1)) :
    ∀ levels d thr bestLoc binMax lastRd, thr ≤ 0 →
      okBest text pattern bestLoc →
      okBest text pattern
        (bitapLoop cfg text pattern loc matchmask levels d thr bestLoc binMax
          lastRd) := by
  intro levels
  induction levels with
  | zero => intro d thr bestLoc binMax lastRd _ hok; exact hok
  | succ levels ih =>
    intro d thr bestLoc binMax lastRd hthr hok
    obtain ⟨bm, hbm⟩ : ∃ bm, bm = halvingLoop
        (fun _ m => decide (match_bitapScore_ cfg d (loc + m) pattern loc ≤ thr))
        (binMax + 2) 0 binMax binMax 0 := ⟨_, rfl⟩
    obtain ⟨fi, hfi⟩ : ∃ fi, fi
        = min (loc + bm) text.length + pattern.length := ⟨_, rfl⟩
    obtain ⟨st, hst⟩ : ∃ st, st
        = max 1 (((loc : Int) - (bm : Int) + 1).toNat) := ⟨_, rfl⟩
    obtain ⟨rd0, hrd⟩ : ∃ rd0 : Nat → Nat, rd0
        = fun i => if i = fi + 1 then (jsShl 1 d - 1) % pow32 else 0 :=
      ⟨_, rfl⟩
    rw [bitapLoop_step cfg text pattern loc matchmask levels d thr bestLoc
      binMax lastRd bm fi st rd0 hbm hfi hst hrd]
    by_cases hd : d = 0
    · subst hd
      have hinv0 : sweepInv text pattern rd0 := by
        intro i k hk htb
        rw [hrd] at htb
        by_cases hii : i = fi + 1 <;>
          simp [hii, (show (jsShl 1 0 - 1) % pow32 = 0 from rfl),
            Nat.zero_testBit] at htb
      obtain ⟨_, ht2, ho2⟩ := bitapSweep_sound cfg text pattern loc matchmask
        lastRd hp hp32 hmask fi st thr bestLoc rd0 hthr hinv0 hok
      by_cases hgt : match_bitapScore_ cfg (0 + 1) loc pattern loc >
          (bitapSweep cfg text pattern loc matchmask 0 lastRd fi st thr
            bestLoc rd0).2.1
      · rw [if_pos hgt]
        exact ho2
      · rw [if_neg hgt]
        exact ih 1 _ _ _ _ (le_trans ht2 hthr) ho2
    · have hd1 : 1 ≤ d := by omega
      obtain ⟨ht2, ho2⟩ := bitapSweep_no_hit cfg text pattern loc matchmask d
        lastRd hd1 hp fi st thr bestLoc rd0 hthr
      by_cases hgt : match_bitapScore_ cfg (d + 1) loc pattern loc >
          (bitapSweep cfg text pattern loc matchmask d lastRd fi st thr
            bestLoc rd0).2.1
      · rw [if_pos hgt, ho2]
        exact hok
      · rw [if_neg hgt, ht2, ho2]
        exact ih (d + 1) thr bestLoc _ _ hthr hok

/-- Texts returned by the top-level entry point round-trip to the two
inputs (shared consequence of diffGo_text). -/
theorem diff_main_text (clk : Nat → Bool) (cfg : DMPConfig)
    (fuel : Nat) (a b : Str) (checklines : Bool) (out : Script)
    (h : diff_main clk cfg fuel a b checklines = some out) :
    diff_text1 out = a ∧ diff_text2 out = b := by
  rw [diff_main] at h
  rcases hg : diffGo clk cfg fuel (DCall.main checklines a b 0)
    with _ | ⟨out0, ctr⟩
  · rw [hg] at h
    simp at h
  rw [hg] at h
  replace h : some out0 = some out := h
  simp only [Option.some.injEq] at h
  subst h
  exact diffGo_text clk cfg fuel _ _ _ hg

/-- C1: for every pair of strings a and b (any checklines flag and any
deadline oracle), whenever diff_main returns a script, concatenating the
texts of its non-INSERT segments (diff_text1) yields a and concatenating
the texts of its non-DELETE segments (diff_text2) yields b. -/
theorem C1_diff_main_roundtrip (clk : Nat → Bool) (cfg : DMPConfig)
    (fuel : Nat) (a b : Str) (checklines : Bool) (out : Script)
    (h : diff_main clk cfg fuel a b checklines = some out) :
    diff_text1 out = a ∧ diff_text2 out = b :=
  diff_main_text clk cfg fuel a b checklines out h

theorem C1_diff_main_roundtrip_witness :
    diff_main (fun _ => false) defaultConfig 5 [97, 98] [98] false
        = some [(Op.del, [97]), (Op.eq, [98])] ∧
      (diff_text1 [(Op.del, [97]), (Op.eq, [98])] = [97, 98] ∧
        diff_text2 [(Op.del, [97]), (Op.eq, [98])] = [98]) :=
  ⟨by decide,
   C1_diff_main_roundtrip (fun _ => false) defaultConfig 5 [97, 98] [98] false
     [(Op.del, [97]), (Op.eq, [98])] (by decide)⟩

/-- C3: for every string a, diff_main(a, a) short-circuits to the empty
script when a is empty and to the single-segment script [(EQUAL, a)]
otherwise (given at least one unit of recursion fuel). -/
theorem C3_diff_main_self (clk : Nat → Bool) (cfg : DMPConfig)
    (fuel : Nat) (hf : 0 < fuel) (a : Str) (checklines : Bool) :
    diff_main clk cfg fuel a a checklines
      = some (if a = [] then [] else [(Op.eq, a)]) := by
  obtain ⟨n, rfl⟩ : ∃ n, fuel = n + 1 :=
    ⟨fuel - 1, by omega⟩
  rw [diff_main, diffGo]
  rw [if_pos rfl]
  by_cases ha : a = []
  · rw [if_neg (by simpa using ha), if_pos ha]
  · rw [if_pos ha, if_neg ha]

theorem C3_diff_main_self_witness :
    diff_main (fun _ => false) defaultConfig 1 [97] [97] false
      = some [(Op.eq, [97])] := by
  have h := C3_diff_main_self (fun _ => false) defaultConfig 1 (by decide)
    [97] false
  simpa using h

/-- C6: for every pair of strings a and b, whenever diff_main returns a
script, diff_levenshtein of that script is at least the true Levenshtein
distance between a and b (the textbook metric `lev`) and at most
|a| + |b|. -/
theorem C6_levenshtein_bounds (clk : Nat → Bool) (cfg : DMPConfig)
    (fuel : Nat) (a b : Str) (checklines : Bool) (out : Script)
    (h : diff_main clk cfg fuel a b checklines = some out) :
    lev a b ≤ diff_levenshtein out ∧
      diff_levenshtein out ≤ a.length + b.length := by
  obtain ⟨h1, h2⟩ := diff_main_text clk cfg fuel a b checklines out h
  constructor
  · have := levLoop_lower out [] []
    simp only [List.nil_append, List.length_nil] at this
    rw [h1, h2] at this
    exact this
  · have := levLoop_upper out 0 0 0
    rw [h1, h2] at this
    simpa [diff_levenshtein] using this

theorem C5_counterexample :
    diff_main (fun _ => false) defaultConfig 6 [55357, 56832] [55357, 56898]
        false
      = some [(Op.eq, [55357]), (Op.del, [56832]), (Op.ins, [56898])] ∧
    diff_toDelta [(Op.eq, [55357]), (Op.del, [56832]), (Op.ins, [56898])]
      = none := by
  constructor
  · decide
  · decide

/-- C5: as stated the round trip can fail: diff_main may split a
surrogate pair, and diff_toDelta (via encodeURI) then throws on the
lone-surrogate insert, so from_delta(a, to_delta(diff(a,b))) is not
even defined for such inputs. Amended: for every script over valid
UTF-16 code units on which diff_toDelta succeeds — in particular every
script diff_main returns, when it succeeds — decoding the delta against
the script's text1 reproduces the script exactly. -/
theorem C5_amended_delta_roundtrip (d : Script) (delta : Str)
    (hu : ∀ p ∈ d, ∀ u ∈ p.2, u < 65536)
    (h : diff_toDelta d = some delta) :
    diff_fromDelta (diff_text1 d) delta = Except.ok d := by
  unfold diff_toDelta at h
  rcases ht : toDeltaTokens d with _ | T
  · rw [ht] at h
    simp at h
  rw [ht] at h
  replace h : some (replacePct20 (joinTab T)) = some delta := h
  simp only [Option.some.injEq] at h
  subst h
  by_cases hdn : d = []
  · subst hdn
    replace ht : some [] = some T := ht
    simp only [Option.some.injEq] at ht
    subst ht
    rfl
  · unfold diff_fromDelta
    rw [split_repl_join d T ht hu hdn]
    have hloop := fromDelta_loop_spec d T ht hu []
    simpa using hloop

theorem C5_amended_delta_roundtrip_witness :
    diff_toDelta [(Op.eq, [97]), (Op.del, [98]), (Op.ins, [37, 32])]
        = some [61, 49, 9, 45, 49, 9, 43, 37, 50, 53, 32] ∧
      diff_fromDelta
          (diff_text1 [(Op.eq, [97]), (Op.del, [98]), (Op.ins, [37, 32])])
          [61, 49, 9, 45, 49, 9, 43, 37, 50, 53, 32]
        = Except.ok [(Op.eq, [97]), (Op.del, [98]), (Op.ins, [37, 32])] :=
  ⟨by decide,
   C5_amended_delta_roundtrip
     [(Op.eq, [97]), (Op.del, [98]), (Op.ins, [37, 32])]
     [61, 49, 9, 45, 49, 9, 43, 37, 50, 53, 32]
     (by decide) (by decide)⟩

theorem C6_levenshtein_bounds_witness :
    lev [97] [98] ≤ diff_levenshtein [(Op.del, [97]), (Op.ins, [98])] ∧
      diff_levenshtein [(Op.del, [97]), (Op.ins, [98])]
        ≤ ([97] : Str).length + ([98] : Str).length :=
  C6_levenshtein_bounds (fun _ => false) defaultConfig 5 [97] [98] false
    [(Op.del, [97]), (Op.ins, [98])] (by decide)

end DMP
